import Mathlib

/-!
Verification of the Futoshiki CSP engine: a shallow embedding of the board
model (futoshiki_board.py), the inference procedures (inference.py), the
heuristics (heuristics.py) and the backtracking solver (csp_solver.py),
followed by theorems settling the specified properties.

Conventions of the embedding:
* A cell coordinate is a pair of naturals `(row, col)`.
* The grid is a row-major list of rows, `0` being the unassigned sentinel;
  `gridGet` reads with default `0` and `gridSet` writes (out-of-range writes
  are no-ops, matching the fact that the Python code never indexes out of
  range on the boards it is run on).
* The domain dictionary is a total function from cells to finite sets;
  Python's destructive updates become `Function.update`.
* Python's unordered set iteration is modelled by iterating in ascending
  order (`Finset.sort`), and general recursion (the AC work queue, the
  backtracking search) is modelled with an explicit fuel parameter; running
  out of fuel yields the failure result.
-/

/-- The two inequality operators, `'<'` and `'>'` of the source. -/
inductive Op where
  | lt : Op
  | gt : Op
deriving DecidableEq

/-- `opSat op a b` is the Python check of `a op b`: `a < b` for `'<'`,
`a > b` for `'>'`. -/
def opSat : Op → Nat → Nat → Bool
  | Op.lt, a, b => a < b
  | Op.gt, a, b => b < a

/-- A cell coordinate `(row, col)`. -/
abbrev Cell : Type := Nat × Nat

/-- An inequality constraint `((r1,c1),(r2,c2),op)` as stored in
`FutoshikiBoard.inequality_constraints`. -/
abbrev Cstr : Type := Cell × Cell × Op

/-- The state of a `FutoshikiBoard`: size, grid, domain map and the
constraint list. -/
structure Board where
  size : Nat
  grid : List (List Nat)
  domains : Cell → Finset Nat
  constraints : List Cstr

/-- Read `grid[r][c]`, with default `0` out of range. -/
def gridGet (g : List (List Nat)) (cell : Cell) : Nat :=
  (g.getD cell.1 []).getD cell.2 0

/-- Write `grid[r][c] = v` (no-op out of range). -/
def gridSet (g : List (List Nat)) (cell : Cell) (v : Nat) : List (List Nat) :=
  g.set cell.1 ((g.getD cell.1 []).set cell.2 v)

/-- `FutoshikiBoard.assign`: sets `grid[var] = value` and
`domains[var] = {value}`. -/
def Board.assign (b : Board) (var : Cell) (value : Nat) : Board :=
  { b with grid := gridSet b.grid var value,
           domains := Function.update b.domains var {value} }

/-- `FutoshikiBoard.unassign`: resets `grid[var] = 0` and
`domains[var] = set(range(1, size+1))`. -/
def Board.unassign (b : Board) (var : Cell) : Board :=
  { b with grid := gridSet b.grid var 0,
           domains := Function.update b.domains var (Finset.Icc 1 b.size) }

/-- `FutoshikiBoard.get_unassigned_variables`: all cells with sentinel `0`,
in row-major order. -/
def Board.get_unassigned_variables (b : Board) : List Cell :=
  (List.range b.size).flatMap fun r =>
    (List.range b.size).filterMap fun c =>
      if gridGet b.grid (r, c) = 0 then some (r, c) else none

/-- `FutoshikiBoard.is_consistent`: whether assigning `value` to `var` is
consistent with the row, the column, and the inequality constraints, reading
only concrete grid assignments. -/
def Board.is_consistent (b : Board) (var : Cell) (value : Nat) : Bool :=
  ((List.range b.size).all fun col =>
    !(col != var.2 && gridGet b.grid (var.1, col) == value)) &&
  ((List.range b.size).all fun row =>
    !(row != var.1 && gridGet b.grid (row, var.2) == value)) &&
  (b.constraints.all fun cst =>
    let val1 := gridGet b.grid cst.1
    let val2 := gridGet b.grid cst.2.1
    if cst.1 = var ∧ val2 ≠ 0 then opSat cst.2.2 value val2
    else if cst.2.1 = var ∧ val1 ≠ 0 then opSat cst.2.2 val1 value
    else if val1 ≠ 0 ∧ val2 ≠ 0 ∧ cst.1 ≠ var ∧ cst.2.1 ≠ var then
      opSat cst.2.2 val1 val2
    else true)

/-- `FutoshikiBoard.get_neighbors`: the cells sharing a row or a column with
`var` together with the cells linked to `var` by an inequality constraint
(a duplicate-free list, modelling the Python set). -/
def Board.get_neighbors (b : Board) (var : Cell) : List Cell :=
  (((List.range b.size).filterMap fun col =>
      if col ≠ var.2 then some (var.1, col) else none) ++
   ((List.range b.size).filterMap fun row =>
      if row ≠ var.1 then some (row, var.2) else none) ++
   (b.constraints.filterMap fun cst =>
      if cst.1 = var then some cst.2.1
      else if cst.2.1 = var then some cst.1 else none)).dedup

/-- Domain initialization in `FutoshikiBoard.__init__`: `{1..size}` for an
unassigned cell, the singleton of its value for a fixed cell. -/
def initDomains (size : Nat) (g : List (List Nat)) : Cell → Finset Nat :=
  fun cell =>
    if gridGet g cell = 0 then Finset.Icc 1 size else {gridGet g cell}

/-- `FutoshikiBoard._enforce_all_different_constraints`: removes
`fixedValue` from the domain of every other (in-range) cell sharing the row
or the column of `fixed`. -/
def enforceAllDifferent (size : Nat) (d : Cell → Finset Nat) (fixed : Cell)
    (fixedValue : Nat) : Cell → Finset Nat :=
  fun cell =>
    if (cell.1 = fixed.1 ∧ cell.2 ≠ fixed.2 ∧ cell.2 < size) ∨
       (cell.2 = fixed.2 ∧ cell.1 ≠ fixed.1 ∧ cell.1 < size) then
      (d cell).erase fixedValue
    else d cell

/-- Row-major list of all in-range cells. -/
def allCells (size : Nat) : List Cell :=
  (List.range size).flatMap fun r => (List.range size).map fun c => (r, c)

/-- `FutoshikiBoard.__init__`: stores the grid (an absent or empty
`initial_grid` is replaced by an all-zero grid, matching Python's
truthiness test), derives the initial domains, stores the constraints, and
prunes the domains against the fixed cells. No validation is performed. -/
def initBoard (size : Nat) (initial_grid : Option (List (List Nat)))
    (constraints : List Cstr) : Board :=
  let g := match initial_grid with
    | some g0 => if g0 = [] then List.replicate size (List.replicate size 0) else g0
    | none => List.replicate size (List.replicate size 0)
  let d := (allCells size).foldl
    (fun d cell =>
      if gridGet g cell ≠ 0 then enforceAllDifferent size d cell (gridGet g cell)
      else d)
    (initDomains size g)
  { size := size, grid := g, domains := d, constraints := constraints }

/-! ### inference.py -/

/-- Whether two cells share a row or a column (the all-different test used
throughout `inference.py`). -/
def sameRC (xi xj : Cell) : Bool :=
  xi.1 == xj.1 || xi.2 == xj.2

/-- The inequality constraints linking `xi` and `xj`, in either
orientation, in list order. -/
def matchingConstraints (cs : List Cstr) (xi xj : Cell) : List Cstr :=
  cs.filter fun cst => (cst.1 == xi && cst.2.1 == xj) || (cst.1 == xj && cst.2.1 == xi)

/-- Directional satisfaction of a matching constraint, as dispatched in
`revise`: if `xi` is the first endpoint the operator reads `x op y`,
otherwise `y op x`. -/
def cstSatDir (xi : Cell) (cst : Cstr) (x y : Nat) : Bool :=
  if cst.1 == xi then opSat cst.2.2 x y else opSat cst.2.2 y x

/-- The per-`y` support test of the inner loop of `revise`: `y` supports
`x` unless the cells share a row/column and `x == y` (the `continue`),
and, when inequality constraints link the pair, some matching constraint
must be satisfied directionally (the scan with `break` on success). -/
def supportedVal (cs : List Cstr) (xi xj : Cell) (x y : Nat) : Bool :=
  if sameRC xi xj && x == y then false
  else
    let ms := matchingConstraints cs xi xj
    if ms.isEmpty then true else ms.any fun cst => cstSatDir xi cst x y

/-- `inference.revise`: removes from `domains[xi]` every value with no
support in `domains[xj]`; returns whether anything was removed together
with the updated board. -/
def reviseToRemove (b : Board) (xi xj : Cell) : Finset Nat :=
  (b.domains xi).filter fun x =>
    ∀ y ∈ b.domains xj, supportedVal b.constraints xi xj x y = false

def revise (b : Board) (xi xj : Cell) : Bool × Board :=
  if reviseToRemove b xi xj = ∅ then (false, b)
  else (true, { b with domains :=
    (Function.update b.domains xi (b.domains xi \ reviseToRemove b xi xj)) })

/-- The initial arc queue of `inference.ac2`: both directions of every
pair of distinct in-range cells with a direct constraint (shared
row/column or a linking inequality), in the enumeration order of the
Python double loop. -/
def allPairs : List Cell → List (Cell × Cell)
  | [] => []
  | x :: xs => (xs.map fun y => (x, y)) ++ allPairs xs

def initQueue (b : Board) : List (Cell × Cell) :=
  (allPairs (allCells b.size)).flatMap fun p =>
    if sameRC p.1 p.2 ||
       b.constraints.any (fun cst =>
         (cst.1 == p.1 && cst.2.1 == p.2) || (cst.1 == p.2 && cst.2.1 == p.1)) then
      [(p.1, p.2), (p.2, p.1)]
    else []

/-- The work-queue loop of `inference.ac2`, with explicit fuel: pops the
front arc, revises it, reports inconsistency if the revised domain is
empty, and re-enqueues `(xk, xi)` for every neighbor `xk ≠ xj` when the
revision removed something. `none` means the fuel ran out. -/
def ac2Loop : Nat → List (Cell × Cell) → Board → Option (Bool × Board)
  | 0, _, _ => none
  | _ + 1, [], b => some (true, b)
  | fuel + 1, (xi, xj) :: rest, b =>
    let r := revise b xi xj
    if r.1 then
      if r.2.domains xi = ∅ then some (false, r.2)
      else ac2Loop fuel
        (rest ++ ((r.2.get_neighbors xi).filter (fun xk => xk ≠ xj)).map fun xk => (xk, xi))
        r.2
    else ac2Loop fuel rest b

/-- `inference.ac2` with the given fuel; exhausted fuel is reported as an
inconsistency (the Python function always terminates, and all theorems
about `ac2` hold for every fuel or supply a sufficient one). -/
def ac2 (fuel : Nat) (b : Board) : Bool × Board :=
  (ac2Loop fuel (initQueue b) b).getD (false, b)

/-- The per-candidate filter of `inference.forward_check` for an
unassigned neighbor `n` of `var`: `val_n` is kept unless it collides with
`value` on a shared row/column, or the first inequality constraint linking
`var` and `n` rejects it directionally. -/
def fcKeep (cs : List Cstr) (var n : Cell) (value val_n : Nat) : Bool :=
  let allDiffDiscard := val_n == value && sameRC var n
  let ineqDiscard :=
    match cs.find? (fun cst =>
      (cst.1 == var && cst.2.1 == n) || (cst.1 == n && cst.2.1 == var)) with
    | some cst =>
      if cst.1 == var && cst.2.1 == n then !(opSat cst.2.2 value val_n)
      else !(opSat cst.2.2 val_n value)
    | none => false
  !allDiffDiscard && !ineqDiscard

/-- The restoration performed by `forward_check` when a domain empties:
`domains[var] = original_domain`, then each recorded pruning is unioned
back. -/
def fcRestore (d : Cell → Finset Nat) (var : Cell) (orig : Finset Nat)
    (pruned : List (Cell × Finset Nat)) : Cell → Finset Nat :=
  pruned.foldl (fun d pv => Function.update d pv.1 (d pv.1 ∪ pv.2))
    (Function.update d var orig)

/-- The neighbor loop of `inference.forward_check`: prunes each unassigned
neighbor's domain, aborting (with the restoration of `fcRestore`, which
leaves the emptied neighbor's domain empty) as soon as a domain empties;
on success restores `domains[var]` and returns the pruning record. -/
def fcLoop (var : Cell) (value : Nat) (orig : Finset Nat) :
    Board → List (Cell × Finset Nat) → List Cell →
    Board × Option (List (Cell × Finset Nat))
  | b, pruned, [] =>
    ({ b with domains := Function.update b.domains var orig }, some pruned)
  | b, pruned, n :: ns =>
    if gridGet b.grid n = 0 then
      let newDom := (b.domains n).filter fun v => fcKeep b.constraints var n value v = true
      let b' := { b with domains := Function.update b.domains n newDom }
      if newDom = ∅ then
        ({ b' with domains := fcRestore b'.domains var orig pruned }, none)
      else fcLoop var value orig b' (pruned ++ [(n, b.domains n \ newDom)]) ns
    else fcLoop var value orig b pruned ns

/-- `inference.forward_check`: temporarily narrows `domains[var]` to
`{value}`, prunes the unassigned neighbors, and either fails (`none`) or
returns the map of pruned values. -/
def forward_check (b : Board) (var : Cell) (value : Nat) :
    Board × Option (List (Cell × Finset Nat)) :=
  fcLoop var value (b.domains var)
    { b with domains := Function.update b.domains var {value} }
    [] (b.get_neighbors var)

/-! ### heuristics.py -/

/-- `heuristics.select_unassigned_variable_mrv`: the first unassigned
variable of minimal domain size (strict improvement only, so ties keep the
row-major order). -/
def select_unassigned_variable_mrv (b : Board) : Option Cell :=
  b.get_unassigned_variables.foldl
    (fun best var =>
      match best with
      | none => some var
      | some bv => if (b.domains var).card < (b.domains bv).card then some var else some bv)
    none

/-- The constraining count computed by `order_domain_values_lcv` for one
candidate `value`, evaluated on the board with `value` assigned to `var`:
`+100` for an unassigned neighbor whose domain is exactly `{value}`, and
`+100` for every inequality constraint linking `var` to an unassigned
neighbor whose directional filter would empty that neighbor's domain. -/
def lcvScore (b : Board) (var : Cell) (value : Nat) : Nat :=
  (b.get_neighbors var).foldl
    (fun acc n =>
      if gridGet b.grid n = 0 then
        let acc1 := if value ∈ b.domains n ∧ (b.domains n).card = 1 then acc + 100 else acc
        b.constraints.foldl
          (fun acc2 cst =>
            if (cst.1 == var && cst.2.1 == n) || (cst.1 == n && cst.2.1 == var) then
              let temp :=
                if cst.1 == var && cst.2.1 == n then
                  match cst.2.2 with
                  | Op.lt => (b.domains n).filter fun x => value < x
                  | Op.gt => (b.domains n).filter fun x => x < value
                else
                  match cst.2.2 with
                  | Op.lt => (b.domains n).filter fun x => x < value
                  | Op.gt => (b.domains n).filter fun x => value < x
              if temp = ∅ then acc2 + 100 else acc2
            else acc2)
          acc1
      else acc)
    0

/-- Ascending enumeration of a finite set of naturals (the embedding of
Python's iteration over a set of small integers): every element is at most
the sup, so filtering `range (sup + 1)` lists exactly the elements in
increasing order. -/
def finsetAsc (s : Finset Nat) : List Nat :=
  (List.range (s.sup id + 1)).filter fun v => v ∈ s

/-- Stable insertion into a list sorted by ascending score. -/
def insertByScore (p : Nat × Nat) : List (Nat × Nat) → List (Nat × Nat)
  | [] => [p]
  | q :: qs => if q.2 ≤ p.2 then q :: insertByScore p qs else p :: q :: qs

/-- Stable ascending sort by score, modelling Python's `list.sort(key=...)`. -/
def sortByScore : List (Nat × Nat) → List (Nat × Nat)
  | [] => []
  | p :: ps => insertByScore p (sortByScore ps)

/-- `heuristics.order_domain_values_lcv`: probes every candidate value of
`var` by assigning it, scoring it, and unassigning it, then returns the
values sorted by ascending score together with the board as the probe
leaves it (the final `unassign` resets `domains[var]` to the full range
instead of restoring it). -/
def order_domain_values_lcv (var : Cell) (b : Board) : List Nat × Board :=
  let domain := finsetAsc (b.domains var)
  let p := domain.foldl
    (fun (acc : List (Nat × Nat) × Board) value =>
      let b1 := acc.2.assign var value
      (acc.1 ++ [(value, lcvScore b1 var value)], b1.unassign var))
    ([], b)
  ((sortByScore p.1).map Prod.fst, p.2)

/-! ### csp_solver.py -/

/-- The four option flags of `CSPSolver.__init__`. -/
structure Flags where
  use_forward_checking : Bool
  use_ac2 : Bool
  use_mrv : Bool
  use_lcv : Bool

/-- The value loop of `CSPSolver._backtracking_search`, parametric in the
recursive call `recur`: for each candidate value, snapshot the domains,
assign, check consistency, run the enabled inference, recurse, and on any
failure restore the variable and the snapshot before trying the next
value. `acFuel` is the fuel handed to `ac2`. -/
def fcOutcome (b1 : Board) (var : Cell) (value : Nat) : Bool × Board :=
  match forward_check b1 var value with
  | (b2, none) => (false, b2)
  | (b2, some _) => (true, b2)

/-- The body of the value loop for one candidate value: assign, check
`is_consistent`, then run the enabled inference and, if everything is
consistent, recurse; any failure returns `false` with the mutated board
(restoration happens in `tryValues`). -/
def inferStep (flags : Flags) (acFuel : Nat) (var : Cell) (value : Nat)
    (b1 : Board) : Bool × Board :=
  let afterFC : Bool × Board :=
    if flags.use_forward_checking then fcOutcome b1 var value else (true, b1)
  if afterFC.1 && flags.use_ac2 then ac2 acFuel afterFC.2 else afterFC

def tryStep (recur : Board → Bool × Board) (flags : Flags) (acFuel : Nat)
    (var : Cell) (b : Board) (value : Nat) : Bool × Board :=
  let b1 := b.assign var value
  if b1.is_consistent var value then
    let afterAC := inferStep flags acFuel var value b1
    if afterAC.1 then recur afterAC.2 else (false, afterAC.2)
  else (false, b1)

def tryValues (recur : Board → Bool × Board) (flags : Flags) (acFuel : Nat)
    (var : Cell) : Board → List Nat → Bool × Board
  | b, [] => (false, b)
  | b, value :: rest =>
    let snapshot := b.domains
    let step := tryStep recur flags acFuel var b value
    if step.1 then step
    else
      tryValues recur flags acFuel var
        { step.2.unassign var with domains := snapshot } rest

/-- `CSPSolver._backtracking_search` with fuel: success when no variable is
unassigned, otherwise select a variable (MRV or first), order its values
(LCV or the domain), and try them in order. -/
def searchVar (flags : Flags) (b : Board) (u : Cell) : Cell :=
  if flags.use_mrv then (select_unassigned_variable_mrv b).getD u else u

/-- Value ordering of `_backtracking_search`: the LCV ordering (with its
side effect on the board) when enabled, otherwise the domain itself. -/
def searchValues (flags : Flags) (var : Cell) (b : Board) : List Nat × Board :=
  if flags.use_lcv then order_domain_values_lcv var b
  else (finsetAsc (b.domains var), b)

def backtracking_search (flags : Flags) : Nat → Board → Bool × Board
  | 0, b => (false, b)
  | fuel + 1, b =>
    match b.get_unassigned_variables with
    | [] => (true, b)
    | u :: _ =>
      tryValues (backtracking_search flags fuel) flags (fuel + 1)
        (searchVar flags b u)
        (searchValues flags (searchVar flags b u) b).2
        (searchValues flags (searchVar flags b u) b).1

/-- `CSPSolver.solve`: optional AC-2 preprocessing (an inconsistency ends
the solve with failure), then the backtracking search. -/
def solve (flags : Flags) (fuel : Nat) (b : Board) : Bool × Board :=
  if flags.use_ac2 then
    let pre := ac2 fuel b
    if pre.1 then backtracking_search flags fuel pre.2 else (false, pre.2)
  else backtracking_search flags fuel b

/-! ### Basic lemmas about the grid representation -/

theorem mem_finsetAsc {s : Finset Nat} {v : Nat} : v ∈ finsetAsc s ↔ v ∈ s := by
  rw [finsetAsc, List.mem_filter, List.mem_range, decide_eq_true_eq]
  constructor
  · exact fun h => h.2
  · intro h
    exact ⟨Nat.lt_succ_of_le (Finset.le_sup (f := id) h), h⟩

theorem Board.eq_of_parts : ∀ {b1 b2 : Board}, b1.size = b2.size →
    b1.grid = b2.grid → b1.domains = b2.domains → b1.constraints = b2.constraints →
    b1 = b2
  | ⟨_, _, _, _⟩, ⟨_, _, _, _⟩, rfl, rfl, rfl, rfl => rfl

theorem set_self_of_getD {α : Type} (l : List α) (i : Nat) (d : α) :
    l.set i (l.getD i d) = l := by
  induction l generalizing i with
  | nil => simp
  | cons a l ih =>
    cases i with
    | zero => simp
    | succ i =>
      rw [List.getD_cons_succ]
      show a :: l.set i (l.getD i d) = a :: l
      rw [ih i]

theorem length_gridSet (g : List (List Nat)) (cell : Cell) (v : Nat) :
    (gridSet g cell v).length = g.length := by
  simp [gridSet]

theorem getD_gridSet_ne (g : List (List Nat)) (cell : Cell) (v : Nat) (r : Nat)
    (h : r ≠ cell.1) : (gridSet g cell v).getD r [] = g.getD r [] := by
  simp [gridSet, List.getD_eq_getElem?_getD, List.getElem?_set_ne (Ne.symm h)]

theorem getD_gridSet_row (g : List (List Nat)) (cell : Cell) (v : Nat) :
    (gridSet g cell v).getD cell.1 [] = (g.getD cell.1 []).set cell.2 v := by
  rcases Nat.lt_or_ge cell.1 g.length with h | h
  · simp [gridSet, List.getD_eq_getElem?_getD, List.getElem?_set_self h]
  · rw [gridSet, List.set_eq_of_length_le h]
    have h1 : g[cell.1]? = none := List.getElem?_eq_none h
    simp [List.getD_eq_getElem?_getD, h1]

theorem gridGet_gridSet_ne (g : List (List Nat)) (cell c : Cell) (v : Nat)
    (h : c ≠ cell) : gridGet (gridSet g cell v) c = gridGet g c := by
  by_cases hr : c.1 = cell.1
  · have hc : c.2 ≠ cell.2 := by
      intro hc; exact h (Prod.ext hr hc)
    rw [gridGet, gridGet, hr, getD_gridSet_row]
    simp [List.getD_eq_getElem?_getD, List.getElem?_set_ne (Ne.symm hc)]
  · rw [gridGet, gridGet, getD_gridSet_ne g cell v c.1 hr]

theorem gridGet_gridSet_self (g : List (List Nat)) (cell : Cell) (v : Nat) :
    gridGet (gridSet g cell v) cell =
      if cell.2 < (g.getD cell.1 []).length then v else 0 := by
  rw [gridGet, getD_gridSet_row]
  rcases Nat.lt_or_ge cell.2 (g.getD cell.1 []).length with h | h
  · rw [if_pos h, List.getD_eq_getElem?_getD, List.getElem?_set_self h]
    rfl
  · rw [List.set_eq_of_length_le h, if_neg (Nat.not_lt.mpr h),
      List.getD_eq_getElem?_getD, List.getElem?_eq_none h]
    rfl

theorem gridSet_gridSet (g : List (List Nat)) (cell : Cell) (v w : Nat) :
    gridSet (gridSet g cell v) cell w = gridSet g cell w := by
  show (gridSet g cell v).set cell.1
    (((gridSet g cell v).getD cell.1 []).set cell.2 w) = gridSet g cell w
  rw [getD_gridSet_row, List.set_set]
  show (g.set cell.1 ((g.getD cell.1 []).set cell.2 v)).set cell.1
    ((g.getD cell.1 []).set cell.2 w) =
    g.set cell.1 ((g.getD cell.1 []).set cell.2 w)
  rw [List.set_set]

theorem gridSet_eq_self (g : List (List Nat)) (cell : Cell)
    (h : gridGet g cell = 0) : gridSet g cell 0 = g := by
  rw [gridSet, ← h, gridGet, set_self_of_getD, set_self_of_getD]

/-! ### C8: assign/unassign round trip -/

/-- C8 (confirmed). Assign/unassign round-trip: for every board, cell and
value `v`, `assign(cell, v)` immediately followed by `unassign(cell)`
leaves `grid[cell]` at the unassigned sentinel `0` and `domains[cell]`
equal to the full range `{1..size}`, while the grid entries and domains of
every other cell are exactly as they were before the pair of calls. -/
theorem assign_unassign_roundtrip (b : Board) (cell : Cell) (v : Nat) :
    gridGet ((b.assign cell v).unassign cell).grid cell = 0 ∧
    ((b.assign cell v).unassign cell).domains cell = Finset.Icc 1 b.size ∧
    (∀ c : Cell, c ≠ cell →
      gridGet ((b.assign cell v).unassign cell).grid c = gridGet b.grid c ∧
      ((b.assign cell v).unassign cell).domains c = b.domains c) := by
  refine ⟨?_, ?_, fun c hc => ⟨?_, ?_⟩⟩
  · show gridGet (gridSet (gridSet b.grid cell v) cell 0) cell = 0
    rw [gridSet_gridSet, gridGet_gridSet_self]
    exact ite_self 0
  · show Function.update (Function.update b.domains cell {v}) cell
      (Finset.Icc 1 b.size) cell = Finset.Icc 1 b.size
    rw [Function.update_same]
  · show gridGet (gridSet (gridSet b.grid cell v) cell 0) c = gridGet b.grid c
    rw [gridSet_gridSet, gridGet_gridSet_ne _ _ _ _ hc]
  · show Function.update (Function.update b.domains cell {v}) cell
      (Finset.Icc 1 b.size) c = b.domains c
    rw [Function.update_noteq hc, Function.update_noteq hc]

/-- Closed witness for C8: the round-trip property evaluated on a concrete
board, cell and other cell. -/
theorem assign_unassign_roundtrip_witness :
    gridGet (((initBoard 2 none []).assign (0, 0) 2).unassign (0, 0)).grid (0, 1) =
      gridGet (initBoard 2 none []).grid (0, 1) :=
  ((assign_unassign_roundtrip (initBoard 2 none []) (0, 0) 2).2.2 (0, 1)
    (by decide)).1

/-! ### C9: is_consistent reads only the grid -/

/-- C9 (confirmed). `is_consistent` depends only on the grid: two boards
with the same size, the same grid and the same constraint list, but
arbitrary different domain maps, give the same verdict for every cell and
value; the check never consults the domains. -/
theorem is_consistent_ignores_domains (b1 b2 : Board) (var : Cell) (value : Nat)
    (hs : b1.size = b2.size) (hg : b1.grid = b2.grid)
    (hc : b1.constraints = b2.constraints) :
    b1.is_consistent var value = b2.is_consistent var value := by
  cases b1
  cases b2
  simp only at hs hg hc
  subst hs; subst hg; subst hc
  rfl

/-- Closed witness for C9: two concrete boards that differ only in their
domain maps (full domains versus empty domains) agree on `is_consistent`. -/
theorem is_consistent_ignores_domains_witness :
    Board.is_consistent ⟨2, [[1, 0], [0, 0]], fun _ => {1, 2}, []⟩ (0, 1) 1 =
      Board.is_consistent ⟨2, [[1, 0], [0, 0]], fun _ => ∅, []⟩ (0, 1) 1 :=
  is_consistent_ignores_domains _ _ (0, 1) 1 rfl rfl rfl

/-! ### C4: what the LCV probe does to the board -/

/-- The net effect on the board of one `assign`/`unassign` probe of the
LCV loop: the grid cell is reset to `0` and the domain of `var` to the
full range. -/
def lcvReset (var : Cell) (b : Board) : Board :=
  { b with grid := gridSet b.grid var 0,
           domains := Function.update b.domains var (Finset.Icc 1 b.size) }

theorem unassign_assign_eq (b : Board) (var : Cell) (v : Nat) :
    (b.assign var v).unassign var = lcvReset var b := by
  apply Board.eq_of_parts
  · rfl
  · show gridSet (gridSet b.grid var v) var 0 = gridSet b.grid var 0
    exact gridSet_gridSet b.grid var v 0
  · show Function.update (Function.update b.domains var {v}) var
      (Finset.Icc 1 (b.assign var v).size) = Function.update b.domains var (Finset.Icc 1 b.size)
    exact Function.update_idem ..
  · rfl

theorem lcvReset_idem (var : Cell) (b : Board) :
    lcvReset var (lcvReset var b) = lcvReset var b := by
  apply Board.eq_of_parts
  · rfl
  · exact gridSet_gridSet b.grid var 0 0
  · exact Function.update_idem ..
  · rfl

theorem lcv_fold_board (var : Cell) (l : List Nat) :
    ∀ (acc : List (Nat × Nat)) (b : Board),
      (l.foldl (fun (acc : List (Nat × Nat) × Board) value =>
        let b1 := acc.2.assign var value
        (acc.1 ++ [(value, lcvScore b1 var value)], b1.unassign var)) (acc, b)).2 =
      if l.isEmpty then b else lcvReset var b := by
  induction l with
  | nil => intro acc b; rfl
  | cons v vs ih =>
    intro acc b
    rw [List.foldl_cons]
    show (vs.foldl _ (_, (b.assign var v).unassign var)).2 = _
    rw [unassign_assign_eq, ih]
    simp only [lcvReset_idem, ite_self, List.isEmpty_cons, Bool.false_eq_true, if_false]

theorem lcv_board_eq (var : Cell) (b : Board) :
    (order_domain_values_lcv var b).2 =
      if (finsetAsc (b.domains var)).isEmpty then b else lcvReset var b :=
  lcv_fold_board var (finsetAsc (b.domains var)) [] b

/-- C4, amended (the claim as stated is refuted by
`lcv_leaks_var_domain`). For every board and unassigned variable `var`,
`order_domain_values_lcv(var, board)` leaves the grid and the domain of
every cell other than `var` exactly as they were; but unless the domain of
`var` was empty (in which case nothing at all changes), the domain of
`var` itself is reset to the full range `{1..size}` — the probe's final
`unassign` does not restore a pruned domain. -/
theorem lcv_board_effect (var : Cell) (b : Board)
    (hvar : gridGet b.grid var = 0) :
    (order_domain_values_lcv var b).2.grid = b.grid ∧
    (∀ c : Cell, c ≠ var →
      (order_domain_values_lcv var b).2.domains c = b.domains c) ∧
    ((b.domains var).Nonempty →
      (order_domain_values_lcv var b).2.domains var = Finset.Icc 1 b.size) ∧
    (b.domains var = ∅ → (order_domain_values_lcv var b).2 = b) := by
  rw [lcv_board_eq]
  by_cases hd : (b.domains var) = ∅
  · have hemp : (finsetAsc (b.domains var)).isEmpty = true := by
      rw [hd]
      rfl
    rw [if_pos hemp]
    exact ⟨rfl, fun c _ => rfl, fun hne => absurd hd (Finset.nonempty_iff_ne_empty.mp hne),
      fun _ => rfl⟩
  · have hne : finsetAsc (b.domains var) ≠ [] := by
      obtain ⟨x, hx⟩ := Finset.nonempty_iff_ne_empty.mpr hd
      exact List.ne_nil_of_mem (mem_finsetAsc.mpr hx)
    rw [if_neg (by simpa [List.isEmpty_iff] using hne)]
    refine ⟨gridSet_eq_self b.grid var hvar, fun c hc => Function.update_noteq hc ..,
      fun _ => Function.update_same .., fun h0 => absurd h0 hd⟩

/-- A concrete board on which the LCV claim fails: size 2, all cells
unassigned, the domain of `(0,0)` pruned to `{2}`. -/
def lcvCounterBoard : Board :=
  ⟨2, [[0, 0], [0, 0]], fun c => if c = (0, 0) then {2} else {1, 2}, []⟩

/-- Counterexample to C4 as stated: after `order_domain_values_lcv((0,0))`
the domain of `(0,0)` is `{1,2}`, not the original `{2}` — the probe leaks
a domain mutation on `var` itself. -/
theorem lcv_leaks_var_domain :
    (order_domain_values_lcv (0, 0) lcvCounterBoard).2.domains (0, 0) ≠
      lcvCounterBoard.domains (0, 0) := by
  have hfull := (lcv_board_effect (0, 0) lcvCounterBoard rfl).2.2.1
    ⟨2, by simp [lcvCounterBoard]⟩
  rw [hfull]
  intro h
  have h1 : (1 : Nat) ∈ Finset.Icc 1 lcvCounterBoard.size := by
    simp [lcvCounterBoard]
  rw [h] at h1
  simp [lcvCounterBoard] at h1

/-- Closed witness for the amended C4 at a concrete input. -/
theorem lcv_board_effect_witness :
    (order_domain_values_lcv (0, 0) lcvCounterBoard).2.grid = lcvCounterBoard.grid ∧
    (order_domain_values_lcv (0, 0) lcvCounterBoard).2.domains (1, 1) =
      lcvCounterBoard.domains (1, 1) :=
  ⟨(lcv_board_effect (0, 0) lcvCounterBoard (by decide)).1,
   (lcv_board_effect (0, 0) lcvCounterBoard (by decide)).2.1 (1, 1) (by decide)⟩

/-! ### C7: construction-time validation -/

/-- C7, amended (the claim as stated is refuted by
`initBoard_accepts_malformed`): the constructor performs no input
validation whatsoever — every size, grid and constraint list is stored
as-is and a board is always built. -/
theorem initBoard_no_validation (size : Nat) (g : List (List Nat))
    (cs : List Cstr) (hg : g ≠ []) :
    (initBoard size (some g) cs).size = size ∧
    (initBoard size (some g) cs).grid = g ∧
    (initBoard size (some g) cs).constraints = cs := by
  refine ⟨rfl, ?_, rfl⟩
  show (if g = [] then _ else g) = g
  rw [if_neg hg]

/-- Counterexample to C7 as stated: a malformed input — a 1×1 board with
the out-of-range clue `5` and a constraint referencing the out-of-bounds
cells `(3,3)` and `(4,4)` — is not rejected: the board is built with the
malformed data stored, and the search proceeds and even reports success. -/
theorem initBoard_accepts_malformed :
    (initBoard 1 (some [[5]]) [((3, 3), (4, 4), Op.lt)]).grid = [[5]] ∧
    (initBoard 1 (some [[5]]) [((3, 3), (4, 4), Op.lt)]).constraints =
      [((3, 3), (4, 4), Op.lt)] ∧
    (solve ⟨false, false, false, false⟩ 3
      (initBoard 1 (some [[5]]) [((3, 3), (4, 4), Op.lt)])).1 = true := by
  refine ⟨rfl, rfl, by decide⟩

/-- Closed witness for the amended C7 at a concrete input. -/
theorem initBoard_no_validation_witness :
    (initBoard 0 (some [[7]]) []).size = 0 ∧
    (initBoard 0 (some [[7]]) []).grid = [[7]] ∧
    (initBoard 0 (some [[7]]) []).constraints = [] :=
  initBoard_no_validation 0 [[7]] [] (by decide)

/-! ### C3: what forward_check leaves behind on failure -/

theorem foldl_update_notmem (l : List (Cell × Finset Nat)) :
    ∀ (d : Cell → Finset Nat) (c : Cell), c ∉ l.map Prod.fst →
      l.foldl (fun d pv => Function.update d pv.1 (d pv.1 ∪ pv.2)) d c = d c := by
  induction l with
  | nil => intro d c _; rfl
  | cons pv l ih =>
    intro d c hc
    rw [List.map_cons, List.mem_cons] at hc
    push_neg at hc
    rw [List.foldl_cons, ih _ c hc.2, Function.update_noteq hc.1]

theorem foldl_update_mem (l : List (Cell × Finset Nat)) :
    ∀ (d : Cell → Finset Nat) (c : Cell) (s : Finset Nat),
      (l.map Prod.fst).Nodup → (c, s) ∈ l →
      l.foldl (fun d pv => Function.update d pv.1 (d pv.1 ∪ pv.2)) d c = d c ∪ s := by
  induction l with
  | nil => intro d c s _ h; cases h
  | cons pv l ih =>
    intro d c s hnd hmem
    rw [List.map_cons, List.nodup_cons] at hnd
    rw [List.foldl_cons]
    rcases List.mem_cons.mp hmem with heq | htail
    · cases heq.symm
      have hc : (c : Cell) ∉ l.map Prod.fst := hnd.1
      rw [foldl_update_notmem l _ c hc, Function.update_same]
    · have hkey : c ∈ l.map Prod.fst := by
        have := List.mem_map_of_mem Prod.fst htail
        exact this
      have hne : c ≠ pv.1 := fun h => hnd.1 (h ▸ hkey)
      rw [ih _ c s hnd.2 htail, Function.update_noteq hne]

theorem fcLoop_cons_skip (var : Cell) (value : Nat) (orig : Finset Nat)
    (b : Board) (pruned : List (Cell × Finset Nat)) (n : Cell) (ns : List Cell)
    (hg : gridGet b.grid n ≠ 0) :
    fcLoop var value orig b pruned (n :: ns) = fcLoop var value orig b pruned ns := by
  simp only [fcLoop]
  rw [if_neg hg]

theorem fcLoop_cons_fail (var : Cell) (value : Nat) (orig : Finset Nat)
    (b : Board) (pruned : List (Cell × Finset Nat)) (n : Cell) (ns : List Cell)
    (hg : gridGet b.grid n = 0)
    (hND : ((b.domains n).filter fun v => fcKeep b.constraints var n value v = true) = ∅) :
    fcLoop var value orig b pruned (n :: ns) =
      ({ b with domains := (fcRestore (Function.update b.domains n
          ((b.domains n).filter fun v => fcKeep b.constraints var n value v = true))
          var orig pruned) }, none) := by
  simp only [fcLoop]
  rw [if_pos hg, if_pos hND]

theorem fcLoop_cons_step (var : Cell) (value : Nat) (orig : Finset Nat)
    (b : Board) (pruned : List (Cell × Finset Nat)) (n : Cell) (ns : List Cell)
    (hg : gridGet b.grid n = 0)
    (hND : ((b.domains n).filter fun v => fcKeep b.constraints var n value v = true) ≠ ∅) :
    fcLoop var value orig b pruned (n :: ns) =
      fcLoop var value orig
        { b with domains := (Function.update b.domains n
            ((b.domains n).filter fun v => fcKeep b.constraints var n value v = true)) }
        (pruned ++ [(n, b.domains n \
          (b.domains n).filter fun v => fcKeep b.constraints var n value v = true)]) ns := by
  simp only [fcLoop]
  rw [if_pos hg, if_neg hND]

theorem fcLoop_fail_spec (var : Cell) (value : Nat) (b0 : Board) :
    ∀ (ns : List Cell) (bCur : Board) (pruned : List (Cell × Finset Nat)),
      ns.Nodup →
      bCur.domains var = {value} →
      var ∉ ns →
      (pruned.map Prod.fst).Nodup →
      (∀ p ∈ pruned.map Prod.fst, p ∉ ns ∧ p ≠ var) →
      (∀ pv ∈ pruned, pv.2 = b0.domains pv.1 \ bCur.domains pv.1 ∧
        bCur.domains pv.1 ⊆ b0.domains pv.1) →
      (∀ c : Cell, c ≠ var → c ∉ pruned.map Prod.fst → bCur.domains c = b0.domains c) →
      (fcLoop var value (b0.domains var) bCur pruned ns).2 = none →
      ∃ n ∈ ns, n ≠ var ∧
        (fcLoop var value (b0.domains var) bCur pruned ns).1.domains n = ∅ ∧
        ∀ c : Cell, c ≠ n →
          (fcLoop var value (b0.domains var) bCur pruned ns).1.domains c = b0.domains c := by
  intro ns
  induction ns with
  | nil =>
    intro bCur pruned _ _ _ _ _ _ _ hfail
    exact absurd hfail (by simp [fcLoop])
  | cons n ns ih =>
    intro bCur pruned hnd hvar hvn hkeysnd hkeys hentries huntouched hfail
    rw [List.nodup_cons] at hnd
    have hvarn : var ≠ n := fun h => hvn (h ▸ List.mem_cons_self n ns)
    have hnk : n ∉ pruned.map Prod.fst := fun h => (hkeys n h).1 (List.mem_cons_self n ns)
    by_cases hg : gridGet bCur.grid n = 0
    · by_cases hND :
          ((bCur.domains n).filter fun v => fcKeep bCur.constraints var n value v = true) = ∅
      · rw [fcLoop_cons_fail var value (b0.domains var) bCur pruned n ns hg hND] at hfail ⊢
        refine ⟨n, List.mem_cons_self n ns, fun h => hvarn h.symm, ?_, ?_⟩
        · show fcRestore (Function.update bCur.domains n
            ((bCur.domains n).filter fun v => fcKeep bCur.constraints var n value v = true))
            var (b0.domains var) pruned n = ∅
          rw [fcRestore, foldl_update_notmem pruned _ n hnk,
            Function.update_noteq (fun h => hvarn h.symm), Function.update_same, hND]
        · intro c hc
          show fcRestore (Function.update bCur.domains n
            ((bCur.domains n).filter fun v => fcKeep bCur.constraints var n value v = true))
            var (b0.domains var) pruned c = b0.domains c
          rw [fcRestore]
          by_cases hcv : c = var
          · subst hcv
            have hck : c ∉ pruned.map Prod.fst := fun h => (hkeys c h).2 rfl
            rw [foldl_update_notmem pruned _ c hck, Function.update_same]
          · by_cases hck : c ∈ pruned.map Prod.fst
            · obtain ⟨pv, hpv, hpc⟩ := List.mem_map.mp hck
              have hpveq : pv = (c, pv.2) := by
                rw [← hpc]
              rw [hpveq] at hpv
              rw [foldl_update_mem pruned _ c pv.2 hkeysnd hpv,
                Function.update_noteq hcv, Function.update_noteq hc,
                (hentries (c, pv.2) hpv).1,
                Finset.union_sdiff_of_subset (hentries (c, pv.2) hpv).2]
            · rw [foldl_update_notmem pruned _ c hck, Function.update_noteq hcv,
                Function.update_noteq hc]
              exact huntouched c hcv hck
      · rw [fcLoop_cons_step var value (b0.domains var) bCur pruned n ns hg hND] at hfail ⊢
        have hdomn : bCur.domains n = b0.domains n :=
          huntouched n (fun h => hvarn h.symm) hnk
        obtain ⟨n', hn', hn'v, hres⟩ := ih
          { bCur with domains := (Function.update bCur.domains n
              ((bCur.domains n).filter fun v => fcKeep bCur.constraints var n value v = true)) }
          (pruned ++ [(n, bCur.domains n \
            (bCur.domains n).filter fun v => fcKeep bCur.constraints var n value v = true)])
          hnd.2
          (by show Function.update bCur.domains n
                ((bCur.domains n).filter fun v => fcKeep bCur.constraints var n value v = true)
                var = {value}
              rw [Function.update_noteq hvarn]
              exact hvar)
          (fun h => hvn (List.mem_cons_of_mem n h))
          (by rw [List.map_append, List.nodup_append]
              refine ⟨hkeysnd, List.nodup_singleton n, ?_⟩
              intro p hp hp1
              rw [List.map_singleton, List.mem_singleton] at hp1
              exact (hkeys p hp).1 (hp1 ▸ List.mem_cons_self n ns))
          (by intro p hp
              rw [List.map_append, List.mem_append] at hp
              rcases hp with hp | hp
              · exact ⟨fun h => (hkeys p hp).1 (List.mem_cons_of_mem n h), (hkeys p hp).2⟩
              · rw [List.map_singleton, List.mem_singleton] at hp
                subst hp
                exact ⟨hnd.1, fun h => hvarn h.symm⟩)
          (by intro pv hpv
              rw [List.mem_append] at hpv
              rcases hpv with hpv | hpv
              · have hpk : pv.1 ∈ pruned.map Prod.fst := List.mem_map_of_mem Prod.fst hpv
                have hpn : pv.1 ≠ n := fun h => (hkeys pv.1 hpk).1 (h ▸ List.mem_cons_self n ns)
                show pv.2 = b0.domains pv.1 \ Function.update bCur.domains n
                    ((bCur.domains n).filter fun v =>
                      fcKeep bCur.constraints var n value v = true) pv.1 ∧
                  Function.update bCur.domains n
                    ((bCur.domains n).filter fun v =>
                      fcKeep bCur.constraints var n value v = true) pv.1 ⊆ b0.domains pv.1
                rw [Function.update_noteq hpn]
                exact hentries pv hpv
              · rw [List.mem_singleton] at hpv
                subst hpv
                show bCur.domains n \ _ = b0.domains n \ Function.update bCur.domains n
                    ((bCur.domains n).filter fun v =>
                      fcKeep bCur.constraints var n value v = true) n ∧
                  Function.update bCur.domains n
                    ((bCur.domains n).filter fun v =>
                      fcKeep bCur.constraints var n value v = true) n ⊆ b0.domains n
                rw [Function.update_same, hdomn]
                exact ⟨rfl, Finset.filter_subset _ _⟩)
          (by intro c hcv hck
              rw [List.map_append, List.mem_append] at hck
              push_neg at hck
              have hcn : c ≠ n := by
                intro h
                refine hck.2 ?_
                rw [List.map_singleton, List.mem_singleton]
                exact h
              show Function.update bCur.domains n
                ((bCur.domains n).filter fun v =>
                  fcKeep bCur.constraints var n value v = true) c = b0.domains c
              rw [Function.update_noteq hcn]
              exact huntouched c hcv hck.1)
          hfail
        exact ⟨n', List.mem_cons_of_mem n hn', hn'v, hres⟩
    · rw [fcLoop_cons_skip var value (b0.domains var) bCur pruned n ns hg] at hfail ⊢
      obtain ⟨n', hn', hn'v, hres⟩ := ih bCur pruned hnd.2 hvar
        (fun h => hvn (List.mem_cons_of_mem n h)) hkeysnd
        (fun p hp => ⟨fun h => (hkeys p hp).1 (List.mem_cons_of_mem n h), (hkeys p hp).2⟩)
        hentries huntouched hfail
      exact ⟨n', List.mem_cons_of_mem n hn', hn'v, hres⟩

/-- C3, amended (the claim as stated is refuted by
`forward_check_not_restoring`). For every board, variable and value
(provided no inequality constraint links `var` to itself, so that `var` is
not its own neighbor), when `forward_check` signals failure there is a
neighbor `n` of `var` whose domain the call leaves empty; the domain of
every cell other than `n` — including `var` and every previously pruned
neighbor — is restored to exactly its value before the call, but the
emptied neighbor's domain is left empty, not restored. -/
theorem forward_check_fail_effect (b : Board) (var : Cell) (value : Nat)
    (hvn : var ∉ b.get_neighbors var)
    (hfail : (forward_check b var value).2 = none) :
    ∃ n ∈ b.get_neighbors var, n ≠ var ∧
      (forward_check b var value).1.domains n = ∅ ∧
      ∀ c : Cell, c ≠ n → (forward_check b var value).1.domains c = b.domains c := by
  exact fcLoop_fail_spec var value b (b.get_neighbors var)
    { b with domains := Function.update b.domains var {value} } []
    (List.nodup_dedup _)
    (Function.update_same ..)
    hvn
    List.nodup_nil
    (by intro p hp; cases hp)
    (by intro pv hpv; cases hpv)
    (by intro c hcv _; exact Function.update_noteq hcv ..)
    hfail

/-- A concrete board refuting C3: size 2, `(0,0)` already assigned `2`,
full domains, one constraint `(0,0) < (0,1)`. -/
def fcCounterBoard : Board :=
  ⟨2, [[2, 0], [0, 0]], fun _ => {1, 2}, [((0, 0), (0, 1), Op.lt)]⟩

/-- Counterexample to C3 as stated: `forward_check(fcCounterBoard,(0,0),2)`
fails (the domain of `(0,1)` empties: `1` violates the `<` constraint and
`2` collides on the row), and at that point the domain of `(0,1)` is left
empty, not restored to its pre-call value `{1,2}`. -/
theorem forward_check_not_restoring :
    (forward_check fcCounterBoard (0, 0) 2).2 = none ∧
    (forward_check fcCounterBoard (0, 0) 2).1.domains (0, 1) ≠
      fcCounterBoard.domains (0, 1) := by
  exact ⟨by decide, by decide⟩

/-- Closed witness for the amended C3 at a concrete input. -/
theorem forward_check_fail_effect_witness :
    ∃ n ∈ fcCounterBoard.get_neighbors (0, 0), n ≠ (0, 0) ∧
      (forward_check fcCounterBoard (0, 0) 2).1.domains n = ∅ ∧
      ∀ c : Cell, c ≠ n →
        (forward_check fcCounterBoard (0, 0) 2).1.domains c =
          fcCounterBoard.domains c :=
  forward_check_fail_effect fcCounterBoard (0, 0) 2 (by decide) (by decide)

/-! ### Frame lemmas: which parts of the board each operation leaves alone -/

theorem fcLoop_frame (var : Cell) (value : Nat) (orig : Finset Nat) :
    ∀ (ns : List Cell) (b : Board) (pruned : List (Cell × Finset Nat)),
      (fcLoop var value orig b pruned ns).1.size = b.size ∧
      (fcLoop var value orig b pruned ns).1.grid = b.grid ∧
      (fcLoop var value orig b pruned ns).1.constraints = b.constraints := by
  intro ns
  induction ns with
  | nil => intro b pruned; exact ⟨rfl, rfl, rfl⟩
  | cons n ns ih =>
    intro b pruned
    by_cases hg : gridGet b.grid n = 0
    · by_cases hND :
          ((b.domains n).filter fun v => fcKeep b.constraints var n value v = true) = ∅
      · rw [fcLoop_cons_fail var value orig b pruned n ns hg hND]
        exact ⟨rfl, rfl, rfl⟩
      · rw [fcLoop_cons_step var value orig b pruned n ns hg hND]
        exact ih _ _
    · rw [fcLoop_cons_skip var value orig b pruned n ns hg]
      exact ih b pruned

theorem forward_check_frame (b : Board) (var : Cell) (value : Nat) :
    (forward_check b var value).1.size = b.size ∧
    (forward_check b var value).1.grid = b.grid ∧
    (forward_check b var value).1.constraints = b.constraints :=
  fcLoop_frame var value (b.domains var) (b.get_neighbors var)
    { b with domains := Function.update b.domains var {value} } []

theorem revise_frame (b : Board) (xi xj : Cell) :
    (revise b xi xj).2.size = b.size ∧
    (revise b xi xj).2.grid = b.grid ∧
    (revise b xi xj).2.constraints = b.constraints := by
  rw [revise]
  split
  · exact ⟨rfl, rfl, rfl⟩
  · exact ⟨rfl, rfl, rfl⟩

theorem ac2Loop_frame : ∀ (fuel : Nat) (q : List (Cell × Cell)) (b : Board)
    (res : Bool × Board), ac2Loop fuel q b = some res →
    res.2.size = b.size ∧ res.2.grid = b.grid ∧ res.2.constraints = b.constraints := by
  intro fuel
  induction fuel with
  | zero => intro q b res h; cases h
  | succ fuel ih =>
    intro q b res h
    cases q with
    | nil =>
      rw [ac2Loop] at h
      cases h
      exact ⟨rfl, rfl, rfl⟩
    | cons arc rest =>
      obtain ⟨xi, xj⟩ := arc
      have hrf := revise_frame b xi xj
      simp only [ac2Loop] at h
      by_cases hr : (revise b xi xj).1 = true
      · rw [if_pos hr] at h
        by_cases hd : (revise b xi xj).2.domains xi = ∅
        · rw [if_pos hd] at h
          cases h
          exact hrf
        · rw [if_neg hd] at h
          have := ih _ _ _ h
          exact ⟨this.1.trans hrf.1, this.2.1.trans hrf.2.1, this.2.2.trans hrf.2.2⟩
      · rw [if_neg hr] at h
        exact ih _ _ _ h

theorem ac2_frame (fuel : Nat) (b : Board) :
    (ac2 fuel b).2.size = b.size ∧
    (ac2 fuel b).2.grid = b.grid ∧
    (ac2 fuel b).2.constraints = b.constraints := by
  rw [ac2]
  cases h : ac2Loop fuel (initQueue b) b with
  | none => exact ⟨rfl, rfl, rfl⟩
  | some res => exact ac2Loop_frame fuel (initQueue b) b res h

theorem fcOutcome_pres (b1 : Board) (var : Cell) (value : Nat) :
    (fcOutcome b1 var value).2.size = b1.size ∧
    (fcOutcome b1 var value).2.grid = b1.grid ∧
    (fcOutcome b1 var value).2.constraints = b1.constraints := by
  have hf := forward_check_frame b1 var value
  rw [fcOutcome]
  rcases hfc : forward_check b1 var value with ⟨b2, opt⟩
  rw [hfc] at hf
  cases opt
  · exact hf
  · exact hf

theorem tryValues_cons (recur : Board → Bool × Board) (flags : Flags)
    (acFuel : Nat) (var : Cell) (b : Board) (value : Nat) (rest : List Nat) :
    tryValues recur flags acFuel var b (value :: rest) =
      if (tryStep recur flags acFuel var b value).1 then
        tryStep recur flags acFuel var b value
      else
        tryValues recur flags acFuel var
          { (tryStep recur flags acFuel var b value).2.unassign var with
            domains := b.domains } rest := by
  simp only [tryValues]

theorem inferStep_pres (flags : Flags) (acFuel : Nat) (var : Cell) (value : Nat)
    (b1 : Board) :
    (inferStep flags acFuel var value b1).2.size = b1.size ∧
    (inferStep flags acFuel var value b1).2.grid = b1.grid ∧
    (inferStep flags acFuel var value b1).2.constraints = b1.constraints := by
  rw [inferStep]
  split
  · split
    · have h2 := ac2_frame acFuel (fcOutcome b1 var value).2
      have h1 := fcOutcome_pres b1 var value
      exact ⟨h2.1.trans h1.1, h2.2.1.trans h1.2.1, h2.2.2.trans h1.2.2⟩
    · exact fcOutcome_pres b1 var value
  · split
    · exact ac2_frame acFuel b1
    · exact ⟨rfl, rfl, rfl⟩

theorem tryStep_inconsistent (recur : Board → Bool × Board) (flags : Flags)
    (acFuel : Nat) (var : Cell) (b : Board) (value : Nat)
    (h : (b.assign var value).is_consistent var value = false) :
    tryStep recur flags acFuel var b value = (false, b.assign var value) := by
  rw [tryStep]
  simp only [h, Bool.false_eq_true, if_false]

theorem tryStep_infer_fail (recur : Board → Bool × Board) (flags : Flags)
    (acFuel : Nat) (var : Cell) (b : Board) (value : Nat)
    (hc : (b.assign var value).is_consistent var value = true)
    (hi : (inferStep flags acFuel var value (b.assign var value)).1 = false) :
    tryStep recur flags acFuel var b value =
      (false, (inferStep flags acFuel var value (b.assign var value)).2) := by
  rw [tryStep]
  simp only [hc, if_true, hi, Bool.false_eq_true, if_false]

theorem tryStep_infer_ok (recur : Board → Bool × Board) (flags : Flags)
    (acFuel : Nat) (var : Cell) (b : Board) (value : Nat)
    (hc : (b.assign var value).is_consistent var value = true)
    (hi : (inferStep flags acFuel var value (b.assign var value)).1 = true) :
    tryStep recur flags acFuel var b value =
      recur (inferStep flags acFuel var value (b.assign var value)).2 := by
  rw [tryStep]
  simp only [hc, if_true, hi]

theorem tryStep_pres (recur : Board → Bool × Board) (flags : Flags) (acFuel : Nat)
    (var : Cell) (b : Board) (value : Nat)
    (hrec : ∀ b', (recur b').2.size = b'.size ∧ (recur b').2.constraints = b'.constraints) :
    (tryStep recur flags acFuel var b value).2.size = b.size ∧
    (tryStep recur flags acFuel var b value).2.constraints = b.constraints := by
  have hI := inferStep_pres flags acFuel var value (b.assign var value)
  by_cases hc : (b.assign var value).is_consistent var value = true
  · by_cases hi : (inferStep flags acFuel var value (b.assign var value)).1 = true
    · rw [tryStep_infer_ok recur flags acFuel var b value hc hi]
      have hr := hrec (inferStep flags acFuel var value (b.assign var value)).2
      exact ⟨hr.1.trans hI.1, hr.2.trans hI.2.2⟩
    · rw [tryStep_infer_fail recur flags acFuel var b value hc
        (Bool.not_eq_true _ ▸ hi)]
      exact ⟨hI.1, hI.2.2⟩
  · rw [tryStep_inconsistent recur flags acFuel var b value (Bool.not_eq_true _ ▸ hc)]
    exact ⟨rfl, rfl⟩

theorem tryStep_fail_grid (recur : Board → Bool × Board) (flags : Flags)
    (acFuel : Nat) (var : Cell) (b : Board) (value : Nat)
    (hrecg : ∀ b', (recur b').1 = false → (recur b').2.grid = b'.grid)
    (h : (tryStep recur flags acFuel var b value).1 = false) :
    (tryStep recur flags acFuel var b value).2.grid = gridSet b.grid var value := by
  have hI := inferStep_pres flags acFuel var value (b.assign var value)
  by_cases hc : (b.assign var value).is_consistent var value = true
  · by_cases hi : (inferStep flags acFuel var value (b.assign var value)).1 = true
    · rw [tryStep_infer_ok recur flags acFuel var b value hc hi] at h ⊢
      exact (hrecg _ h).trans hI.2.1
    · rw [tryStep_infer_fail recur flags acFuel var b value hc
        (Bool.not_eq_true _ ▸ hi)]
      exact hI.2.1
  · rw [tryStep_inconsistent recur flags acFuel var b value (Bool.not_eq_true _ ▸ hc)]
    rfl

theorem tryValues_pres (recur : Board → Bool × Board) (flags : Flags) (acFuel : Nat)
    (var : Cell)
    (hrec : ∀ b', (recur b').2.size = b'.size ∧ (recur b').2.constraints = b'.constraints) :
    ∀ (values : List Nat) (b : Board),
      (tryValues recur flags acFuel var b values).2.size = b.size ∧
      (tryValues recur flags acFuel var b values).2.constraints = b.constraints := by
  intro values
  induction values with
  | nil => intro b; exact ⟨rfl, rfl⟩
  | cons value rest ih =>
    intro b
    rw [tryValues_cons]
    have hst := tryStep_pres recur flags acFuel var b value hrec
    split
    · exact hst
    · have := ih { (tryStep recur flags acFuel var b value).2.unassign var with
        domains := b.domains }
      exact ⟨this.1.trans hst.1, this.2.trans hst.2⟩

/-! ### Variable selection facts -/

theorem mem_get_unassigned (b : Board) (cell : Cell) :
    cell ∈ b.get_unassigned_variables ↔
      cell.1 < b.size ∧ cell.2 < b.size ∧ gridGet b.grid cell = 0 := by
  obtain ⟨r, c⟩ := cell
  rw [Board.get_unassigned_variables, List.mem_flatMap]
  constructor
  · rintro ⟨r', hr', hc⟩
    rw [List.mem_filterMap] at hc
    obtain ⟨c', hc', heq⟩ := hc
    by_cases h0 : gridGet b.grid (r', c') = 0
    · rw [if_pos h0] at heq
      cases heq
      exact ⟨List.mem_range.mp hr', List.mem_range.mp hc', h0⟩
    · rw [if_neg h0] at heq
      cases heq
  · rintro ⟨hr, hc, h0⟩
    refine ⟨r, List.mem_range.mpr hr, ?_⟩
    rw [List.mem_filterMap]
    exact ⟨c, List.mem_range.mpr hc, by rw [if_pos h0]⟩

theorem mrv_fold_mem (b : Board) :
    ∀ (l : List Cell) (acc : Option Cell) (v : Cell),
      l.foldl (fun best var =>
        match best with
        | none => some var
        | some bv => if (b.domains var).card < (b.domains bv).card then some var
            else some bv) acc = some v →
      acc = some v ∨ v ∈ l := by
  intro l
  induction l with
  | nil => intro acc v h; exact Or.inl h
  | cons x l ih =>
    intro acc v h
    rw [List.foldl_cons] at h
    rcases ih _ v h with h1 | h1
    · cases acc with
      | none =>
        rw [show (match (none : Option Cell) with
          | none => some x
          | some bv => if (b.domains x).card < (b.domains bv).card then some x
              else some bv) = some x from rfl] at h1
        cases h1
        exact Or.inr (List.mem_cons_self x l)
      | some bv =>
        by_cases hlt : (b.domains x).card < (b.domains bv).card
        · rw [show (match (some bv : Option Cell) with
            | none => some x
            | some bv => if (b.domains x).card < (b.domains bv).card then some x
                else some bv) = if (b.domains x).card < (b.domains bv).card then some x
                else some bv from rfl, if_pos hlt] at h1
          cases h1
          exact Or.inr (List.mem_cons_self x l)
        · rw [show (match (some bv : Option Cell) with
            | none => some x
            | some bv => if (b.domains x).card < (b.domains bv).card then some x
                else some bv) = if (b.domains x).card < (b.domains bv).card then some x
                else some bv from rfl, if_neg hlt] at h1
          exact Or.inl h1
    · exact Or.inr (List.mem_cons_of_mem x h1)

theorem mrv_mem (b : Board) (v : Cell)
    (h : select_unassigned_variable_mrv b = some v) :
    v ∈ b.get_unassigned_variables := by
  rcases mrv_fold_mem b b.get_unassigned_variables none v h with h1 | h1
  · cases h1
  · exact h1

theorem searchVar_mem (flags : Flags) (b : Board) (u : Cell) (rest : List Cell)
    (h : b.get_unassigned_variables = u :: rest) :
    searchVar flags b u ∈ b.get_unassigned_variables := by
  rw [searchVar]
  split
  · cases hm : select_unassigned_variable_mrv b with
    | none => rw [Option.getD_none, h]; exact List.mem_cons_self u rest
    | some v => rw [Option.getD_some]; exact mrv_mem b v hm
  · rw [h]
    exact List.mem_cons_self u rest

/-! ### searchValues facts -/

theorem searchValues_pres (flags : Flags) (var : Cell) (b : Board) :
    (searchValues flags var b).2.size = b.size ∧
    (searchValues flags var b).2.constraints = b.constraints := by
  rw [searchValues]
  split
  · rw [lcv_board_eq]
    split
    · exact ⟨rfl, rfl⟩
    · exact ⟨rfl, rfl⟩
  · exact ⟨rfl, rfl⟩

theorem searchValues_grid (flags : Flags) (var : Cell) (b : Board)
    (hvar : gridGet b.grid var = 0) :
    (searchValues flags var b).2.grid = b.grid := by
  rw [searchValues]
  split
  · rw [lcv_board_eq]
    split
    · rfl
    · exact gridSet_eq_self b.grid var hvar
  · rfl

/-! ### Equations for the fueled search -/

theorem backtracking_search_zero (flags : Flags) (b : Board) :
    backtracking_search flags 0 b = (false, b) := rfl

theorem backtracking_search_done (flags : Flags) (fuel : Nat) (b : Board)
    (h : b.get_unassigned_variables = []) :
    backtracking_search flags (fuel + 1) b = (true, b) := by
  simp only [backtracking_search, h]

theorem backtracking_search_step (flags : Flags) (fuel : Nat) (b : Board)
    (u : Cell) (rest : List Cell)
    (h : b.get_unassigned_variables = u :: rest) :
    backtracking_search flags (fuel + 1) b =
      tryValues (backtracking_search flags fuel) flags (fuel + 1)
        (searchVar flags b u)
        (searchValues flags (searchVar flags b u) b).2
        (searchValues flags (searchVar flags b u) b).1 := by
  simp only [backtracking_search, h]

theorem backtracking_search_pres (flags : Flags) :
    ∀ (fuel : Nat) (b : Board),
      (backtracking_search flags fuel b).2.size = b.size ∧
      (backtracking_search flags fuel b).2.constraints = b.constraints := by
  intro fuel
  induction fuel with
  | zero => intro b; exact ⟨rfl, rfl⟩
  | succ fuel ih =>
    intro b
    cases h : b.get_unassigned_variables with
    | nil => rw [backtracking_search_done flags fuel b h]; exact ⟨rfl, rfl⟩
    | cons u rest =>
      rw [backtracking_search_step flags fuel b u rest h]
      have hsv := searchValues_pres flags (searchVar flags b u) b
      have := tryValues_pres (backtracking_search flags fuel) flags (fuel + 1)
        (searchVar flags b u) ih (searchValues flags (searchVar flags b u) b).1
        (searchValues flags (searchVar flags b u) b).2
      exact ⟨this.1.trans hsv.1, this.2.trans hsv.2⟩

/-! ### C10: failed search restores the grid -/

theorem tryValues_fail_grid (recur : Board → Bool × Board) (flags : Flags)
    (acFuel : Nat) (var : Cell)
    (hrecg : ∀ b', (recur b').1 = false → (recur b').2.grid = b'.grid) :
    ∀ (values : List Nat) (b : Board), gridGet b.grid var = 0 →
      (tryValues recur flags acFuel var b values).1 = false →
      (tryValues recur flags acFuel var b values).2.grid = b.grid := by
  intro values
  induction values with
  | nil => intro b _ _; rfl
  | cons value rest ih =>
    intro b hvar hfail
    rw [tryValues_cons] at hfail ⊢
    by_cases hs : (tryStep recur flags acFuel var b value).1 = true
    · rw [if_pos hs] at hfail
      rw [hs] at hfail
      cases hfail
    · rw [if_neg hs] at hfail ⊢
      have hstep := tryStep_fail_grid recur flags acFuel var b value hrecg
        (Bool.not_eq_true _ ▸ hs)
      have hbR : ({ (tryStep recur flags acFuel var b value).2.unassign var with
          domains := b.domains } : Board).grid = gridSet b.grid var 0 := by
        show gridSet (tryStep recur flags acFuel var b value).2.grid var 0 = _
        rw [hstep, gridSet_gridSet]
      have hvar' : gridGet ({ (tryStep recur flags acFuel var b value).2.unassign var with
          domains := b.domains } : Board).grid var = 0 := by
        rw [hbR, gridGet_gridSet_self]
        exact ite_self 0
      rw [ih _ hvar' hfail, hbR, gridSet_eq_self b.grid var hvar]

theorem search_fail_grid (flags : Flags) :
    ∀ (fuel : Nat) (b : Board),
      (backtracking_search flags fuel b).1 = false →
      (backtracking_search flags fuel b).2.grid = b.grid := by
  intro fuel
  induction fuel with
  | zero => intro b _; rfl
  | succ fuel ih =>
    intro b hfail
    cases h : b.get_unassigned_variables with
    | nil =>
      rw [backtracking_search_done flags fuel b h] at hfail
      cases hfail
    | cons u rest =>
      rw [backtracking_search_step flags fuel b u rest h] at hfail ⊢
      have hmem := searchVar_mem flags b u rest h
      have hvar0 := ((mem_get_unassigned b (searchVar flags b u)).mp hmem).2.2
      have hsvg := searchValues_grid flags (searchVar flags b u) b hvar0
      have hvar1 : gridGet (searchValues flags (searchVar flags b u) b).2.grid
          (searchVar flags b u) = 0 := by rw [hsvg]; exact hvar0
      have := tryValues_fail_grid (backtracking_search flags fuel) flags (fuel + 1)
        (searchVar flags b u) ih (searchValues flags (searchVar flags b u) b).1
        (searchValues flags (searchVar flags b u) b).2 hvar1 hfail
      rw [this, hsvg]

/-- C10 (confirmed). Failed search restores the grid: whenever the
recursive backtracking search returns failure, the final grid is exactly
the grid of the board it was entered with — every tentative assignment
made inside the failed subtree has been undone; in particular, when
`solve` returns failure the final grid equals the initial clue grid. -/
theorem failed_search_restores_grid (flags : Flags) (fuel : Nat) (b : Board) :
    ((backtracking_search flags fuel b).1 = false →
      (backtracking_search flags fuel b).2.grid = b.grid) ∧
    ((solve flags fuel b).1 = false → (solve flags fuel b).2.grid = b.grid) := by
  refine ⟨search_fail_grid flags fuel b, ?_⟩
  intro h
  by_cases hac : flags.use_ac2 = true
  · rw [solve, if_pos hac] at h ⊢
    by_cases hpre : (ac2 fuel b).1 = true
    · rw [if_pos hpre] at h ⊢
      exact (search_fail_grid flags fuel _ h).trans (ac2_frame fuel b).2.1
    · rw [if_neg hpre] at h ⊢
      exact (ac2_frame fuel b).2.1
  · rw [solve, if_neg hac] at h ⊢
    exact search_fail_grid flags fuel b h

/-- A concrete unsolvable board: two equal clues in row 0. -/
def noSolBoard : Board := initBoard 2 (some [[1, 1], [0, 0]]) []

/-- Closed witness for C10: a failed solve on a concrete unsolvable board
leaves the grid equal to the initial clue grid. -/
theorem failed_search_restores_grid_witness :
    (solve ⟨true, true, true, true⟩ 20 noSolBoard).2.grid = noSolBoard.grid :=
  (failed_search_restores_grid ⟨true, true, true, true⟩ 20 noSolBoard).2 (by decide)

/-! ### Well-formedness and validity predicates -/

/-- The cell lies inside an `n`-by-`n` board. -/
def inB (n : Nat) (cell : Cell) : Prop := cell.1 < n ∧ cell.2 < n

instance (n : Nat) (cell : Cell) : Decidable (inB n cell) := by
  rw [inB]; infer_instance

/-- Well-formed board: the grid is `size × size` and every constraint
references in-range cells. (On malformed boards the Python code raises
`IndexError`/`KeyError` instead of returning.) -/
def WF (b : Board) : Prop :=
  b.grid.length = b.size ∧ (∀ row ∈ b.grid, row.length = b.size) ∧
  ∀ cst ∈ b.constraints, inB b.size cst.1 ∧ inB b.size cst.2.1

instance (b : Board) : Decidable (WF b) := by
  rw [WF]; infer_instance

/-- Every in-range cell's domain lies within `{1..size}` (established by
construction and preserved by every operation). -/
def DomOK (b : Board) : Prop :=
  ∀ r < b.size, ∀ c < b.size, b.domains (r, c) ⊆ Finset.Icc 1 b.size

instance (b : Board) : Decidable (DomOK b) := by
  rw [DomOK]; infer_instance

/-- The assigned part of the grid is valid: assigned values lie in
`[1,size]`, no two assigned cells of a row or a column are equal, and
every inequality constraint with both endpoints assigned is satisfied. -/
def GridOK (b : Board) : Prop :=
  (∀ r < b.size, ∀ c < b.size, gridGet b.grid (r, c) ≠ 0 →
    gridGet b.grid (r, c) ∈ Finset.Icc 1 b.size) ∧
  (∀ r < b.size, ∀ c1 < b.size, ∀ c2 < b.size, c1 ≠ c2 →
    gridGet b.grid (r, c1) ≠ 0 → gridGet b.grid (r, c1) ≠ gridGet b.grid (r, c2)) ∧
  (∀ c < b.size, ∀ r1 < b.size, ∀ r2 < b.size, r1 ≠ r2 →
    gridGet b.grid (r1, c) ≠ 0 → gridGet b.grid (r1, c) ≠ gridGet b.grid (r2, c)) ∧
  (∀ cst ∈ b.constraints, gridGet b.grid cst.1 ≠ 0 → gridGet b.grid cst.2.1 ≠ 0 →
    opSat cst.2.2 (gridGet b.grid cst.1) (gridGet b.grid cst.2.1) = true)

instance (b : Board) : Decidable (GridOK b) := by
  rw [GridOK]
  exact @instDecidableAnd _ _ (Nat.decidableBallLT _ _)
    (@instDecidableAnd _ _ (Nat.decidableBallLT _ _)
      (@instDecidableAnd _ _ (Nat.decidableBallLT _ _) (List.decidableBAll _ _)))

/-- Every in-range cell of the grid is assigned. -/
def Complete (b : Board) : Prop :=
  ∀ r < b.size, ∀ c < b.size, gridGet b.grid (r, c) ≠ 0

instance (b : Board) : Decidable (Complete b) := by
  rw [Complete]; infer_instance

theorem WF_congr {b b' : Board} (hs : b'.size = b.size) (hg : b'.grid = b.grid)
    (hc : b'.constraints = b.constraints) (h : WF b) : WF b' := by
  rw [WF, hs, hg, hc]
  exact h

theorem GridOK_congr {b b' : Board} (hs : b'.size = b.size) (hg : b'.grid = b.grid)
    (hc : b'.constraints = b.constraints) (h : GridOK b) : GridOK b' := by
  rw [GridOK, hs, hg, hc]
  exact h

theorem unassigned_nil_iff (b : Board) :
    b.get_unassigned_variables = [] ↔ Complete b := by
  rw [List.eq_nil_iff_forall_not_mem]
  constructor
  · intro h r hr c hc
    have := h (r, c)
    rw [mem_get_unassigned] at this
    intro h0
    exact this ⟨hr, hc, h0⟩
  · intro h cell hmem
    rw [mem_get_unassigned] at hmem
    exact h cell.1 hmem.1 cell.2 hmem.2.1 hmem.2.2

/-! ### Domain-subset lemmas for the inference procedures -/

theorem foldl_update_subset (F : Cell → Finset Nat) :
    ∀ (l : List (Cell × Finset Nat)) (d : Cell → Finset Nat),
      (∀ c, d c ⊆ F c) → (∀ pv ∈ l, pv.2 ⊆ F pv.1) →
      ∀ c, (l.foldl (fun d pv => Function.update d pv.1 (d pv.1 ∪ pv.2)) d) c ⊆ F c := by
  intro l
  induction l with
  | nil => exact fun d hd _ c => hd c
  | cons pv rest ih =>
    intro d hd hl c
    rw [List.foldl_cons]
    refine ih _ ?_ (fun q hq => hl q (List.mem_cons_of_mem pv hq)) c
    intro x
    by_cases hx : x = pv.1
    · rw [hx, Function.update_same]
      exact Finset.union_subset (hd pv.1) (hl pv (List.mem_cons_self pv rest))
    · rw [Function.update_noteq hx]
      exact hd x

theorem fcLoop_domains_subset (var : Cell) (value : Nat) (b0 : Board) :
    ∀ (ns : List Cell) (bCur : Board) (pruned : List (Cell × Finset Nat)),
      (∀ c : Cell, bCur.domains c ⊆ b0.domains c ∪ {value}) →
      (∀ pv ∈ pruned, pv.2 ⊆ b0.domains pv.1 ∪ {value}) →
      ∀ c : Cell, (fcLoop var value (b0.domains var) bCur pruned ns).1.domains c ⊆
        b0.domains c ∪ {value} := by
  intro ns
  induction ns with
  | nil =>
    intro bCur pruned hcur hpr c
    show Function.update bCur.domains var (b0.domains var) c ⊆ _
    by_cases hc : c = var
    · subst hc
      rw [Function.update_same]
      exact Finset.subset_union_left
    · rw [Function.update_noteq hc]
      exact hcur c
  | cons n ns ih =>
    intro bCur pruned hcur hpr c
    have hsub : ∀ x : Cell,
        Function.update bCur.domains n
          ((bCur.domains n).filter fun v => fcKeep bCur.constraints var n value v = true)
          x ⊆ b0.domains x ∪ {value} := by
      intro x
      by_cases hxn : x = n
      · subst hxn
        rw [Function.update_same]
        exact (Finset.filter_subset _ _).trans (hcur x)
      · rw [Function.update_noteq hxn]
        exact hcur x
    by_cases hg : gridGet bCur.grid n = 0
    · by_cases hND :
          ((bCur.domains n).filter fun v => fcKeep bCur.constraints var n value v = true) = ∅
      · rw [fcLoop_cons_fail var value (b0.domains var) bCur pruned n ns hg hND]
        show fcRestore (Function.update bCur.domains n _) var (b0.domains var) pruned c ⊆ _
        rw [fcRestore]
        refine foldl_update_subset (fun x => b0.domains x ∪ {value}) pruned _ ?_ hpr c
        intro x
        by_cases hx : x = var
        · subst hx
          rw [Function.update_same]
          exact Finset.subset_union_left
        · rw [Function.update_noteq hx]
          exact hsub x
      · rw [fcLoop_cons_step var value (b0.domains var) bCur pruned n ns hg hND]
        refine ih _ _ hsub ?_ c
        intro pv hpv
        rw [List.mem_append] at hpv
        rcases hpv with hpv | hpv
        · exact hpr pv hpv
        · rw [List.mem_singleton] at hpv
          subst hpv
          exact Finset.sdiff_subset.trans (hcur n)
    · rw [fcLoop_cons_skip var value (b0.domains var) bCur pruned n ns hg]
      exact ih bCur pruned hcur hpr c

theorem forward_check_domains_subset (b : Board) (var : Cell) (value : Nat)
    (c : Cell) :
    (forward_check b var value).1.domains c ⊆ b.domains c ∪ {value} := by
  refine fcLoop_domains_subset var value b (b.get_neighbors var) _ [] ?_ ?_ c
  · intro x
    show Function.update b.domains var {value} x ⊆ b.domains x ∪ {value}
    by_cases hx : x = var
    · subst hx
      rw [Function.update_same]
      exact Finset.subset_union_right
    · rw [Function.update_noteq hx]
      exact Finset.subset_union_left
  · intro pv hpv
    cases hpv

theorem revise_of_empty (b : Board) (xi xj : Cell)
    (h : reviseToRemove b xi xj = ∅) : revise b xi xj = (false, b) := by
  rw [revise, if_pos h]

theorem revise_of_nonempty (b : Board) (xi xj : Cell)
    (h : reviseToRemove b xi xj ≠ ∅) :
    revise b xi xj = (true, { b with domains :=
      (Function.update b.domains xi (b.domains xi \ reviseToRemove b xi xj)) }) := by
  rw [revise, if_neg h]

theorem revise_domains_subset (b : Board) (xi xj : Cell) (c : Cell) :
    (revise b xi xj).2.domains c ⊆ b.domains c := by
  by_cases h : reviseToRemove b xi xj = ∅
  · rw [revise_of_empty b xi xj h]
  · rw [revise_of_nonempty b xi xj h]
    show Function.update b.domains xi (b.domains xi \ reviseToRemove b xi xj) c ⊆ _
    by_cases hc : c = xi
    · rw [hc, Function.update_same]
      exact Finset.sdiff_subset
    · rw [Function.update_noteq hc]

theorem ac2Loop_domains_subset : ∀ (fuel : Nat) (q : List (Cell × Cell)) (b : Board)
    (res : Bool × Board), ac2Loop fuel q b = some res →
    ∀ c : Cell, res.2.domains c ⊆ b.domains c := by
  intro fuel
  induction fuel with
  | zero => intro q b res h; cases h
  | succ fuel ih =>
    intro q b res h
    cases q with
    | nil =>
      rw [ac2Loop] at h
      cases h
      exact fun c x hx => hx
    | cons arc rest =>
      obtain ⟨xi, xj⟩ := arc
      have hrs := revise_domains_subset b xi xj
      simp only [ac2Loop] at h
      by_cases hr : (revise b xi xj).1 = true
      · rw [if_pos hr] at h
        by_cases hd : (revise b xi xj).2.domains xi = ∅
        · rw [if_pos hd] at h
          cases h
          exact hrs
        · rw [if_neg hd] at h
          exact fun c => (ih _ _ _ h c).trans (hrs c)
      · rw [if_neg hr] at h
        exact ih _ _ _ h

/-! ### What is_consistent guarantees -/

theorem WF_row_len (b : Board) (hWF : WF b) (r : Nat) (hr : r < b.size) :
    (b.grid.getD r []).length = b.size := by
  have hlen : r < b.grid.length := by rw [hWF.1]; exact hr
  rw [List.getD_eq_getElem?_getD, List.getElem?_eq_getElem hlen]
  exact hWF.2.1 _ (List.getElem_mem hlen)

theorem gridGet_assign_self (b : Board) (var : Cell) (value : Nat)
    (hWF : WF b) (hin : inB b.size var) :
    gridGet (b.assign var value).grid var = value := by
  show gridGet (gridSet b.grid var value) var = value
  rw [gridGet_gridSet_self, if_pos]
  rw [WF_row_len b hWF var.1 hin.1]
  exact hin.2

theorem gridGet_assign_ne (b : Board) (var c : Cell) (value : Nat)
    (h : c ≠ var) : gridGet (b.assign var value).grid c = gridGet b.grid c :=
  gridGet_gridSet_ne b.grid var c value h

theorem WF_assign (b : Board) (var : Cell) (value : Nat) (h : WF b)
    (hin : inB b.size var) : WF (b.assign var value) := by
  refine ⟨?_, ?_, h.2.2⟩
  · show (gridSet b.grid var value).length = b.size
    rw [length_gridSet]
    exact h.1
  · intro row hrow
    show row.length = b.size
    rcases List.mem_or_eq_of_mem_set hrow with hmem | heq
    · exact h.2.1 row hmem
    · rw [heq, List.length_set]
      exact WF_row_len b h var.1 hin.1

theorem DomOK_assign (b : Board) (var : Cell) (value : Nat) (hD : DomOK b)
    (hv : value ∈ Finset.Icc 1 b.size) : DomOK (b.assign var value) := by
  intro r hr c hc
  show Function.update b.domains var {value} (r, c) ⊆ Finset.Icc 1 b.size
  by_cases h : ((r, c) : Cell) = var
  · rw [h, Function.update_same]
    exact Finset.singleton_subset_iff.mpr hv
  · rw [Function.update_noteq h]
    exact hD r hr c hc

theorem is_consistent_row (b : Board) (var : Cell) (value : Nat)
    (h : b.is_consistent var value = true) (col : Nat) (hcol : col < b.size)
    (hne : col ≠ var.2) : gridGet b.grid (var.1, col) ≠ value := by
  intro heq
  rw [Board.is_consistent, Bool.and_eq_true, Bool.and_eq_true] at h
  have h2 := List.all_eq_true.mp h.1.1 col (List.mem_range.mpr hcol)
  rw [heq] at h2
  simp [hne] at h2

theorem is_consistent_col (b : Board) (var : Cell) (value : Nat)
    (h : b.is_consistent var value = true) (row : Nat) (hrow : row < b.size)
    (hne : row ≠ var.1) : gridGet b.grid (row, var.2) ≠ value := by
  intro heq
  rw [Board.is_consistent, Bool.and_eq_true, Bool.and_eq_true] at h
  have h2 := List.all_eq_true.mp h.1.2 row (List.mem_range.mpr hrow)
  rw [heq] at h2
  simp [hne] at h2

theorem is_consistent_cst (b : Board) (var : Cell) (value : Nat)
    (h : b.is_consistent var value = true) (cst : Cstr) (hcst : cst ∈ b.constraints) :
    (if cst.1 = var ∧ gridGet b.grid cst.2.1 ≠ 0 then
       opSat cst.2.2 value (gridGet b.grid cst.2.1)
     else if cst.2.1 = var ∧ gridGet b.grid cst.1 ≠ 0 then
       opSat cst.2.2 (gridGet b.grid cst.1) value
     else if gridGet b.grid cst.1 ≠ 0 ∧ gridGet b.grid cst.2.1 ≠ 0 ∧
         cst.1 ≠ var ∧ cst.2.1 ≠ var then
       opSat cst.2.2 (gridGet b.grid cst.1) (gridGet b.grid cst.2.1)
     else true) = true := by
  rw [Board.is_consistent, Bool.and_eq_true, Bool.and_eq_true] at h
  exact List.all_eq_true.mp h.2 cst hcst

theorem gridOK_assign (b : Board) (var : Cell) (value : Nat)
    (hG : GridOK b) (hWF : WF b) (hin : inB b.size var)
    (hv : value ∈ Finset.Icc 1 b.size)
    (hc : (b.assign var value).is_consistent var value = true) :
    GridOK (b.assign var value) := by
  have hgself := gridGet_assign_self b var value hWF hin
  refine ⟨?_, ?_, ?_, ?_⟩
  · intro r hr c hc' hne
    by_cases h : ((r, c) : Cell) = var
    · rw [h, hgself]
      exact hv
    · rw [gridGet_assign_ne b var (r, c) value h] at hne ⊢
      exact hG.1 r hr c hc' hne
  · intro r hr c1 hc1 c2 hc2 hne h1
    by_cases hA : ((r, c1) : Cell) = var
    · have hr1 : r = var.1 := congrArg Prod.fst hA
      have hc1' : c1 = var.2 := congrArg Prod.snd hA
      have hnec2 : c2 ≠ var.2 := fun h => hne (by rw [hc1', h])
      rw [hA, hgself, hr1]
      exact (is_consistent_row (b.assign var value) var value hc c2 hc2 hnec2).symm
    · by_cases hB : ((r, c2) : Cell) = var
      · have hr1 : r = var.1 := congrArg Prod.fst hB
        have hc2' : c2 = var.2 := congrArg Prod.snd hB
        have hnec1 : c1 ≠ var.2 := fun h => hne (h.trans hc2'.symm)
        rw [hB, hgself, hr1]
        exact is_consistent_row (b.assign var value) var value hc c1 hc1 hnec1
      · rw [gridGet_assign_ne b var (r, c1) value hA] at h1 ⊢
        rw [gridGet_assign_ne b var (r, c2) value hB]
        exact hG.2.1 r hr c1 hc1 c2 hc2 hne h1
  · intro c hcc r1 hr1 r2 hr2 hne h1
    by_cases hA : ((r1, c) : Cell) = var
    · have hcv : c = var.2 := congrArg Prod.snd hA
      have hrv : r1 = var.1 := congrArg Prod.fst hA
      have hner2 : r2 ≠ var.1 := fun h => hne (by rw [hrv, h])
      rw [hA, hgself, hcv]
      exact (is_consistent_col (b.assign var value) var value hc r2 hr2 hner2).symm
    · by_cases hB : ((r2, c) : Cell) = var
      · have hcv : c = var.2 := congrArg Prod.snd hB
        have hrv : r2 = var.1 := congrArg Prod.fst hB
        have hner1 : r1 ≠ var.1 := fun h => hne (h.trans hrv.symm)
        rw [hB, hgself, hcv]
        exact is_consistent_col (b.assign var value) var value hc r1 hr1 hner1
      · rw [gridGet_assign_ne b var (r1, c) value hA] at h1 ⊢
        rw [gridGet_assign_ne b var (r2, c) value hB]
        exact hG.2.2.1 c hcc r1 hr1 r2 hr2 hne h1
  · intro cst hcst h1 h2
    have hx := is_consistent_cst (b.assign var value) var value hc cst hcst
    by_cases hA : cst.1 = var
    · rw [if_pos ⟨hA, h2⟩] at hx
      rw [hA, hgself]
      exact hx
    · by_cases hB : cst.2.1 = var
      · rw [if_neg (fun hh => hA hh.1), if_pos ⟨hB, h1⟩] at hx
        rw [hB, hgself]
        exact hx
      · rw [if_neg (fun hh => hA hh.1), if_neg (fun hh => hB hh.1),
          if_pos ⟨h1, h2, hA, hB⟩] at hx
        exact hx

/-! ### Values produced by searchValues -/

theorem lcv_fold_fst (var : Cell) (l : List Nat) :
    ∀ (acc : List (Nat × Nat)) (b : Board),
      ((l.foldl (fun (acc : List (Nat × Nat) × Board) value =>
        let b1 := acc.2.assign var value
        (acc.1 ++ [(value, lcvScore b1 var value)], b1.unassign var)) (acc, b)).1).map
          Prod.fst = acc.map Prod.fst ++ l := by
  induction l with
  | nil => intro acc b; simp
  | cons v vs ih =>
    intro acc b
    rw [List.foldl_cons]
    show ((vs.foldl _ (acc ++ [(v, _)], _)).1).map Prod.fst = _
    rw [ih, List.map_append]
    simp

theorem mem_insertByScore (p q : Nat × Nat) :
    ∀ l : List (Nat × Nat), q ∈ insertByScore p l ↔ q = p ∨ q ∈ l := by
  intro l
  induction l with
  | nil => simp [insertByScore]
  | cons x xs ih =>
    rw [insertByScore]
    split
    · rw [List.mem_cons, ih, List.mem_cons]
      tauto
    · rw [List.mem_cons, List.mem_cons]

theorem mem_sortByScore (q : Nat × Nat) :
    ∀ l : List (Nat × Nat), q ∈ sortByScore l ↔ q ∈ l := by
  intro l
  induction l with
  | nil => exact Iff.rfl
  | cons x xs ih =>
    rw [sortByScore, mem_insertByScore, ih, List.mem_cons]

theorem lcv_values_iff (var : Cell) (b : Board) (v : Nat) :
    v ∈ (order_domain_values_lcv var b).1 ↔ v ∈ b.domains var := by
  have hfst := lcv_fold_fst var (finsetAsc (b.domains var)) [] b
  simp only [order_domain_values_lcv]
  constructor
  · intro hv
    obtain ⟨q, hq, hq1⟩ := List.mem_map.mp hv
    rw [mem_sortByScore] at hq
    have hmem : q.1 ∈ ((((finsetAsc (b.domains var))).foldl _ ([], b)).1).map Prod.fst :=
      List.mem_map_of_mem Prod.fst hq
    rw [hfst] at hmem
    rw [List.map_nil, List.nil_append] at hmem
    rw [← hq1]
    exact mem_finsetAsc.mp hmem
  · intro hv
    have hmem : v ∈ (([] : List (Nat × Nat)).map Prod.fst) ++ finsetAsc (b.domains var) := by
      rw [List.map_nil, List.nil_append]
      exact mem_finsetAsc.mpr hv
    rw [← hfst] at hmem
    obtain ⟨q, hq, hq1⟩ := List.mem_map.mp hmem
    exact List.mem_map.mpr ⟨q, (mem_sortByScore q _).mpr hq, hq1⟩

theorem searchValues_values_iff (flags : Flags) (var : Cell) (b : Board) (v : Nat) :
    v ∈ (searchValues flags var b).1 ↔ v ∈ b.domains var := by
  rw [searchValues]
  split
  · exact lcv_values_iff var b v
  · exact mem_finsetAsc

theorem searchValues_domok (flags : Flags) (var : Cell) (b : Board)
    (hD : DomOK b) : DomOK (searchValues flags var b).2 := by
  rw [searchValues]
  split
  · rw [lcv_board_eq]
    split
    · exact hD
    · intro r hr c hc
      show Function.update b.domains var (Finset.Icc 1 b.size) (r, c) ⊆ Finset.Icc 1 b.size
      by_cases h : ((r, c) : Cell) = var
      · rw [h, Function.update_same]
      · rw [Function.update_noteq h]
        exact hD r hr c hc
  · exact hD

/-! ### The inference step shrinks domains (up to the assigned value) -/

theorem ac2_domains_subset (fuel : Nat) (b : Board) (c : Cell) :
    (ac2 fuel b).2.domains c ⊆ b.domains c := by
  rw [ac2]
  cases h : ac2Loop fuel (initQueue b) b with
  | none => exact fun x hx => hx
  | some res => exact ac2Loop_domains_subset fuel (initQueue b) b res h c

theorem fcOutcome_domains_subset (b1 : Board) (var : Cell) (value : Nat) (c : Cell) :
    (fcOutcome b1 var value).2.domains c ⊆ b1.domains c ∪ {value} := by
  have hf := forward_check_domains_subset b1 var value c
  rw [fcOutcome]
  rcases hfc : forward_check b1 var value with ⟨b2, opt⟩
  rw [hfc] at hf
  cases opt
  · exact hf
  · exact hf

theorem inferStep_domains_subset (flags : Flags) (acFuel : Nat) (var : Cell)
    (value : Nat) (b1 : Board) (c : Cell) :
    (inferStep flags acFuel var value b1).2.domains c ⊆ b1.domains c ∪ {value} := by
  have hfc : ∀ x : Cell, (if flags.use_forward_checking = true then fcOutcome b1 var value
      else (true, b1)).2.domains x ⊆ b1.domains x ∪ {value} := by
    intro x
    split
    · exact fcOutcome_domains_subset b1 var value x
    · exact Finset.subset_union_left
  rw [inferStep]
  by_cases hf : flags.use_forward_checking = true
  · rw [show (if flags.use_forward_checking = true then fcOutcome b1 var value
      else (true, b1)) = fcOutcome b1 var value from if_pos hf]
    split
    · exact (ac2_domains_subset acFuel _ c).trans (fcOutcome_domains_subset b1 var value c)
    · exact fcOutcome_domains_subset b1 var value c
  · rw [show (if flags.use_forward_checking = true then fcOutcome b1 var value
      else (true, b1)) = (true, b1) from if_neg hf]
    split
    · exact (ac2_domains_subset acFuel b1 c).trans Finset.subset_union_left
    · exact Finset.subset_union_left

/-! ### Soundness of the backtracking search -/

/-- What a successful search starting from `b` guarantees about the
returned board. -/
def SearchOK (b bR : Board) : Prop :=
  WF bR ∧ GridOK bR ∧ Complete bR ∧ bR.size = b.size ∧ bR.constraints = b.constraints ∧
  ∀ r < b.size, ∀ c < b.size, gridGet b.grid (r, c) ≠ 0 →
    gridGet bR.grid (r, c) = gridGet b.grid (r, c)

theorem tryValues_sound (recur : Board → Bool × Board) (flags : Flags) (acFuel : Nat)
    (var : Cell)
    (hrec : ∀ b', WF b' → GridOK b' → DomOK b' → (recur b').1 = true →
      SearchOK b' (recur b').2)
    (hrecp : ∀ b', (recur b').2.size = b'.size ∧ (recur b').2.constraints = b'.constraints)
    (hrecg : ∀ b', (recur b').1 = false → (recur b').2.grid = b'.grid) :
    ∀ (values : List Nat) (b : Board), WF b → GridOK b → DomOK b →
      inB b.size var → gridGet b.grid var = 0 →
      (∀ v ∈ values, v ∈ Finset.Icc 1 b.size) →
      (tryValues recur flags acFuel var b values).1 = true →
      SearchOK b (tryValues recur flags acFuel var b values).2 := by
  intro values
  induction values with
  | nil =>
    intro b _ _ _ _ _ _ htrue
    simp only [tryValues] at htrue
    cases htrue
  | cons value rest ih =>
    intro b hWF hG hD hin h0 hvals htrue
    rw [tryValues_cons] at htrue ⊢
    by_cases hs : (tryStep recur flags acFuel var b value).1 = true
    · rw [if_pos hs] at htrue ⊢
      by_cases hcons : (b.assign var value).is_consistent var value = true
      · by_cases hinf : (inferStep flags acFuel var value (b.assign var value)).1 = true
        · rw [tryStep_infer_ok recur flags acFuel var b value hcons hinf] at hs ⊢
          have hIpres := inferStep_pres flags acFuel var value (b.assign var value)
          have hvIcc : value ∈ Finset.Icc 1 b.size := hvals value (List.mem_cons_self ..)
          have hWF1 := WF_assign b var value hWF hin
          have hG1 := gridOK_assign b var value hG hWF hin hvIcc hcons
          have hD1 := DomOK_assign b var value hD hvIcc
          have hWFI : WF (inferStep flags acFuel var value (b.assign var value)).2 :=
            WF_congr hIpres.1 hIpres.2.1 hIpres.2.2 hWF1
          have hGI : GridOK (inferStep flags acFuel var value (b.assign var value)).2 :=
            GridOK_congr hIpres.1 hIpres.2.1 hIpres.2.2 hG1
          have hDI : DomOK (inferStep flags acFuel var value (b.assign var value)).2 := by
            intro r hr c hcc
            rw [hIpres.1] at hr hcc ⊢
            refine (inferStep_domains_subset flags acFuel var value
              (b.assign var value) (r, c)).trans (Finset.union_subset ?_ ?_)
            · exact hD1 r hr c hcc
            · exact Finset.singleton_subset_iff.mpr hvIcc
          obtain ⟨hWFr, hGr, hCr, hsz, hcs, hext⟩ := hrec _ hWFI hGI hDI hs
          refine ⟨hWFr, hGr, hCr, hsz.trans hIpres.1, hcs.trans hIpres.2.2, ?_⟩
          intro r hr c hcc hne
          have hnevar : ((r, c) : Cell) ≠ var := fun h => hne (h ▸ h0)
          have hbI : gridGet (inferStep flags acFuel var value (b.assign var value)).2.grid
              (r, c) = gridGet b.grid (r, c) := by
            rw [hIpres.2.1]
            exact gridGet_assign_ne b var (r, c) value hnevar
          have hx := hext r (by rw [hIpres.1]; exact hr) c (by rw [hIpres.1]; exact hcc)
            (by rw [hbI]; exact hne)
          rw [hx, hbI]
        · rw [tryStep_infer_fail recur flags acFuel var b value hcons
            (Bool.not_eq_true _ ▸ hinf)] at hs
          cases hs
      · rw [tryStep_inconsistent recur flags acFuel var b value
          (Bool.not_eq_true _ ▸ hcons)] at hs
        cases hs
    · rw [if_neg hs] at htrue ⊢
      have hpres := tryStep_pres recur flags acFuel var b value hrecp
      have hgfail := tryStep_fail_grid recur flags acFuel var b value hrecg
        (Bool.not_eq_true _ ▸ hs)
      have hbR : ({ (tryStep recur flags acFuel var b value).2.unassign var with
          domains := b.domains } : Board) = b := by
        apply Board.eq_of_parts
        · exact hpres.1
        · show gridSet (tryStep recur flags acFuel var b value).2.grid var 0 = b.grid
          rw [hgfail, gridSet_gridSet]
          exact gridSet_eq_self b.grid var h0
        · rfl
        · exact hpres.2
      rw [hbR] at htrue ⊢
      exact ih b hWF hG hD hin h0 (fun v hv => hvals v (List.mem_cons_of_mem value hv)) htrue

theorem search_sound (flags : Flags) :
    ∀ (fuel : Nat) (b : Board), WF b → GridOK b → DomOK b →
      (backtracking_search flags fuel b).1 = true →
      SearchOK b (backtracking_search flags fuel b).2 := by
  intro fuel
  induction fuel with
  | zero =>
    intro b _ _ _ htrue
    cases htrue
  | succ fuel ih =>
    intro b hWF hG hD htrue
    cases hu : b.get_unassigned_variables with
    | nil =>
      rw [backtracking_search_done flags fuel b hu] at htrue ⊢
      exact ⟨hWF, hG, (unassigned_nil_iff b).mp hu, rfl, rfl, fun r _ c _ _ => rfl⟩
    | cons u rest =>
      rw [backtracking_search_step flags fuel b u rest hu] at htrue ⊢
      have hmem := searchVar_mem flags b u rest hu
      rw [mem_get_unassigned] at hmem
      have hQpres := searchValues_pres flags (searchVar flags b u) b
      have hQgrid := searchValues_grid flags (searchVar flags b u) b hmem.2.2
      have hWFQ := WF_congr hQpres.1 hQgrid hQpres.2 hWF
      have hGQ := GridOK_congr hQpres.1 hQgrid hQpres.2 hG
      have hDQ := searchValues_domok flags (searchVar flags b u) b hD
      have hinQ : inB (searchValues flags (searchVar flags b u) b).2.size
          (searchVar flags b u) := by
        rw [inB, hQpres.1]
        exact ⟨hmem.1, hmem.2.1⟩
      have h0Q : gridGet (searchValues flags (searchVar flags b u) b).2.grid
          (searchVar flags b u) = 0 := by
        rw [hQgrid]
        exact hmem.2.2
      have hvalsQ : ∀ v ∈ (searchValues flags (searchVar flags b u) b).1,
          v ∈ Finset.Icc 1 (searchValues flags (searchVar flags b u) b).2.size := by
        intro v hv
        rw [hQpres.1]
        have hdom := (searchValues_values_iff flags (searchVar flags b u) b v).mp hv
        exact hD (searchVar flags b u).1 hmem.1 (searchVar flags b u).2 hmem.2.1 hdom
      obtain ⟨h1, h2, h3, h4, h5, h6⟩ := tryValues_sound (backtracking_search flags fuel)
        flags (fuel + 1) (searchVar flags b u) ih (backtracking_search_pres flags fuel)
        (search_fail_grid flags fuel) (searchValues flags (searchVar flags b u) b).1
        (searchValues flags (searchVar flags b u) b).2 hWFQ hGQ hDQ hinQ h0Q hvalsQ htrue
      refine ⟨h1, h2, h3, h4.trans hQpres.1, h5.trans hQpres.2, ?_⟩
      intro r hr c hc hne
      have hx := h6 r (by rw [hQpres.1]; exact hr) c (by rw [hQpres.1]; exact hc)
        (by rw [hQgrid]; exact hne)
      rw [hx, hQgrid]

theorem DomOK_subset_trans {b b' : Board} (hs : b'.size = b.size)
    (hsub : ∀ c : Cell, b'.domains c ⊆ b.domains c) (hD : DomOK b) : DomOK b' := by
  intro r hr c hc
  rw [hs] at hr hc ⊢
  exact (hsub (r, c)).trans (hD r hr c hc)

/-- C1, amended (the claim as stated is refuted by
`solve_accepts_invalid_clues`): solver soundness holds for every
well-formed board whose pre-assigned cells are themselves valid and whose
domains lie inside `{1..size}` — the invariants the constructor
establishes when the clues are legal. For such boards, whenever `solve`
reports success the final grid is fully assigned, every cell holds a value
in `[1,size]`, no two cells of a row or a column are equal, and every
inequality constraint is satisfied. (The code never re-checks pre-assigned
clues: an inconsistent fully-clued board is reported as success as-is.) -/
theorem solver_soundness (flags : Flags) (fuel : Nat) (b : Board)
    (hWF : WF b) (hG : GridOK b) (hD : DomOK b)
    (hs : (solve flags fuel b).1 = true) :
    Complete (solve flags fuel b).2 ∧
    (∀ r < b.size, ∀ c < b.size,
      gridGet (solve flags fuel b).2.grid (r, c) ∈ Finset.Icc 1 b.size) ∧
    (∀ r < b.size, ∀ c1 < b.size, ∀ c2 < b.size, c1 ≠ c2 →
      gridGet (solve flags fuel b).2.grid (r, c1) ≠
        gridGet (solve flags fuel b).2.grid (r, c2)) ∧
    (∀ c < b.size, ∀ r1 < b.size, ∀ r2 < b.size, r1 ≠ r2 →
      gridGet (solve flags fuel b).2.grid (r1, c) ≠
        gridGet (solve flags fuel b).2.grid (r2, c)) ∧
    (∀ cst ∈ b.constraints,
      opSat cst.2.2 (gridGet (solve flags fuel b).2.grid cst.1)
        (gridGet (solve flags fuel b).2.grid cst.2.1) = true) := by
  have main : ∀ bS : Board, WF bS → GridOK bS → DomOK bS →
      bS.size = b.size → bS.constraints = b.constraints →
      (backtracking_search flags fuel bS).1 = true →
      Complete (backtracking_search flags fuel bS).2 ∧
      (∀ r < b.size, ∀ c < b.size,
        gridGet (backtracking_search flags fuel bS).2.grid (r, c) ∈ Finset.Icc 1 b.size) ∧
      (∀ r < b.size, ∀ c1 < b.size, ∀ c2 < b.size, c1 ≠ c2 →
        gridGet (backtracking_search flags fuel bS).2.grid (r, c1) ≠
          gridGet (backtracking_search flags fuel bS).2.grid (r, c2)) ∧
      (∀ c < b.size, ∀ r1 < b.size, ∀ r2 < b.size, r1 ≠ r2 →
        gridGet (backtracking_search flags fuel bS).2.grid (r1, c) ≠
          gridGet (backtracking_search flags fuel bS).2.grid (r2, c)) ∧
      (∀ cst ∈ b.constraints,
        opSat cst.2.2 (gridGet (backtracking_search flags fuel bS).2.grid cst.1)
          (gridGet (backtracking_search flags fuel bS).2.grid cst.2.1) = true) := by
    intro bS hWFS hGS hDS hsz hcs htrue
    obtain ⟨hWFr, hGr, hCr, hszr, hcsr, _⟩ := search_sound flags fuel bS hWFS hGS hDS htrue
    have hszb : (backtracking_search flags fuel bS).2.size = b.size := hszr.trans hsz
    have hcsb : (backtracking_search flags fuel bS).2.constraints = b.constraints :=
      hcsr.trans hcs
    have hComp : Complete (backtracking_search flags fuel bS).2 := hCr
    refine ⟨hComp, ?_, ?_, ?_, ?_⟩
    · intro r hr c hc
      have hx := hGr.1 r (by rw [hszb]; exact hr) c (by rw [hszb]; exact hc)
        (hComp r (by rw [hszb]; exact hr) c (by rw [hszb]; exact hc))
      rw [hszb] at hx
      exact hx
    · intro r hr c1 hc1 c2 hc2 hne
      exact hGr.2.1 r (by rw [hszb]; exact hr) c1 (by rw [hszb]; exact hc1) c2
        (by rw [hszb]; exact hc2) hne
        (hComp r (by rw [hszb]; exact hr) c1 (by rw [hszb]; exact hc1))
    · intro c hc r1 hr1 r2 hr2 hne
      exact hGr.2.2.1 c (by rw [hszb]; exact hc) r1 (by rw [hszb]; exact hr1) r2
        (by rw [hszb]; exact hr2) hne
        (hComp r1 (by rw [hszb]; exact hr1) c (by rw [hszb]; exact hc))
    · intro cst hcst
      have hwf := hWFr.2.2 cst (by rw [hcsb]; exact hcst)
      refine hGr.2.2.2 cst (by rw [hcsb]; exact hcst) ?_ ?_
      · exact hComp cst.1.1 (by rw [hszb]; exact (hszb ▸ hwf.1.1)) cst.1.2
          (by rw [hszb]; exact (hszb ▸ hwf.1.2))
      · exact hComp cst.2.1.1 (by rw [hszb]; exact (hszb ▸ hwf.2.1)) cst.2.1.2
          (by rw [hszb]; exact (hszb ▸ hwf.2.2))
  by_cases hac : flags.use_ac2 = true
  · rw [solve, if_pos hac] at hs ⊢
    by_cases hpre : (ac2 fuel b).1 = true
    · rw [if_pos hpre] at hs ⊢
      have hfr := ac2_frame fuel b
      exact main (ac2 fuel b).2 (WF_congr hfr.1 hfr.2.1 hfr.2.2 hWF)
        (GridOK_congr hfr.1 hfr.2.1 hfr.2.2 hG)
        (DomOK_subset_trans hfr.1 (fun c => ac2_domains_subset fuel b c) hD)
        hfr.1 hfr.2.2 hs
    · rw [if_neg hpre] at hs
      cases hs
  · rw [solve, if_neg hac] at hs ⊢
    exact main b hWF hG hD rfl rfl hs

/-- A board constructed with invalid clues: two `1`s in row 0 and two
`2`s in row 1, fully assigned. -/
def badClueBoard : Board := initBoard 2 (some [[1, 1], [2, 2]]) []

/-- Counterexample to C1 as stated: on a fully-clued but inconsistent
board, `solve` (all flags off) reports success while the grid holds two
equal values in row 0 — the claimed soundness fails for boards whose
pre-assigned clues are invalid. -/
theorem solve_accepts_invalid_clues :
    (solve ⟨false, false, false, false⟩ 5 badClueBoard).1 = true ∧
    gridGet (solve ⟨false, false, false, false⟩ 5 badClueBoard).2.grid (0, 0) = 1 ∧
    gridGet (solve ⟨false, false, false, false⟩ 5 badClueBoard).2.grid (0, 1) = 1 := by
  refine ⟨by decide, by decide, by decide⟩

/-- Closed witness for the amended C1 at a concrete solvable input. -/
theorem solver_soundness_witness :
    Complete (solve ⟨false, false, false, false⟩ 8 (initBoard 2 none [])).2 ∧
    (∀ r < (initBoard 2 none []).size, ∀ c < (initBoard 2 none []).size,
      gridGet (solve ⟨false, false, false, false⟩ 8 (initBoard 2 none [])).2.grid (r, c) ∈
        Finset.Icc 1 (initBoard 2 none []).size) ∧
    (∀ r < (initBoard 2 none []).size, ∀ c1 < (initBoard 2 none []).size,
      ∀ c2 < (initBoard 2 none []).size, c1 ≠ c2 →
      gridGet (solve ⟨false, false, false, false⟩ 8 (initBoard 2 none [])).2.grid (r, c1) ≠
        gridGet (solve ⟨false, false, false, false⟩ 8 (initBoard 2 none [])).2.grid (r, c2)) ∧
    (∀ c < (initBoard 2 none []).size, ∀ r1 < (initBoard 2 none []).size,
      ∀ r2 < (initBoard 2 none []).size, r1 ≠ r2 →
      gridGet (solve ⟨false, false, false, false⟩ 8 (initBoard 2 none [])).2.grid (r1, c) ≠
        gridGet (solve ⟨false, false, false, false⟩ 8 (initBoard 2 none [])).2.grid (r2, c)) ∧
    (∀ cst ∈ (initBoard 2 none []).constraints,
      opSat cst.2.2
        (gridGet (solve ⟨false, false, false, false⟩ 8 (initBoard 2 none [])).2.grid cst.1)
        (gridGet (solve ⟨false, false, false, false⟩ 8 (initBoard 2 none [])).2.grid
          cst.2.1) = true) :=
  solver_soundness ⟨false, false, false, false⟩ 8 (initBoard 2 none [])
    (by decide) (by decide) (by decide) (by decide)

/-! ### C5: arc-consistency soundness -/

/-- Two distinct in-range cells with a direct constraint: a shared row or
column, or a linking inequality constraint. -/
def constrainedPair (b : Board) (xi xj : Cell) : Prop :=
  xi ≠ xj ∧ inB b.size xi ∧ inB b.size xj ∧
  (sameRC xi xj = true ∨ matchingConstraints b.constraints xi xj ≠ [])

/-- The arc `(xi, xj)` is consistent: every remaining value of `xi` has a
supporting value in the domain of `xj`. -/
def arcOK (b : Board) (xi xj : Cell) : Prop :=
  ∀ x ∈ b.domains xi, ∃ y ∈ b.domains xj, supportedVal b.constraints xi xj x y = true

theorem constrainedPair_congr {b b' : Board} (hs : b'.size = b.size)
    (hc : b'.constraints = b.constraints) (xi xj : Cell) :
    constrainedPair b' xi xj ↔ constrainedPair b xi xj := by
  rw [constrainedPair, constrainedPair, hs, hc]

theorem any_congr_mem {α : Type} (l : List α) (p q : α → Bool)
    (h : ∀ a ∈ l, p a = q a) : l.any p = l.any q := by
  induction l with
  | nil => rfl
  | cons x xs ih =>
    rw [List.any_cons, List.any_cons, h x (List.mem_cons_self x xs),
      ih fun a ha => h a (List.mem_cons_of_mem x ha)]

theorem mem_matchingConstraints (cs : List Cstr) (xi xj : Cell) (cst : Cstr) :
    cst ∈ matchingConstraints cs xi xj ↔
      cst ∈ cs ∧ ((cst.1 = xi ∧ cst.2.1 = xj) ∨ (cst.1 = xj ∧ cst.2.1 = xi)) := by
  rw [matchingConstraints, List.mem_filter]
  simp only [Bool.or_eq_true, Bool.and_eq_true, beq_iff_eq]

theorem matchingConstraints_symm (cs : List Cstr) (xi xj : Cell) :
    matchingConstraints cs xi xj = matchingConstraints cs xj xi := by
  rw [matchingConstraints, matchingConstraints]
  apply List.filter_congr
  intro cst _
  rw [Bool.or_comm]

theorem beq_nat_comm (a b : Nat) : (a == b) = (b == a) := by
  by_cases h : a = b
  · rw [h]
  · rw [beq_eq_false_iff_ne.mpr h, beq_eq_false_iff_ne.mpr (Ne.symm h)]

theorem sameRC_symm (xi xj : Cell) : sameRC xi xj = sameRC xj xi := by
  rw [sameRC, sameRC, beq_nat_comm xi.1 xj.1, beq_nat_comm xi.2 xj.2]

theorem cstSatDir_symm (xi xj : Cell) (cst : Cstr) (x y : Nat) (hne : xi ≠ xj)
    (hm : (cst.1 = xi ∧ cst.2.1 = xj) ∨ (cst.1 = xj ∧ cst.2.1 = xi)) :
    cstSatDir xi cst x y = cstSatDir xj cst y x := by
  rcases hm with ⟨h1, _⟩ | ⟨h1, _⟩
  · rw [cstSatDir, cstSatDir, if_pos (beq_iff_eq.mpr h1),
      if_neg (by rw [beq_iff_eq, h1]; exact hne)]
  · rw [cstSatDir, cstSatDir, if_pos (beq_iff_eq.mpr h1),
      if_neg (by rw [beq_iff_eq, h1]; exact Ne.symm hne)]

theorem supportedVal_symm (cs : List Cstr) (xi xj : Cell) (x y : Nat)
    (hne : xi ≠ xj) :
    supportedVal cs xi xj x y = supportedVal cs xj xi y x := by
  rw [supportedVal, supportedVal, matchingConstraints_symm cs xj xi, sameRC_symm xj xi]
  rw [beq_nat_comm x y]
  by_cases h1 : (sameRC xi xj && (y == x)) = true
  · rw [if_pos h1, if_pos h1]
  · rw [if_neg h1, if_neg h1]
    by_cases h2 : (matchingConstraints cs xi xj).isEmpty = true
    · rw [if_pos h2, if_pos h2]
    · rw [if_neg h2, if_neg h2]
      apply any_congr_mem
      intro cst hcst
      exact cstSatDir_symm xi xj cst x y hne
        ((mem_matchingConstraints cs xi xj cst).mp hcst).2

theorem mem_reviseToRemove (b : Board) (xi xj : Cell) (x : Nat) :
    x ∈ reviseToRemove b xi xj ↔ x ∈ b.domains xi ∧
      ∀ y ∈ b.domains xj, supportedVal b.constraints xi xj x y = false :=
  Finset.mem_filter

theorem not_mem_reviseToRemove (b : Board) (xi xj : Cell) (x : Nat)
    (hx : x ∈ b.domains xi) (h : x ∉ reviseToRemove b xi xj) :
    ∃ y ∈ b.domains xj, supportedVal b.constraints xi xj x y = true := by
  rw [mem_reviseToRemove] at h
  push_neg at h
  obtain ⟨y, hy, hsy⟩ := h hx
  exact ⟨y, hy, by
    cases hb : supportedVal b.constraints xi xj x y
    · exact absurd hb hsy
    · rfl⟩

theorem reviseToRemove_empty_iff (b : Board) (xi xj : Cell) :
    reviseToRemove b xi xj = ∅ ↔ arcOK b xi xj := by
  rw [Finset.eq_empty_iff_forall_not_mem]
  constructor
  · intro h x hx
    exact not_mem_reviseToRemove b xi xj x hx (h x)
  · intro h x hx
    rw [mem_reviseToRemove] at hx
    obtain ⟨y, hy, hsy⟩ := h x hx.1
    rw [hx.2 y hy] at hsy
    cases hsy

theorem revise_domains_xi (b : Board) (xi xj : Cell) :
    (revise b xi xj).2.domains xi = b.domains xi \ reviseToRemove b xi xj := by
  by_cases h : reviseToRemove b xi xj = ∅
  · rw [revise_of_empty b xi xj h, h, Finset.sdiff_empty]
  · rw [revise_of_nonempty b xi xj h]
    show Function.update b.domains xi _ xi = _
    rw [Function.update_same]

theorem revise_domains_other (b : Board) (xi xj c : Cell) (hc : c ≠ xi) :
    (revise b xi xj).2.domains c = b.domains c := by
  by_cases h : reviseToRemove b xi xj = ∅
  · rw [revise_of_empty b xi xj h]
  · rw [revise_of_nonempty b xi xj h]
    show Function.update b.domains xi _ c = _
    rw [Function.update_noteq hc]

/-- After any revision of the arc `(xi, xj)` with `xi ≠ xj`, the arc is
consistent: the surviving values keep their supports, and the support
domain is untouched. -/
theorem revise_arcOK (b : Board) (xi xj : Cell) (hne : xi ≠ xj) :
    arcOK (revise b xi xj).2 xi xj := by
  intro x hx
  rw [revise_domains_xi] at hx
  rw [Finset.mem_sdiff] at hx
  obtain ⟨y, hy, hsy⟩ := not_mem_reviseToRemove b xi xj x hx.1 hx.2
  refine ⟨y, ?_, ?_⟩
  · rw [revise_domains_other b xi xj xj (Ne.symm hne)]
    exact hy
  · rw [(revise_frame b xi xj).2.2]
    exact hsy

theorem arcOK_transport {b b' : Board} (xa xb : Cell)
    (hcs : b'.constraints = b.constraints)
    (ha : b'.domains xa ⊆ b.domains xa) (hb : b'.domains xb = b.domains xb)
    (h : arcOK b xa xb) : arcOK b' xa xb := by
  intro x hx
  obtain ⟨y, hy, hs⟩ := h x (ha hx)
  refine ⟨y, ?_, ?_⟩
  · rw [hb]
    exact hy
  · rw [hcs]
    exact hs

/-- The symmetry argument justifying AC's exclusion of the reverse arc:
if `(xj, xi)` was consistent and the revision of `(xi, xj)` shrinks
`domains[xi]`, then `(xj, xi)` is still consistent, because a removed
value could not have supported anything in `domains[xj]`. -/
theorem arcOK_symm_revise (b : Board) (xi xj : Cell) (hne : xi ≠ xj)
    (h : arcOK b xj xi) : arcOK (revise b xi xj).2 xj xi := by
  intro x hx
  rw [revise_domains_other b xi xj xj (Ne.symm hne)] at hx
  obtain ⟨y, hy, hs⟩ := h x hx
  by_cases hyR : y ∈ reviseToRemove b xi xj
  · exfalso
    have h2 := ((mem_reviseToRemove b xi xj y).mp hyR).2 x hx
    rw [supportedVal_symm b.constraints xi xj y x hne] at h2
    rw [h2] at hs
    cases hs
  · refine ⟨y, ?_, ?_⟩
    · rw [revise_domains_xi, Finset.mem_sdiff]
      exact ⟨hy, hyR⟩
    · rw [(revise_frame b xi xj).2.2]
      exact hs

theorem get_neighbors_congr {b b' : Board} (hs : b'.size = b.size)
    (hc : b'.constraints = b.constraints) (var : Cell) :
    b'.get_neighbors var = b.get_neighbors var := by
  rw [Board.get_neighbors, Board.get_neighbors, hs, hc]

theorem constrained_mem_neighbors (b : Board) (xa xb : Cell)
    (h : constrainedPair b xa xb) : xa ∈ b.get_neighbors xb := by
  obtain ⟨hne, hina, hinb, hcst⟩ := h
  rw [Board.get_neighbors, List.mem_dedup, List.mem_append, List.mem_append]
  rcases hcst with hrc | hm
  · rw [sameRC, Bool.or_eq_true, beq_iff_eq, beq_iff_eq] at hrc
    rcases hrc with h1 | h2
    · left; left
      rw [List.mem_filterMap]
      have hne2 : xa.2 ≠ xb.2 := by
        intro hh
        exact hne (Prod.ext h1 hh)
      refine ⟨xa.2, List.mem_range.mpr hina.2, ?_⟩
      rw [if_pos hne2, ← h1]
    · left; right
      rw [List.mem_filterMap]
      have hne1 : xa.1 ≠ xb.1 := by
        intro hh
        exact hne (Prod.ext hh h2)
      refine ⟨xa.1, List.mem_range.mpr hina.1, ?_⟩
      rw [if_pos hne1, ← h2]
  · right
    obtain ⟨cst, hcm⟩ := List.exists_mem_of_ne_nil _ hm
    obtain ⟨hcs, hdir⟩ := (mem_matchingConstraints b.constraints xa xb cst).mp hcm
    rw [List.mem_filterMap]
    refine ⟨cst, hcs, ?_⟩
    rcases hdir with ⟨h1, h2⟩ | ⟨h1, h2⟩
    · have hc1 : cst.1 ≠ xb := by
        rw [h1]
        exact hne
      rw [if_neg hc1, if_pos h2, h1]
    · rw [if_pos h1, h2]

theorem mem_allCells (n : Nat) (cell : Cell) :
    cell ∈ allCells n ↔ cell.1 < n ∧ cell.2 < n := by
  obtain ⟨r, c⟩ := cell
  rw [allCells, List.mem_flatMap]
  constructor
  · rintro ⟨r', hr', hc⟩
    obtain ⟨c', hc', heq⟩ := List.mem_map.mp hc
    cases heq
    exact ⟨List.mem_range.mp hr', List.mem_range.mp hc'⟩
  · rintro ⟨hr, hc⟩
    exact ⟨r, List.mem_range.mpr hr, List.mem_map.mpr ⟨c, List.mem_range.mpr hc, rfl⟩⟩

theorem allPairs_mem : ∀ (l : List Cell) (a b : Cell), a ∈ l → b ∈ l → a ≠ b →
    (a, b) ∈ allPairs l ∨ (b, a) ∈ allPairs l := by
  intro l
  induction l with
  | nil => intro a b ha _ _; cases ha
  | cons x xs ih =>
    intro a b ha hb hne
    rcases List.mem_cons.mp ha with rfl | ha'
    · rcases List.mem_cons.mp hb with rfl | hb'
      · exact absurd rfl hne
      · left
        simp only [allPairs, List.mem_append]
        exact Or.inl (List.mem_map.mpr ⟨b, hb', rfl⟩)
    · rcases List.mem_cons.mp hb with rfl | hb'
      · right
        simp only [allPairs, List.mem_append]
        exact Or.inl (List.mem_map.mpr ⟨a, ha', rfl⟩)
      · rcases ih a b ha' hb' hne with h | h
        · left
          simp only [allPairs, List.mem_append]
          exact Or.inr h
        · right
          simp only [allPairs, List.mem_append]
          exact Or.inr h

theorem initQueue_test (b : Board) (p q : Cell) :
    (sameRC p q || b.constraints.any fun cst =>
      (cst.1 == p && cst.2.1 == q) || (cst.1 == q && cst.2.1 == p)) = true ↔
    (sameRC p q = true ∨ matchingConstraints b.constraints p q ≠ []) := by
  rw [Bool.or_eq_true, List.any_eq_true]
  constructor
  · rintro (h | ⟨cst, hcst, hsat⟩)
    · exact Or.inl h
    · refine Or.inr (List.ne_nil_of_mem (a := cst) ?_)
      rw [matchingConstraints, List.mem_filter]
      exact ⟨hcst, hsat⟩
  · rintro (h | h)
    · exact Or.inl h
    · obtain ⟨cst, hcm⟩ := List.exists_mem_of_ne_nil _ h
      rw [matchingConstraints, List.mem_filter] at hcm
      exact Or.inr ⟨cst, hcm.1, hcm.2⟩

theorem constrained_mem_initQueue (b : Board) (xi xj : Cell)
    (h : constrainedPair b xi xj) : (xi, xj) ∈ initQueue b := by
  obtain ⟨hne, hina, hinb, hcst⟩ := h
  rw [initQueue, List.mem_flatMap]
  rcases allPairs_mem (allCells b.size) xi xj ((mem_allCells _ _).mpr hina)
    ((mem_allCells _ _).mpr hinb) hne with hp | hp
  · have htest := (initQueue_test b xi xj).mpr hcst
    refine ⟨(xi, xj), hp, ?_⟩
    rw [if_pos htest]
    exact List.mem_cons_self ..
  · have htest : (sameRC xj xi || b.constraints.any fun cst =>
        (cst.1 == xj && cst.2.1 == xi) || (cst.1 == xi && cst.2.1 == xj)) = true := by
      refine (initQueue_test b xj xi).mpr ?_
      rcases hcst with h1 | h1
      · exact Or.inl (by rw [sameRC_symm xj xi]; exact h1)
      · exact Or.inr (by rw [matchingConstraints_symm b.constraints xj xi]; exact h1)
    refine ⟨(xj, xi), hp, ?_⟩
    rw [if_pos htest]
    exact List.mem_cons_of_mem _ (List.mem_cons_self ..)

/-- The queue invariant of AC-2: every constrained pair is either pending
in the queue or already arc-consistent. The loop maintains it and, on
success with an empty queue, yields full arc consistency. Constrained
pairs are phrased over the input board; sizes and constraint lists are
loop invariants, so this is equivalent to phrasing them over the result. -/
theorem ac2Loop_sound : ∀ (fuel : Nat) (q : List (Cell × Cell)) (b : Board)
    (res : Board),
    (∀ xa xb : Cell, constrainedPair b xa xb → (xa, xb) ∈ q ∨ arcOK b xa xb) →
    ac2Loop fuel q b = some (true, res) →
    ∀ xa xb : Cell, constrainedPair b xa xb → arcOK res xa xb := by
  intro fuel
  induction fuel with
  | zero => intro q b res _ h; cases h
  | succ fuel ih =>
    intro q b res hINV h
    cases q with
    | nil =>
      rw [ac2Loop] at h
      cases h
      intro xa xb hc
      rcases hINV xa xb hc with hq | hOK
      · cases hq
      · exact hOK
    | cons arc rest =>
      obtain ⟨xi0, xj0⟩ := arc
      have hrf := revise_frame b xi0 xj0
      simp only [ac2Loop] at h
      by_cases hr : (revise b xi0 xj0).1 = true
      · rw [if_pos hr] at h
        by_cases hd : (revise b xi0 xj0).2.domains xi0 = ∅
        · rw [if_pos hd] at h
          cases h
        · rw [if_neg hd] at h
          intro xa xb hc
          refine ih _ _ _ ?_ h xa xb
            ((constrainedPair_congr hrf.1 hrf.2.2 xa xb).mpr hc)
          intro xa' xb' hc'
          have hcb : constrainedPair b xa' xb' :=
            (constrainedPair_congr hrf.1 hrf.2.2 xa' xb').mp hc'
          rcases hINV xa' xb' hcb with hq | hOK
          · rcases List.mem_cons.mp hq with heq | hrest
            · right
              obtain ⟨h1, h2⟩ := Prod.mk.injEq .. ▸ heq
              subst h1
              subst h2
              exact revise_arcOK b xa' xb' hcb.1
            · exact Or.inl (List.mem_append.mpr (Or.inl hrest))
          · by_cases hbx : xb' = xi0
            · by_cases hax : xa' = xj0
              · right
                subst hbx
                subst hax
                exact arcOK_symm_revise b xb' xa' (fun he => hcb.1 he.symm) hOK
              · left
                refine List.mem_append.mpr (Or.inr ?_)
                refine List.mem_map.mpr ⟨xa', ?_, by rw [hbx]⟩
                rw [List.mem_filter]
                refine ⟨?_, by
                  rw [decide_eq_true_eq]
                  exact hax⟩
                rw [get_neighbors_congr hrf.1 hrf.2.2 xi0]
                exact constrained_mem_neighbors b xa' xi0 (hbx ▸ hcb)
            · right
              exact arcOK_transport xa' xb' hrf.2.2
                (revise_domains_subset b xi0 xj0 xa')
                (revise_domains_other b xi0 xj0 xb' hbx) hOK
      · rw [if_neg hr] at h
        refine ih _ _ _ ?_ h
        intro xa' xb' hc'
        rcases hINV xa' xb' hc' with hq | hOK
        · rcases List.mem_cons.mp hq with heq | hrest
          · right
            have hemp : reviseToRemove b xi0 xj0 = ∅ := by
              by_contra hne2
              rw [revise_of_nonempty b xi0 xj0 hne2] at hr
              exact hr rfl
            obtain ⟨h1, h2⟩ := Prod.mk.injEq .. ▸ heq
            subst h1
            subst h2
            exact (reviseToRemove_empty_iff b xa' xb').mp hemp
          · exact Or.inl hrest
        · exact Or.inr hOK

/-- C5 (confirmed). Arc-consistency soundness: whenever `ac2` reports
consistency, every value remaining in the domain of a cell `xi` has, for
every cell `xj` directly constrained with `xi` (shared row or column, or a
linking inequality constraint; both cells in range, as the Python code
would otherwise raise a KeyError), a supporting value `y` in the domain of
`xj` satisfying the binary constraint between them. -/
theorem ac2_soundness (fuel : Nat) (b : Board)
    (h : (ac2 fuel b).1 = true) :
    ∀ xi xj : Cell, constrainedPair (ac2 fuel b).2 xi xj →
      ∀ x ∈ (ac2 fuel b).2.domains xi, ∃ y ∈ (ac2 fuel b).2.domains xj,
        supportedVal (ac2 fuel b).2.constraints xi xj x y = true := by
  intro xi xj hc
  rcases hL : ac2Loop fuel (initQueue b) b with _ | res
  · rw [ac2, hL] at h
    exact Bool.noConfusion h
  · rw [ac2, hL] at h hc ⊢
    have hres : ac2Loop fuel (initQueue b) b = some (true, res.2) :=
      hL.trans (congrArg some (Prod.ext h rfl))
    have hfr := ac2Loop_frame fuel (initQueue b) b res hL
    have hcb : constrainedPair b xi xj :=
      (constrainedPair_congr hfr.1 hfr.2.2 xi xj).mp hc
    exact ac2Loop_sound fuel (initQueue b) b res.2
      (fun xa xb hcc => Or.inl (constrained_mem_initQueue b xa xb hcc)) hres xi xj hcb

def acWitnessBoard : Board := initBoard 2 none [((0, 0), (0, 1), Op.lt)]

theorem ac2_soundness_witness :
    (ac2 100 acWitnessBoard).1 = true ∧
    ∀ xi xj : Cell, constrainedPair (ac2 100 acWitnessBoard).2 xi xj →
      ∀ x ∈ (ac2 100 acWitnessBoard).2.domains xi,
        ∃ y ∈ (ac2 100 acWitnessBoard).2.domains xj,
          supportedVal (ac2 100 acWitnessBoard).2.constraints xi xj x y = true :=
  ⟨by decide, ac2_soundness 100 acWitnessBoard (by decide)⟩

/-! ### C6: arc-consistency termination -/

/-- The neighbor list of a cell has at most `size` row cells, `size`
column cells, and one cell per inequality constraint. -/
theorem get_neighbors_length_le (b : Board) (var : Cell) :
    (b.get_neighbors var).length ≤ 2 * b.size + b.constraints.length := by
  rw [Board.get_neighbors]
  refine le_trans (List.Sublist.length_le (List.dedup_sublist _)) ?_
  rw [List.length_append, List.length_append]
  have h1 := List.length_filterMap_le (fun col =>
      if col ≠ var.2 then some (var.1, col) else none) (List.range b.size)
  have h2 := List.length_filterMap_le (fun row =>
      if row ≠ var.1 then some (row, var.2) else none) (List.range b.size)
  have h3 := List.length_filterMap_le (fun cst =>
      if cst.1 = var then some cst.2.1
      else if cst.2.1 = var then some cst.1 else none) b.constraints
  rw [List.length_range] at h1 h2
  omega

/-- Total number of domain values over a tracking set of cells: the
decreasing part of the AC-2 termination measure. -/
def domSum (T : Finset Cell) (b : Board) : Nat :=
  T.sum fun c => (b.domains c).card

/-- A successful revision strictly shrinks the tracked domain total. -/
theorem domSum_revise_lt (b : Board) (xi xj : Cell) (T : Finset Cell)
    (hxi : xi ∈ T) (hch : (revise b xi xj).1 = true) :
    domSum T (revise b xi xj).2 < domSum T b := by
  refine Finset.sum_lt_sum
    (fun c _ => Finset.card_le_card (revise_domains_subset b xi xj c)) ⟨xi, hxi, ?_⟩
  refine Finset.card_lt_card ?_
  rw [revise_domains_xi]
  have hne : reviseToRemove b xi xj ≠ ∅ := by
    intro h0
    rw [revise_of_empty b xi xj h0] at hch
    cases hch
  refine Finset.sdiff_ssubset ?_ (Finset.nonempty_iff_ne_empty.mpr hne)
  intro x hx
  exact ((mem_reviseToRemove b xi xj x).mp hx).1

/-- Fuel bound for the AC-2 loop: if every pending arc starts in a set `T`
of cells that is closed under the neighbor relation, then
`|queue| + (Σ_T |domain|) * (max neighbors + 1)` steps of fuel suffice:
a fruitless revision shortens the queue, and a fruitful one pays for the
re-enqueued arcs by removing a domain value of a tracked cell. -/
theorem ac2Loop_term : ∀ (fuel : Nat) (q : List (Cell × Cell)) (b : Board)
    (T : Finset Cell),
    (∀ arc ∈ q, arc.1 ∈ T) →
    (∀ xi ∈ T, ∀ xk ∈ b.get_neighbors xi, xk ∈ T) →
    q.length + domSum T b * (2 * b.size + b.constraints.length + 1) < fuel →
    (ac2Loop fuel q b).isSome = true := by
  intro fuel
  induction fuel with
  | zero => intro q b T _ _ hf; exact absurd hf (Nat.not_lt_zero _)
  | succ fuel ih =>
    intro q b T hq hcl hf
    cases q with
    | nil => rw [ac2Loop]; rfl
    | cons arc rest =>
      obtain ⟨xi0, xj0⟩ := arc
      have hrf := revise_frame b xi0 xj0
      simp only [ac2Loop]
      by_cases hr : (revise b xi0 xj0).1 = true
      · rw [if_pos hr]
        by_cases hd : (revise b xi0 xj0).2.domains xi0 = ∅
        · rw [if_pos hd]; rfl
        · rw [if_neg hd]
          have hxi0T : xi0 ∈ T := hq (xi0, xj0) (List.mem_cons_self ..)
          refine ih _ _ T ?_ ?_ ?_
          · intro arc harc
            rcases List.mem_append.mp harc with h1 | h1
            · exact hq arc (List.mem_cons_of_mem _ h1)
            · obtain ⟨xk, hk, heq⟩ := List.mem_map.mp h1
              rw [← heq]
              have hk2 := (List.mem_filter.mp hk).1
              rw [get_neighbors_congr hrf.1 hrf.2.2 xi0] at hk2
              exact hcl xi0 hxi0T xk hk2
          · intro xi hxi xk hk
            rw [get_neighbors_congr hrf.1 hrf.2.2 xi] at hk
            exact hcl xi hxi xk hk
          · rw [hrf.1, hrf.2.2, List.length_append, List.length_map]
            have hS := domSum_revise_lt b xi0 xj0 T hxi0T hr
            have hK := le_trans
              (List.length_filter_le (fun xk => xk ≠ xj0)
                ((revise b xi0 xj0).2.get_neighbors xi0))
              (get_neighbors_length_le (revise b xi0 xj0).2 xi0)
            rw [hrf.1, hrf.2.2] at hK
            have hmul : (domSum T (revise b xi0 xj0).2 + 1) *
                (2 * b.size + b.constraints.length + 1) ≤
                domSum T b * (2 * b.size + b.constraints.length + 1) :=
              Nat.mul_le_mul_right _ hS
            rw [Nat.succ_mul] at hmul
            simp only [List.length_cons] at hf
            omega
      · rw [if_neg hr]
        refine ih _ _ T (fun arc harc => hq arc (List.mem_cons_of_mem _ harc)) hcl ?_
        simp only [List.length_cons] at hf
        omega

/-- Row indices a neighbor computation can ever produce: the board range
together with the rows of all constraint endpoints. -/
def rowsT (b : Board) : Finset Nat :=
  Finset.range b.size ∪
    b.constraints.foldr (fun cst acc => insert cst.1.1 (insert cst.2.1.1 acc)) ∅

/-- Column indices a neighbor computation can ever produce. -/
def colsT (b : Board) : Finset Nat :=
  Finset.range b.size ∪
    b.constraints.foldr (fun cst acc => insert cst.1.2 (insert cst.2.1.2 acc)) ∅

/-- The finite set of cells reachable by the AC-2 queue. -/
def cellsT (b : Board) : Finset Cell := (rowsT b) ×ˢ (colsT b)

theorem mem_foldr_insert2 {α : Type} [DecidableEq α] (f g : Cstr → α) :
    ∀ (l : List Cstr) (acc : Finset α) (cst : Cstr), cst ∈ l →
      f cst ∈ l.foldr (fun c a => insert (f c) (insert (g c) a)) acc ∧
      g cst ∈ l.foldr (fun c a => insert (f c) (insert (g c) a)) acc := by
  intro l
  induction l with
  | nil => intro acc cst h; cases h
  | cons c0 cs ih =>
    intro acc cst h
    rcases List.mem_cons.mp h with rfl | h2
    · exact ⟨Finset.mem_insert_self .., Finset.mem_insert_of_mem (Finset.mem_insert_self ..)⟩
    · have h3 := ih acc cst h2
      exact ⟨Finset.mem_insert_of_mem (Finset.mem_insert_of_mem h3.1),
             Finset.mem_insert_of_mem (Finset.mem_insert_of_mem h3.2)⟩

theorem cst_mem_cellsT (b : Board) (cst : Cstr) (h : cst ∈ b.constraints) :
    cst.1 ∈ cellsT b ∧ cst.2.1 ∈ cellsT b := by
  have hr := mem_foldr_insert2 (fun cst => cst.1.1) (fun cst => cst.2.1.1)
    b.constraints ∅ cst h
  have hc := mem_foldr_insert2 (fun cst => cst.1.2) (fun cst => cst.2.1.2)
    b.constraints ∅ cst h
  rw [cellsT, Finset.mem_product, Finset.mem_product, rowsT, colsT]
  exact ⟨⟨Finset.mem_union_right _ hr.1, Finset.mem_union_right _ hc.1⟩,
         ⟨Finset.mem_union_right _ hr.2, Finset.mem_union_right _ hc.2⟩⟩

theorem inB_mem_cellsT (b : Board) (c : Cell) (h : inB b.size c) : c ∈ cellsT b := by
  rw [cellsT, Finset.mem_product, rowsT, colsT]
  exact ⟨Finset.mem_union_left _ (Finset.mem_range.mpr h.1),
         Finset.mem_union_left _ (Finset.mem_range.mpr h.2)⟩

/-- `cellsT` is closed under the neighbor relation. -/
theorem cellsT_closed (b : Board) :
    ∀ xi ∈ cellsT b, ∀ xk ∈ b.get_neighbors xi, xk ∈ cellsT b := by
  intro xi hxi xk hk
  rw [cellsT, Finset.mem_product] at hxi
  rw [Board.get_neighbors, List.mem_dedup, List.mem_append, List.mem_append] at hk
  rcases hk with (hk | hk) | hk
  · obtain ⟨col, hcol, heq⟩ := List.mem_filterMap.mp hk
    by_cases hc : col ≠ xi.2
    · rw [if_pos hc] at heq
      cases heq
      rw [cellsT, Finset.mem_product]
      refine ⟨hxi.1, ?_⟩
      rw [colsT]
      exact Finset.mem_union_left _ (Finset.mem_range.mpr (List.mem_range.mp hcol))
    · rw [if_neg hc] at heq
      cases heq
  · obtain ⟨row, hrow, heq⟩ := List.mem_filterMap.mp hk
    by_cases hc : row ≠ xi.1
    · rw [if_pos hc] at heq
      cases heq
      rw [cellsT, Finset.mem_product]
      refine ⟨?_, hxi.2⟩
      rw [rowsT]
      exact Finset.mem_union_left _ (Finset.mem_range.mpr (List.mem_range.mp hrow))
    · rw [if_neg hc] at heq
      cases heq
  · obtain ⟨cst, hcst, heq⟩ := List.mem_filterMap.mp hk
    by_cases h1 : cst.1 = xi
    · rw [if_pos h1] at heq
      cases heq
      exact (cst_mem_cellsT b cst hcst).2
    · rw [if_neg h1] at heq
      by_cases h2 : cst.2.1 = xi
      · rw [if_pos h2] at heq
        cases heq
        exact (cst_mem_cellsT b cst hcst).1
      · rw [if_neg h2] at heq
        cases heq

theorem allPairs_mem_of : ∀ (l : List Cell) (p : Cell × Cell),
    p ∈ allPairs l → p.1 ∈ l ∧ p.2 ∈ l := by
  intro l
  induction l with
  | nil => intro p h; cases h
  | cons x xs ih =>
    intro p h
    simp only [allPairs, List.mem_append] at h
    rcases h with h | h
    · obtain ⟨y, hy, heq⟩ := List.mem_map.mp h
      rw [← heq]
      exact ⟨List.mem_cons_self .., List.mem_cons_of_mem _ hy⟩
    · have h2 := ih p h
      exact ⟨List.mem_cons_of_mem _ h2.1, List.mem_cons_of_mem _ h2.2⟩

theorem initQueue_fst_mem (b : Board) (arc : Cell × Cell)
    (h : arc ∈ initQueue b) : arc.1 ∈ cellsT b := by
  rw [initQueue, List.mem_flatMap] at h
  obtain ⟨p, hp, hm⟩ := h
  have hpa := allPairs_mem_of (allCells b.size) p hp
  have h1 := (mem_allCells b.size p.1).mp hpa.1
  have h2 := (mem_allCells b.size p.2).mp hpa.2
  split at hm
  · rcases List.mem_cons.mp hm with rfl | hm2
    · exact inB_mem_cellsT b p.1 h1
    · rcases List.mem_cons.mp hm2 with rfl | hm3
      · exact inB_mem_cellsT b p.2 h2
      · cases hm3
  · cases hm

/-- C6 (confirmed). AC-2 terminates on every board: some finite fuel
drains the work queue (arcs are re-enqueued only when a revision strictly
removed a value from a finite domain, so the measure
queue length + remaining domain values * (max neighbor count + 1)
strictly decreases at every iteration). -/
theorem ac2_terminates (b : Board) :
    ∃ fuel : Nat, (ac2Loop fuel (initQueue b) b).isSome = true := by
  refine ⟨(initQueue b).length +
    domSum (cellsT b) b * (2 * b.size + b.constraints.length + 1) + 1, ?_⟩
  refine ac2Loop_term _ (initQueue b) b (cellsT b)
    (fun arc harc => initQueue_fst_mem b arc harc) (cellsT_closed b) ?_
  omega

/-! ### C2: flag-combination agreement on uniquely solvable puzzles -/

/-- A total assignment solving a Futoshiki instance, phrased after the
specification: in-range values, all-different rows and columns, and every
inequality constraint satisfied. -/
def IsSolution (size : Nat) (cs : List Cstr) (s : Cell → Nat) : Prop :=
  (∀ r < size, ∀ c < size, s (r, c) ∈ Finset.Icc 1 size) ∧
  (∀ r < size, ∀ c1 < size, ∀ c2 < size, c1 ≠ c2 → s (r, c1) ≠ s (r, c2)) ∧
  (∀ c < size, ∀ r1 < size, ∀ r2 < size, r1 ≠ r2 → s (r1, c) ≠ s (r2, c)) ∧
  (∀ cst ∈ cs, opSat cst.2.2 (s cst.1) (s cst.2.1) = true)

/-- The solution value of every in-range cell is still in its domain. -/
def SAdm (b : Board) (s : Cell → Nat) : Prop :=
  ∀ r < b.size, ∀ c < b.size, s (r, c) ∈ b.domains (r, c)

/-- Every assigned in-range cell of the grid carries its solution value. -/
def GridSub (b : Board) (s : Cell → Nat) : Prop :=
  ∀ r < b.size, ∀ c < b.size, gridGet b.grid (r, c) ≠ 0 →
    gridGet b.grid (r, c) = s (r, c)

theorem opSat_irrefl (op : Op) (v : Nat) : opSat op v v = false := by
  cases op
  · exact decide_eq_false (lt_irrefl v)
  · exact decide_eq_false (lt_irrefl v)

theorem solution_no_self {size : Nat} {cs : List Cstr} {s : Cell → Nat}
    (hsol : IsSolution size cs s) : ∀ cst ∈ cs, cst.1 ≠ cst.2.1 := by
  intro cst hcst heq
  have h := hsol.2.2.2 cst hcst
  rw [heq, opSat_irrefl] at h
  cases h

theorem solution_ne_zero {size : Nat} {cs : List Cstr} {s : Cell → Nat}
    (hsol : IsSolution size cs s) (cell : Cell) (h : inB size cell) :
    s cell ≠ 0 := by
  obtain ⟨r, c⟩ := cell
  have h2 := hsol.1 r h.1 c h.2
  rw [Finset.mem_Icc] at h2
  omega

theorem solution_distinct {size : Nat} {cs : List Cstr} {s : Cell → Nat}
    (hsol : IsSolution size cs s) (xi xj : Cell) (hi : inB size xi)
    (hj : inB size xj) (hne : xi ≠ xj) (hrc : sameRC xi xj = true) :
    s xi ≠ s xj := by
  obtain ⟨r1, c1⟩ := xi
  obtain ⟨r2, c2⟩ := xj
  rw [sameRC, Bool.or_eq_true, beq_iff_eq, beq_iff_eq] at hrc
  rcases hrc with h | h
  · cases h
    have hcne : c1 ≠ c2 := fun he => hne (by rw [he])
    exact hsol.2.1 r1 hi.1 c1 hi.2 c2 hj.2 hcne
  · cases h
    have hrne : r1 ≠ r2 := fun he => hne (by rw [he])
    exact hsol.2.2.1 c1 hi.2 r1 hi.1 r2 hj.1 hrne

/-- The solution values of a constrained pair support one another in
`revise`'s sense. -/
theorem supportedVal_solution {size : Nat} {cs : List Cstr} {s : Cell → Nat}
    (hsol : IsSolution size cs s) (xi xj : Cell) (hi : inB size xi)
    (hj : inB size xj) (hne : xi ≠ xj) :
    supportedVal cs xi xj (s xi) (s xj) = true := by
  have hneq : (sameRC xi xj && (s xi == s xj)) = false := by
    cases hrc : sameRC xi xj
    · rw [Bool.false_and]
    · rw [Bool.true_and, beq_eq_false_iff_ne]
      exact solution_distinct hsol xi xj hi hj hne hrc
  rw [supportedVal, if_neg (by rw [hneq]; exact Bool.false_ne_true)]
  by_cases he : (matchingConstraints cs xi xj).isEmpty = true
  · rw [if_pos he]
  · rw [if_neg he]
    have hnn : matchingConstraints cs xi xj ≠ [] :=
      fun h0 => he (by rw [h0]; rfl)
    obtain ⟨cst, hm⟩ := List.exists_mem_of_ne_nil _ hnn
    refine List.any_eq_true.mpr ⟨cst, hm, ?_⟩
    obtain ⟨hcs, hdir⟩ := (mem_matchingConstraints cs xi xj cst).mp hm
    have hsat := hsol.2.2.2 cst hcs
    rw [cstSatDir]
    rcases hdir with ⟨h1, h2⟩ | ⟨h1, h2⟩
    · rw [if_pos (beq_iff_eq.mpr h1)]
      rw [h1, h2] at hsat
      exact hsat
    · have hne1 : (cst.1 == xi) = false :=
        beq_eq_false_iff_ne.mpr (by rw [h1]; exact fun he2 => hne he2.symm)
      rw [if_neg (by rw [hne1]; exact Bool.false_ne_true)]
      rw [h1, h2] at hsat
      exact hsat

theorem solution_not_removed (b : Board) (s : Cell → Nat) (xi xj : Cell)
    (hsol : IsSolution b.size b.constraints s) (hS : SAdm b s)
    (hi : inB b.size xi) (hj : inB b.size xj) (hne : xi ≠ xj) :
    s xi ∉ reviseToRemove b xi xj := by
  intro hmem
  have h2 := ((mem_reviseToRemove b xi xj (s xi)).mp hmem).2 (s xj)
    (hS xj.1 hj.1 xj.2 hj.2)
  rw [supportedVal_solution hsol xi xj hi hj hne] at h2
  cases h2

theorem revise_sadm (b : Board) (s : Cell → Nat) (xi xj : Cell)
    (hsol : IsSolution b.size b.constraints s) (hS : SAdm b s)
    (hi : inB b.size xi) (hj : inB b.size xj) (hne : xi ≠ xj) :
    SAdm (revise b xi xj).2 s := by
  intro r hr c hc
  rw [(revise_frame b xi xj).1] at hr hc
  by_cases h : ((r, c) : Cell) = xi
  · rw [h, revise_domains_xi, Finset.mem_sdiff]
    exact ⟨hS xi.1 hi.1 xi.2 hi.2,
      solution_not_removed b s xi xj hsol hS hi hj hne⟩
  · rw [revise_domains_other b xi xj (r, c) h]
    exact hS r hr c hc

theorem neighbors_inB_ne (b : Board) (xi : Cell) (hWF : WF b)
    (hnoself : ∀ cst ∈ b.constraints, cst.1 ≠ cst.2.1)
    (hi : inB b.size xi) :
    ∀ xk ∈ b.get_neighbors xi, inB b.size xk ∧ xk ≠ xi := by
  intro xk hk
  rw [Board.get_neighbors, List.mem_dedup, List.mem_append, List.mem_append] at hk
  rcases hk with (hk | hk) | hk
  · obtain ⟨col, hcol, heq⟩ := List.mem_filterMap.mp hk
    by_cases hc : col ≠ xi.2
    · rw [if_pos hc] at heq
      cases heq
      exact ⟨⟨hi.1, List.mem_range.mp hcol⟩, fun he => hc (congrArg Prod.snd he)⟩
    · rw [if_neg hc] at heq
      cases heq
  · obtain ⟨row, hrow, heq⟩ := List.mem_filterMap.mp hk
    by_cases hc : row ≠ xi.1
    · rw [if_pos hc] at heq
      cases heq
      exact ⟨⟨List.mem_range.mp hrow, hi.2⟩, fun he => hc (congrArg Prod.fst he)⟩
    · rw [if_neg hc] at heq
      cases heq
  · obtain ⟨cst, hcst, heq⟩ := List.mem_filterMap.mp hk
    by_cases h1 : cst.1 = xi
    · rw [if_pos h1] at heq
      cases heq
      exact ⟨(hWF.2.2 cst hcst).2, fun he => hnoself cst hcst (h1.trans he.symm)⟩
    · rw [if_neg h1] at heq
      by_cases h2 : cst.2.1 = xi
      · rw [if_pos h2] at heq
        cases heq
        exact ⟨(hWF.2.2 cst hcst).1, h1⟩
      · rw [if_neg h2] at heq
        cases heq

theorem allCells_nodup (n : Nat) : (allCells n).Nodup := by
  show (List.product (List.range n) (List.range n)).Nodup
  exact List.Nodup.product (List.nodup_range n) (List.nodup_range n)

theorem allPairs_ne : ∀ (l : List Cell), l.Nodup → ∀ p ∈ allPairs l, p.1 ≠ p.2 := by
  intro l
  induction l with
  | nil => intro _ p hp; cases hp
  | cons x xs ih =>
    intro hnd p hp
    simp only [allPairs, List.mem_append] at hp
    rcases hp with hp | hp
    · obtain ⟨y, hy, heq⟩ := List.mem_map.mp hp
      cases heq
      intro he
      have he2 : x = y := he
      rw [he2] at hnd
      exact (List.nodup_cons.mp hnd).1 hy
    · exact ih (List.nodup_cons.mp hnd).2 p hp

theorem initQueue_arcs (b : Board) (arc : Cell × Cell) (h : arc ∈ initQueue b) :
    inB b.size arc.1 ∧ inB b.size arc.2 ∧ arc.1 ≠ arc.2 := by
  rw [initQueue, List.mem_flatMap] at h
  obtain ⟨p, hp, hm⟩ := h
  have hpa := allPairs_mem_of (allCells b.size) p hp
  have h1 := (mem_allCells b.size p.1).mp hpa.1
  have h2 := (mem_allCells b.size p.2).mp hpa.2
  have hne := allPairs_ne (allCells b.size) (allCells_nodup b.size) p hp
  split at hm
  · rcases List.mem_cons.mp hm with rfl | hm2
    · exact ⟨h1, h2, hne⟩
    · rcases List.mem_cons.mp hm2 with rfl | hm3
      · exact ⟨h2, h1, fun he => hne he.symm⟩
      · cases hm3
  · cases hm

/-- Fuel that always suffices for a full run of `ac2` on a board whose
domains lie in `{1..size}`. -/
def acBound (b : Board) : Nat :=
  (initQueue b).length +
    b.size * b.size * b.size * (2 * b.size + b.constraints.length + 1) + 1

theorem inB_mem_rangeProd (n : Nat) (c : Cell) (h : inB n c) :
    c ∈ Finset.range n ×ˢ Finset.range n := by
  rw [Finset.mem_product, Finset.mem_range, Finset.mem_range]
  exact h

theorem domSum_range_le (b : Board) (hD : DomOK b) :
    domSum (Finset.range b.size ×ˢ Finset.range b.size) b ≤
      b.size * b.size * b.size := by
  rw [domSum]
  have h1 : ∀ c ∈ Finset.range b.size ×ˢ Finset.range b.size,
      (b.domains c).card ≤ b.size := by
    intro c hc
    obtain ⟨r, cc⟩ := c
    rw [Finset.mem_product, Finset.mem_range, Finset.mem_range] at hc
    have h2 := Finset.card_le_card (hD r hc.1 cc hc.2)
    rw [Nat.card_Icc] at h2
    omega
  refine le_trans (Finset.sum_le_card_nsmul _ _ b.size h1) ?_
  rw [smul_eq_mul, Finset.card_product, Finset.card_range]

/-- AC-2 completeness: on a well-formed board admitting a solution whose
values are still in the domains, the loop ends with consistency within
the termination bound, and the solution values survive every revision. -/
theorem ac2Loop_complete (s : Cell → Nat) : ∀ (fuel : Nat)
    (q : List (Cell × Cell)) (b : Board),
    WF b → IsSolution b.size b.constraints s → SAdm b s →
    (∀ arc ∈ q, inB b.size arc.1 ∧ inB b.size arc.2 ∧ arc.1 ≠ arc.2) →
    q.length + domSum (Finset.range b.size ×ˢ Finset.range b.size) b *
      (2 * b.size + b.constraints.length + 1) < fuel →
    ∃ res : Board, ac2Loop fuel q b = some (true, res) ∧ SAdm res s := by
  intro fuel
  induction fuel with
  | zero => intro q b _ _ _ _ hf; exact absurd hf (Nat.not_lt_zero _)
  | succ fuel ih =>
    intro q b hWF hsol hS hq hf
    cases q with
    | nil =>
      refine ⟨b, ?_, hS⟩
      rw [ac2Loop]
    | cons arc rest =>
      obtain ⟨xi0, xj0⟩ := arc
      obtain ⟨hi0, hj0, hne0⟩ := hq (xi0, xj0) (List.mem_cons_self ..)
      have hrf := revise_frame b xi0 xj0
      have hSA2 : SAdm (revise b xi0 xj0).2 s :=
        revise_sadm b s xi0 xj0 hsol hS hi0 hj0 hne0
      simp only [ac2Loop]
      by_cases hr : (revise b xi0 xj0).1 = true
      · rw [if_pos hr]
        have hdne : ¬ (revise b xi0 xj0).2.domains xi0 = ∅ := by
          intro h0
          have hmem : s xi0 ∈ (revise b xi0 xj0).2.domains xi0 :=
            hSA2 xi0.1 (by rw [hrf.1]; exact hi0.1) xi0.2 (by rw [hrf.1]; exact hi0.2)
          rw [h0] at hmem
          exact Finset.not_mem_empty _ hmem
        rw [if_neg hdne]
        refine ih _ _ (WF_congr hrf.1 hrf.2.1 hrf.2.2 hWF) ?_ hSA2 ?_ ?_
        · rw [hrf.1, hrf.2.2]
          exact hsol
        · intro arc harc
          rw [hrf.1]
          rcases List.mem_append.mp harc with h1 | h1
          · exact hq arc (List.mem_cons_of_mem _ h1)
          · obtain ⟨xk, hk, heq⟩ := List.mem_map.mp h1
            rw [← heq]
            have hk2 := (List.mem_filter.mp hk).1
            rw [get_neighbors_congr hrf.1 hrf.2.2 xi0] at hk2
            have hprop := neighbors_inB_ne b xi0 hWF (solution_no_self hsol) hi0 xk hk2
            exact ⟨hprop.1, hi0, hprop.2⟩
        · rw [hrf.1, hrf.2.2, List.length_append, List.length_map]
          have hS2 := domSum_revise_lt b xi0 xj0
            (Finset.range b.size ×ˢ Finset.range b.size)
            (inB_mem_rangeProd b.size xi0 hi0) hr
          have hK := le_trans
            (List.length_filter_le (fun xk => xk ≠ xj0)
              ((revise b xi0 xj0).2.get_neighbors xi0))
            (get_neighbors_length_le (revise b xi0 xj0).2 xi0)
          rw [hrf.1, hrf.2.2] at hK
          have hmul : (domSum (Finset.range b.size ×ˢ Finset.range b.size)
                (revise b xi0 xj0).2 + 1) *
              (2 * b.size + b.constraints.length + 1) ≤
              domSum (Finset.range b.size ×ˢ Finset.range b.size) b *
                (2 * b.size + b.constraints.length + 1) :=
            Nat.mul_le_mul_right _ hS2
          rw [Nat.succ_mul] at hmul
          simp only [List.length_cons] at hf
          omega
      · rw [if_neg hr]
        refine ih _ _ hWF hsol hS
          (fun arc harc => hq arc (List.mem_cons_of_mem _ harc)) ?_
        simp only [List.length_cons] at hf
        omega

theorem ac2_complete (s : Cell → Nat) (fuel : Nat) (b : Board)
    (hWF : WF b) (hsol : IsSolution b.size b.constraints s) (hS : SAdm b s)
    (hD : DomOK b) (hf : acBound b ≤ fuel) :
    (ac2 fuel b).1 = true ∧ SAdm (ac2 fuel b).2 s := by
  have hmeas : (initQueue b).length +
      domSum (Finset.range b.size ×ˢ Finset.range b.size) b *
        (2 * b.size + b.constraints.length + 1) < fuel := by
    have h1 := domSum_range_le b hD
    have h2 : domSum (Finset.range b.size ×ˢ Finset.range b.size) b *
        (2 * b.size + b.constraints.length + 1) ≤
        b.size * b.size * b.size * (2 * b.size + b.constraints.length + 1) :=
      Nat.mul_le_mul_right _ h1
    rw [acBound] at hf
    omega
  obtain ⟨res, hres, hSr⟩ := ac2Loop_complete s fuel (initQueue b) b hWF hsol hS
    (fun arc harc => initQueue_arcs b arc harc) hmeas
  rw [ac2, hres]
  exact ⟨rfl, hSr⟩

/-- The forward-checking filter keeps the solution value of an unassigned
neighbor when the assigned value is the variable's solution value. -/
theorem fcKeep_solution {size : Nat} {cs : List Cstr} {s : Cell → Nat}
    (hsol : IsSolution size cs s) (var n : Cell)
    (hvar : inB size var) (hn : inB size n) (hne : n ≠ var) :
    fcKeep cs var n (s var) (s n) = true := by
  have hA : (s n == s var && sameRC var n) = false := by
    cases hrc : sameRC var n
    · rw [Bool.and_false]
    · rw [Bool.and_true, beq_eq_false_iff_ne]
      intro he
      exact solution_distinct hsol var n hvar hn (fun h2 => hne h2.symm) hrc he.symm
  simp only [fcKeep]
  rw [hA, Bool.not_false, Bool.true_and, Bool.not_eq_true']
  cases hfind : cs.find? (fun cst =>
      (cst.1 == var && cst.2.1 == n) || (cst.1 == n && cst.2.1 == var)) with
  | none => rfl
  | some cst =>
    have hp := List.find?_some hfind
    have hmem := List.mem_of_find?_eq_some hfind
    have hsat := hsol.2.2.2 cst hmem
    rw [Bool.or_eq_true, Bool.and_eq_true, Bool.and_eq_true,
      beq_iff_eq, beq_iff_eq, beq_iff_eq, beq_iff_eq] at hp
    show (if cst.1 == var && cst.2.1 == n then !(opSat cst.2.2 (s var) (s n))
        else !(opSat cst.2.2 (s n) (s var))) = false
    by_cases hd : (cst.1 == var && cst.2.1 == n) = true
    · rw [if_pos hd, Bool.not_eq_false']
      rw [Bool.and_eq_true, beq_iff_eq, beq_iff_eq] at hd
      rw [← hd.1, ← hd.2]
      exact hsat
    · rw [if_neg hd, Bool.not_eq_false']
      rcases hp with ⟨ha, hb⟩ | ⟨ha, hb⟩
      · refine absurd ?_ hd
        rw [Bool.and_eq_true, beq_iff_eq, beq_iff_eq]
        exact ⟨ha, hb⟩
      · rw [← ha, ← hb]
        exact hsat

/-- The neighbor loop of forward checking never empties a domain when the
assigned value comes from an admissible solution, and the solution stays
admissible. -/
theorem fcLoop_complete (s : Cell → Nat) (var : Cell) (orig : Finset Nat)
    (horig : s var ∈ orig) :
    ∀ (ns : List Cell) (b : Board) (pruned : List (Cell × Finset Nat)),
      IsSolution b.size b.constraints s →
      inB b.size var →
      (∀ n ∈ ns, inB b.size n ∧ n ≠ var) →
      SAdm b s →
      (fcLoop var (s var) orig b pruned ns).2.isSome = true ∧
        SAdm (fcLoop var (s var) orig b pruned ns).1 s := by
  intro ns
  induction ns with
  | nil =>
    intro b pruned _ _ _ hS
    simp only [fcLoop]
    refine ⟨rfl, ?_⟩
    intro r hr c hc
    show s (r, c) ∈ Function.update b.domains var orig (r, c)
    by_cases h : ((r, c) : Cell) = var
    · rw [h, Function.update_same]
      exact horig
    · rw [Function.update_noteq h]
      exact hS r hr c hc
  | cons n ns ih =>
    intro b pruned hsol hvar hns hS
    obtain ⟨hnin, hnne⟩ := hns n (List.mem_cons_self ..)
    simp only [fcLoop]
    by_cases hg : gridGet b.grid n = 0
    · rw [if_pos hg]
      have hsn : s n ∈ (b.domains n).filter
          (fun v => fcKeep b.constraints var n (s var) v = true) := by
        rw [Finset.mem_filter]
        exact ⟨hS n.1 hnin.1 n.2 hnin.2, fcKeep_solution hsol var n hvar hnin hnne⟩
      have hne2 : ((b.domains n).filter
          (fun v => fcKeep b.constraints var n (s var) v = true)) ≠ ∅ :=
        fun h0 => Finset.not_mem_empty _ (h0 ▸ hsn)
      rw [if_neg hne2]
      refine ih _ _ hsol hvar (fun m hm => hns m (List.mem_cons_of_mem _ hm)) ?_
      intro r hr c hc
      show s (r, c) ∈ Function.update b.domains n _ (r, c)
      by_cases h : ((r, c) : Cell) = n
      · rw [h, Function.update_same]
        exact hsn
      · rw [Function.update_noteq h]
        exact hS r hr c hc
    · rw [if_neg hg]
      exact ih _ _ hsol hvar (fun m hm => hns m (List.mem_cons_of_mem _ hm)) hS

theorem forward_check_complete (s : Cell → Nat) (b : Board) (var : Cell)
    (hWF : WF b) (hsol : IsSolution b.size b.constraints s)
    (hS : SAdm b s) (hvar : inB b.size var) :
    (forward_check b var (s var)).2.isSome = true ∧
      SAdm (forward_check b var (s var)).1 s := by
  rw [forward_check]
  refine fcLoop_complete s var (b.domains var) (hS var.1 hvar.1 var.2 hvar.2)
    (b.get_neighbors var) _ [] hsol hvar ?_ ?_
  · intro n hn
    exact neighbors_inB_ne b var hWF (solution_no_self hsol) hvar n hn
  · intro r hr c hc
    show s (r, c) ∈ Function.update b.domains var {s var} (r, c)
    by_cases h : ((r, c) : Cell) = var
    · rw [h, Function.update_same]
      exact Finset.mem_singleton_self _
    · rw [Function.update_noteq h]
      exact hS r hr c hc

theorem fcOutcome_complete (s : Cell → Nat) (b : Board) (var : Cell)
    (hWF : WF b) (hsol : IsSolution b.size b.constraints s)
    (hS : SAdm b s) (hvar : inB b.size var) :
    (fcOutcome b var (s var)).1 = true ∧ SAdm (fcOutcome b var (s var)).2 s := by
  have h := forward_check_complete s b var hWF hsol hS hvar
  rcases hfc : forward_check b var (s var) with ⟨b2, opt⟩
  rw [hfc] at h
  rw [fcOutcome, hfc]
  cases opt with
  | none => exact Bool.noConfusion h.1
  | some pr => exact ⟨rfl, h.2⟩

theorem acBound_congr {b b' : Board} (hs : b'.size = b.size)
    (hc : b'.constraints = b.constraints) : acBound b' = acBound b := by
  rw [acBound, acBound, initQueue, initQueue, hs, hc]

theorem acBound_assign (b : Board) (var : Cell) (v : Nat) :
    acBound (b.assign var v) = acBound b := rfl

/-- The inference step (any flag combination) succeeds on a solution
value and keeps the solution admissible, given enough AC-2 fuel. -/
theorem inferStep_complete (s : Cell → Nat) (flags : Flags) (acFuel : Nat)
    (var : Cell) (b1 : Board)
    (hWF : WF b1) (hsol : IsSolution b1.size b1.constraints s)
    (hS : SAdm b1 s) (hD : DomOK b1) (hvar : inB b1.size var)
    (hfuel : acBound b1 ≤ acFuel) :
    (inferStep flags acFuel var (s var) b1).1 = true ∧
      SAdm (inferStep flags acFuel var (s var) b1).2 s := by
  simp only [inferStep]
  by_cases hf : flags.use_forward_checking = true
  · rw [if_pos hf]
    have hfcc := fcOutcome_complete s b1 var hWF hsol hS hvar
    have hfcp := fcOutcome_pres b1 var (s var)
    rw [hfcc.1, Bool.true_and]
    by_cases ha : flags.use_ac2 = true
    · rw [if_pos ha]
      have hWF2 : WF (fcOutcome b1 var (s var)).2 :=
        WF_congr hfcp.1 hfcp.2.1 hfcp.2.2 hWF
      have hsol2 : IsSolution (fcOutcome b1 var (s var)).2.size
          (fcOutcome b1 var (s var)).2.constraints s := by
        rw [hfcp.1, hfcp.2.2]
        exact hsol
      have hsv : s var ∈ Finset.Icc 1 b1.size := by
        obtain ⟨rv, cv⟩ := var
        exact hsol.1 rv hvar.1 cv hvar.2
      have hD2 : DomOK (fcOutcome b1 var (s var)).2 := by
        intro r hr c hc
        rw [hfcp.1] at hr hc ⊢
        refine (fcOutcome_domains_subset b1 var (s var) (r, c)).trans
          (Finset.union_subset (hD r hr c hc) (Finset.singleton_subset_iff.mpr hsv))
      have hfuel2 : acBound (fcOutcome b1 var (s var)).2 ≤ acFuel := by
        rw [acBound_congr hfcp.1 hfcp.2.2]
        exact hfuel
      exact ac2_complete s acFuel _ hWF2 hsol2 hfcc.2 hD2 hfuel2
    · rw [if_neg ha]
      exact ⟨hfcc.1, hfcc.2⟩
  · rw [if_neg hf]
    show (if flags.use_ac2 = true then ac2 acFuel b1
        else ((true, b1) : Bool × Board)).1 = true ∧
      SAdm (if flags.use_ac2 = true then ac2 acFuel b1
        else ((true, b1) : Bool × Board)).2 s
    by_cases ha : flags.use_ac2 = true
    · rw [if_pos ha]
      exact ac2_complete s acFuel b1 hWF hsol hS hD hfuel
    · rw [if_neg ha]
      exact ⟨rfl, hS⟩

/-- Assigning a cell its solution value passes the consistency check when
every already-assigned cell also carries its solution value. -/
theorem is_consistent_solution (b : Board) (s : Cell → Nat) (var : Cell)
    (hsol : IsSolution b.size b.constraints s) (hWF : WF b)
    (hGS : GridSub b s) (hvar : inB b.size var) :
    (b.assign var (s var)).is_consistent var (s var) = true := by
  have hgself := gridGet_assign_self b var (s var) hWF hvar
  rw [Board.is_consistent, Bool.and_eq_true, Bool.and_eq_true]
  refine ⟨⟨?_, ?_⟩, ?_⟩
  · refine List.all_eq_true.mpr ?_
    intro col hcol
    rw [List.mem_range] at hcol
    have hcl : col < b.size := hcol
    rw [Bool.not_eq_true']
    by_cases hc : col = var.2
    · have hb : (col != var.2) = false := by
        rw [bne_eq_false_iff_eq]
        exact hc
      rw [hb, Bool.false_and]
    · have hcell : ((var.1, col) : Cell) ≠ var := fun he => hc (congrArg Prod.snd he)
      have hval : (gridGet (b.assign var (s var)).grid (var.1, col) == s var) = false := by
        rw [gridGet_assign_ne b var (var.1, col) (s var) hcell, beq_eq_false_iff_ne]
        by_cases h0 : gridGet b.grid (var.1, col) = 0
        · rw [h0]
          exact fun he => solution_ne_zero hsol var hvar he.symm
        · rw [hGS var.1 hvar.1 col hcl h0]
          exact hsol.2.1 var.1 hvar.1 col hcl var.2 hvar.2 hc
      rw [hval, Bool.and_false]
  · refine List.all_eq_true.mpr ?_
    intro row hrow
    rw [List.mem_range] at hrow
    have hrl : row < b.size := hrow
    rw [Bool.not_eq_true']
    by_cases hr : row = var.1
    · have hb : (row != var.1) = false := by
        rw [bne_eq_false_iff_eq]
        exact hr
      rw [hb, Bool.false_and]
    · have hcell : ((row, var.2) : Cell) ≠ var := fun he => hr (congrArg Prod.fst he)
      have hval : (gridGet (b.assign var (s var)).grid (row, var.2) == s var) = false := by
        rw [gridGet_assign_ne b var (row, var.2) (s var) hcell, beq_eq_false_iff_ne]
        by_cases h0 : gridGet b.grid (row, var.2) = 0
        · rw [h0]
          exact fun he => solution_ne_zero hsol var hvar he.symm
        · rw [hGS row hrl var.2 hvar.2 h0]
          exact hsol.2.2.1 var.2 hvar.2 row hrl var.1 hvar.1 hr
      rw [hval, Bool.and_false]
  · refine List.all_eq_true.mpr ?_
    intro cst hcst
    have hcstb : cst ∈ b.constraints := hcst
    have hend := hWF.2.2 cst hcstb
    have hsat := hsol.2.2.2 cst hcstb
    have hval : ∀ e : Cell, inB b.size e →
        gridGet (b.assign var (s var)).grid e ≠ 0 →
        gridGet (b.assign var (s var)).grid e = s e := by
      intro e hin hne
      by_cases he : e = var
      · rw [he, hgself]
      · rw [gridGet_assign_ne b var e (s var) he] at hne ⊢
        obtain ⟨er, ec⟩ := e
        exact hGS er hin.1 ec hin.2 hne
    show (if cst.1 = var ∧ gridGet (b.assign var (s var)).grid cst.2.1 ≠ 0 then
            opSat cst.2.2 (s var) (gridGet (b.assign var (s var)).grid cst.2.1)
          else if cst.2.1 = var ∧ gridGet (b.assign var (s var)).grid cst.1 ≠ 0 then
            opSat cst.2.2 (gridGet (b.assign var (s var)).grid cst.1) (s var)
          else if gridGet (b.assign var (s var)).grid cst.1 ≠ 0 ∧
              gridGet (b.assign var (s var)).grid cst.2.1 ≠ 0 ∧
              cst.1 ≠ var ∧ cst.2.1 ≠ var then
            opSat cst.2.2 (gridGet (b.assign var (s var)).grid cst.1)
              (gridGet (b.assign var (s var)).grid cst.2.1)
          else true) = true
    by_cases h1 : cst.1 = var ∧ gridGet (b.assign var (s var)).grid cst.2.1 ≠ 0
    · rw [if_pos h1, hval cst.2.1 hend.2 h1.2, ← h1.1]
      exact hsat
    · rw [if_neg h1]
      by_cases h2 : cst.2.1 = var ∧ gridGet (b.assign var (s var)).grid cst.1 ≠ 0
      · rw [if_pos h2, hval cst.1 hend.1 h2.2, ← h2.1]
        exact hsat
      · rw [if_neg h2]
        by_cases h3 : gridGet (b.assign var (s var)).grid cst.1 ≠ 0 ∧
            gridGet (b.assign var (s var)).grid cst.2.1 ≠ 0 ∧
            cst.1 ≠ var ∧ cst.2.1 ≠ var
        · rw [if_pos h3, hval cst.1 hend.1 h3.1, hval cst.2.1 hend.2 h3.2.1]
          exact hsat
        · rw [if_neg h3]

theorem length_filterMap_if {α β : Type} (p : α → Prop) [DecidablePred p]
    (f : α → β) : ∀ l : List α,
    (l.filterMap fun a => if p a then some (f a) else none).length =
      l.countP fun a => decide (p a) := by
  intro l
  induction l with
  | nil => rfl
  | cons x xs ih =>
    rw [List.filterMap_cons, List.countP_cons]
    by_cases hx : p x
    · rw [if_pos hx, List.length_cons, ih, decide_eq_true hx, if_pos rfl]
    · rw [if_neg hx, ih, decide_eq_false hx, if_neg Bool.false_ne_true]
      rfl

theorem unassigned_length (b : Board) :
    b.get_unassigned_variables.length =
      ((List.range b.size).map fun r =>
        (List.range b.size).countP fun c => decide (gridGet b.grid (r, c) = 0)).sum := by
  rw [Board.get_unassigned_variables, List.length_flatMap]
  congr 1
  refine List.map_congr_left ?_
  intro r _
  exact length_filterMap_if _ _ (List.range b.size)

theorem countP_sub_at {α : Type} : ∀ (l : List α) (p q : α → Bool) (a : α),
    l.Nodup → a ∈ l → p a = true → q a = false →
    (∀ x ∈ l, x ≠ a → q x = p x) →
    l.countP q + 1 = l.countP p := by
  intro l
  induction l with
  | nil => intro p q a _ ha _ _ _; cases ha
  | cons x xs ih =>
    intro p q a hnd ha hpa hqa hother
    rw [List.countP_cons, List.countP_cons]
    rcases List.mem_cons.mp ha with rfl | ha2
    · rw [hpa, hqa, if_pos rfl, if_neg Bool.false_ne_true]
      have hcong : xs.countP q = xs.countP p := by
        refine List.countP_congr ?_
        intro y hy
        have hyne : y ≠ a := fun he => (List.nodup_cons.mp hnd).1 (he ▸ hy)
        rw [hother y (List.mem_cons_of_mem _ hy) hyne]
      omega
    · have hxa : x ≠ a := fun he => (List.nodup_cons.mp hnd).1 (he ▸ ha2)
      rw [hother x (List.mem_cons_self ..) hxa]
      have hih := ih p q a (List.nodup_cons.mp hnd).2 ha2 hpa hqa
        (fun y hy hne => hother y (List.mem_cons_of_mem _ hy) hne)
      cases hpx : p x
      · rw [if_neg Bool.false_ne_true]
        omega
      · rw [if_pos rfl]
        omega

theorem sum_map_sub_at {α : Type} : ∀ (l : List α) (f g : α → Nat) (a : α),
    l.Nodup → a ∈ l → g a + 1 = f a → (∀ x ∈ l, x ≠ a → g x = f x) →
    (l.map g).sum + 1 = (l.map f).sum := by
  intro l
  induction l with
  | nil => intro f g a _ ha _ _; cases ha
  | cons x xs ih =>
    intro f g a hnd ha hga hother
    rw [List.map_cons, List.map_cons, List.sum_cons, List.sum_cons]
    rcases List.mem_cons.mp ha with rfl | ha2
    · have hcong : xs.map g = xs.map f := by
        refine List.map_congr_left ?_
        intro y hy
        refine hother y (List.mem_cons_of_mem _ hy) ?_
        intro he
        exact (List.nodup_cons.mp hnd).1 (he ▸ hy)
      rw [hcong]
      omega
    · have hxa : x ≠ a := fun he => (List.nodup_cons.mp hnd).1 (he ▸ ha2)
      rw [hother x (List.mem_cons_self ..) hxa]
      have hih := ih f g a (List.nodup_cons.mp hnd).2 ha2 hga
        (fun y hy hne => hother y (List.mem_cons_of_mem _ hy) hne)
      omega

/-- Assigning a nonzero value to an unassigned in-range cell removes
exactly one entry from the unassigned list. -/
theorem unassigned_assign_length (b : Board) (var : Cell) (v : Nat)
    (hWF : WF b) (hvar : inB b.size var) (h0 : gridGet b.grid var = 0)
    (hv : v ≠ 0) :
    (b.assign var v).get_unassigned_variables.length + 1 =
      b.get_unassigned_variables.length := by
  have hgself := gridGet_assign_self b var v hWF hvar
  rw [unassigned_length, unassigned_length]
  have hsz : (b.assign var v).size = b.size := rfl
  rw [hsz]
  refine sum_map_sub_at (List.range b.size) _ _ var.1 (List.nodup_range b.size)
    (List.mem_range.mpr hvar.1) ?_ ?_
  · refine countP_sub_at (List.range b.size) _ _ var.2 (List.nodup_range b.size)
      (List.mem_range.mpr hvar.2) ?_ ?_ ?_
    · exact decide_eq_true h0
    · refine decide_eq_false ?_
      intro he
      exact hv ((congrArg (fun z => z) hgself).symm.trans he)
    · intro c _ hc
      have hcell : ((var.1, c) : Cell) ≠ var := fun he => hc (congrArg Prod.snd he)
      rw [gridGet_assign_ne b var (var.1, c) v hcell]
  · intro r _ hr
    refine List.countP_congr ?_
    intro c _
    have hcell : ((r, c) : Cell) ≠ var := fun he => hr (congrArg Prod.fst he)
    rw [gridGet_assign_ne b var (r, c) v hcell]

theorem GridSub_congr {b b' : Board} (hs : b'.size = b.size)
    (hg : b'.grid = b.grid) (s : Cell → Nat) (h : GridSub b s) : GridSub b' s := by
  intro r hr c hc
  rw [hs] at hr hc
  rw [hg]
  exact h r hr c hc

theorem get_unassigned_congr {b b' : Board} (hs : b'.size = b.size)
    (hg : b'.grid = b.grid) :
    b'.get_unassigned_variables = b.get_unassigned_variables := by
  rw [Board.get_unassigned_variables, Board.get_unassigned_variables, hs, hg]

theorem gridSub_assign (b : Board) (s : Cell → Nat) (var : Cell)
    (hGS : GridSub b s) (hWF : WF b) (hvar : inB b.size var) :
    GridSub (b.assign var (s var)) s := by
  have hgself := gridGet_assign_self b var (s var) hWF hvar
  intro r hr c hc hne
  have hr2 : r < b.size := hr
  have hc2 : c < b.size := hc
  by_cases h : ((r, c) : Cell) = var
  · rw [h, hgself]
  · rw [gridGet_assign_ne b var (r, c) (s var) h] at hne ⊢
    exact hGS r hr2 c hc2 hne

theorem searchValues_sadm (flags : Flags) (var : Cell) (b : Board)
    (s : Cell → Nat) (hS : SAdm b s) (hsIcc : s var ∈ Finset.Icc 1 b.size) :
    SAdm (searchValues flags var b).2 s := by
  rw [searchValues]
  split
  · rw [lcv_board_eq]
    split
    · exact hS
    · intro r hr c hc
      show s (r, c) ∈ Function.update b.domains var (Finset.Icc 1 b.size) (r, c)
      by_cases h : ((r, c) : Cell) = var
      · rw [h, Function.update_same]
        exact hsIcc
      · rw [Function.update_noteq h]
        exact hS r hr c hc
  · exact hS

/-- If some listed value's step succeeds from `b`, the value loop
succeeds: failed attempts before it restore `b` exactly. -/
theorem tryValues_complete (recur : Board → Bool × Board) (flags : Flags)
    (acFuel : Nat) (var : Cell) (b : Board)
    (hrecp : ∀ b', (recur b').2.size = b'.size ∧
      (recur b').2.constraints = b'.constraints)
    (hrecg : ∀ b', (recur b').1 = false → (recur b').2.grid = b'.grid)
    (h0 : gridGet b.grid var = 0) (v : Nat) :
    ∀ values : List Nat, v ∈ values →
      (tryStep recur flags acFuel var b v).1 = true →
      (tryValues recur flags acFuel var b values).1 = true := by
  intro values
  induction values with
  | nil => intro hv _; cases hv
  | cons w rest ih =>
    intro hv hstep
    rw [tryValues_cons]
    by_cases hw : (tryStep recur flags acFuel var b w).1 = true
    · rw [if_pos hw]
      exact hw
    · rw [if_neg hw]
      have hvr : v ∈ rest := by
        rcases List.mem_cons.mp hv with rfl | h2
        · exact absurd hstep hw
        · exact h2
      have hpres := tryStep_pres recur flags acFuel var b w hrecp
      have hgfail := tryStep_fail_grid recur flags acFuel var b w hrecg
        (Bool.not_eq_true _ ▸ hw)
      have hbR : ({ (tryStep recur flags acFuel var b w).2.unassign var with
          domains := b.domains } : Board) = b := by
        apply Board.eq_of_parts
        · exact hpres.1
        · show gridSet (tryStep recur flags acFuel var b w).2.grid var 0 = b.grid
          rw [hgfail, gridSet_gridSet]
          exact gridSet_eq_self b.grid var h0
        · rfl
        · exact hpres.2
      rw [hbR]
      exact ih hvr hstep

/-- Completeness of the backtracking search: with any flag combination,
from a board whose grid agrees with an admissible solution, the search
succeeds once the fuel covers the number of unassigned cells plus the
AC-2 bound. -/
theorem search_complete (flags : Flags) (s : Cell → Nat) :
    ∀ (n fuel : Nat) (b : Board),
      b.get_unassigned_variables.length = n →
      WF b → DomOK b → SAdm b s → GridSub b s →
      IsSolution b.size b.constraints s →
      n + acBound b ≤ fuel →
      (backtracking_search flags fuel b).1 = true := by
  intro n
  induction n with
  | zero =>
    intro fuel b hlen _ _ _ _ _ hfuel
    have hnil : b.get_unassigned_variables = [] := List.length_eq_zero.mp hlen
    cases fuel with
    | zero =>
      exact absurd hfuel (by rw [acBound]; omega)
    | succ f =>
      rw [backtracking_search_done flags f b hnil]
  | succ n ih =>
    intro fuel b hlen hWF hD hS hGS hsol hfuel
    cases fuel with
    | zero =>
      exact absurd hfuel (by rw [acBound]; omega)
    | succ f =>
      cases hu : b.get_unassigned_variables with
      | nil => rw [backtracking_search_done flags f b hu]
      | cons u rest =>
        rw [backtracking_search_step flags f b u rest hu]
        have hmem := searchVar_mem flags b u rest hu
        rw [mem_get_unassigned] at hmem
        have hvin : inB b.size (searchVar flags b u) := ⟨hmem.1, hmem.2.1⟩
        have h0 : gridGet b.grid (searchVar flags b u) = 0 := hmem.2.2
        have hQpres := searchValues_pres flags (searchVar flags b u) b
        have hQgrid := searchValues_grid flags (searchVar flags b u) b h0
        have hsvIcc : s (searchVar flags b u) ∈ Finset.Icc 1 b.size :=
          hsol.1 (searchVar flags b u).1 hvin.1 (searchVar flags b u).2 hvin.2
        have hQS : SAdm (searchValues flags (searchVar flags b u) b).2 s :=
          searchValues_sadm flags (searchVar flags b u) b s hS hsvIcc
        have hWF2 : WF (searchValues flags (searchVar flags b u) b).2 :=
          WF_congr hQpres.1 hQgrid hQpres.2 hWF
        have hD2 : DomOK (searchValues flags (searchVar flags b u) b).2 :=
          searchValues_domok flags (searchVar flags b u) b hD
        have hGS2 : GridSub (searchValues flags (searchVar flags b u) b).2 s :=
          GridSub_congr hQpres.1 hQgrid s hGS
        have hsol2 : IsSolution (searchValues flags (searchVar flags b u) b).2.size
            (searchValues flags (searchVar flags b u) b).2.constraints s := by
          rw [hQpres.1, hQpres.2]
          exact hsol
        have hvin2 : inB (searchValues flags (searchVar flags b u) b).2.size
            (searchVar flags b u) := by
          rw [hQpres.1]
          exact hvin
        have h02 : gridGet (searchValues flags (searchVar flags b u) b).2.grid
            (searchVar flags b u) = 0 := by
          rw [hQgrid]
          exact h0
        have hsvIcc2 : s (searchVar flags b u) ∈
            Finset.Icc 1 (searchValues flags (searchVar flags b u) b).2.size := by
          rw [hQpres.1]
          exact hsvIcc
        have hsv_mem : s (searchVar flags b u) ∈
            (searchValues flags (searchVar flags b u) b).1 := by
          rw [searchValues_values_iff]
          exact hS (searchVar flags b u).1 hvin.1 (searchVar flags b u).2 hvin.2
        have hS1 : SAdm ((searchValues flags (searchVar flags b u) b).2.assign
            (searchVar flags b u) (s (searchVar flags b u))) s := by
          intro r hr c hc
          show s (r, c) ∈ Function.update
            (searchValues flags (searchVar flags b u) b).2.domains
            (searchVar flags b u) {s (searchVar flags b u)} (r, c)
          by_cases h : ((r, c) : Cell) = searchVar flags b u
          · rw [h, Function.update_same]
            exact Finset.mem_singleton_self _
          · rw [Function.update_noteq h]
            exact hQS r hr c hc
        have hstep : (tryStep (backtracking_search flags f) flags (f + 1)
            (searchVar flags b u) (searchValues flags (searchVar flags b u) b).2
            (s (searchVar flags b u))).1 = true := by
          have hcons := is_consistent_solution
            (searchValues flags (searchVar flags b u) b).2 s (searchVar flags b u)
            hsol2 hWF2 hGS2 hvin2
          have hinf := inferStep_complete s flags (f + 1) (searchVar flags b u)
            ((searchValues flags (searchVar flags b u) b).2.assign
              (searchVar flags b u) (s (searchVar flags b u)))
            (WF_assign _ _ _ hWF2 hvin2) hsol2 hS1
            (DomOK_assign _ _ _ hD2 hsvIcc2) hvin2
            (by
              rw [acBound_assign, acBound_congr hQpres.1 hQpres.2]
              omega)
          rw [tryStep_infer_ok (backtracking_search flags f) flags (f + 1)
            (searchVar flags b u) (searchValues flags (searchVar flags b u) b).2
            (s (searchVar flags b u)) hcons hinf.1]
          have hIpres := inferStep_pres flags (f + 1) (searchVar flags b u)
            (s (searchVar flags b u))
            ((searchValues flags (searchVar flags b u) b).2.assign
              (searchVar flags b u) (s (searchVar flags b u)))
          have hWF1 : WF ((searchValues flags (searchVar flags b u) b).2.assign
              (searchVar flags b u) (s (searchVar flags b u))) :=
            WF_assign _ _ _ hWF2 hvin2
          have hGS1 : GridSub ((searchValues flags (searchVar flags b u) b).2.assign
              (searchVar flags b u) (s (searchVar flags b u))) s :=
            gridSub_assign _ s _ hGS2 hWF2 hvin2
          refine ih f _ ?_ (WF_congr hIpres.1 hIpres.2.1 hIpres.2.2 hWF1) ?_
            hinf.2 (GridSub_congr hIpres.1 hIpres.2.1 s hGS1) ?_ ?_
          · rw [get_unassigned_congr hIpres.1 hIpres.2.1]
            have hdec := unassigned_assign_length
              (searchValues flags (searchVar flags b u) b).2 (searchVar flags b u)
              (s (searchVar flags b u)) hWF2 hvin2 h02
              (solution_ne_zero hsol (searchVar flags b u) hvin)
            rw [get_unassigned_congr hQpres.1 hQgrid, hlen] at hdec
            omega
          · intro r hr c hc
            rw [hIpres.1] at hr hc ⊢
            refine (inferStep_domains_subset flags (f + 1) (searchVar flags b u)
              (s (searchVar flags b u)) _ (r, c)).trans (Finset.union_subset ?_ ?_)
            · exact DomOK_assign _ _ _ hD2 hsvIcc2 r hr c hc
            · exact Finset.singleton_subset_iff.mpr hsvIcc2
          · rw [hIpres.1, hIpres.2.2]
            exact hsol2
          · rw [acBound_congr hIpres.1 hIpres.2.2, acBound_assign,
              acBound_congr hQpres.1 hQpres.2]
            omega
        exact tryValues_complete (backtracking_search flags f) flags (f + 1)
          (searchVar flags b u) (searchValues flags (searchVar flags b u) b).2
          (backtracking_search_pres flags f) (search_fail_grid flags f) h02
          (s (searchVar flags b u)) (searchValues flags (searchVar flags b u) b).1
          hsv_mem hstep

theorem solve_complete (flags : Flags) (s : Cell → Nat) (fuel : Nat) (b : Board)
    (hWF : WF b) (hD : DomOK b) (hS : SAdm b s) (hGS : GridSub b s)
    (hsol : IsSolution b.size b.constraints s)
    (hfuel : b.get_unassigned_variables.length + acBound b ≤ fuel) :
    (solve flags fuel b).1 = true := by
  by_cases ha : flags.use_ac2 = true
  · rw [solve, if_pos ha]
    have hac := ac2_complete s fuel b hWF hsol hS hD (by omega)
    rw [if_pos hac.1]
    have hfr := ac2_frame fuel b
    refine search_complete flags s b.get_unassigned_variables.length fuel
      (ac2 fuel b).2 ?_ (WF_congr hfr.1 hfr.2.1 hfr.2.2 hWF)
      (DomOK_subset_trans hfr.1 (fun c => ac2_domains_subset fuel b c) hD)
      hac.2 (GridSub_congr hfr.1 hfr.2.1 s hGS) ?_ ?_
    · rw [get_unassigned_congr hfr.1 hfr.2.1]
    · rw [hfr.1, hfr.2.2]
      exact hsol
    · rw [acBound_congr hfr.1 hfr.2.2]
      exact hfuel
  · rw [solve, if_neg ha]
    exact search_complete flags s _ fuel b rfl hWF hD hS hGS hsol hfuel

/-- A grid agreeing with a solution on its assigned cells is valid. -/
theorem gridOK_of_solution (b : Board) (s : Cell → Nat) (hWF : WF b)
    (hsol : IsSolution b.size b.constraints s) (hGS : GridSub b s) : GridOK b := by
  have hGS2 : ∀ cell : Cell, inB b.size cell → gridGet b.grid cell ≠ 0 →
      gridGet b.grid cell = s cell := by
    intro cell hin
    obtain ⟨r0, c0⟩ := cell
    exact hGS r0 hin.1 c0 hin.2
  refine ⟨?_, ?_, ?_, ?_⟩
  · intro r hr c hc hne
    rw [hGS r hr c hc hne]
    exact hsol.1 r hr c hc
  · intro r hr c1 hc1 c2 hc2 hne h1
    rw [hGS r hr c1 hc1 h1]
    by_cases h2 : gridGet b.grid (r, c2) = 0
    · rw [h2]
      exact solution_ne_zero hsol (r, c1) ⟨hr, hc1⟩
    · rw [hGS r hr c2 hc2 h2]
      exact hsol.2.1 r hr c1 hc1 c2 hc2 hne
  · intro c hc r1 hr1 r2 hr2 hne h1
    rw [hGS r1 hr1 c hc h1]
    by_cases h2 : gridGet b.grid (r2, c) = 0
    · rw [h2]
      exact solution_ne_zero hsol (r1, c) ⟨hr1, hc⟩
    · rw [hGS r2 hr2 c hc h2]
      exact hsol.2.2.1 c hc r1 hr1 r2 hr2 hne
  · intro cst hcst h1 h2
    have hend := hWF.2.2 cst hcst
    rw [hGS2 cst.1 hend.1 h1, hGS2 cst.2.1 hend.2 h2]
    exact hsol.2.2.2 cst hcst

/-- `solve` soundness at the board level (success yields a complete valid
extension), for both `use_ac2` settings. -/
theorem solve_sound (flags : Flags) (fuel : Nat) (b : Board)
    (hWF : WF b) (hG : GridOK b) (hD : DomOK b)
    (hs : (solve flags fuel b).1 = true) :
    SearchOK b (solve flags fuel b).2 := by
  by_cases ha : flags.use_ac2 = true
  · rw [solve, if_pos ha] at hs ⊢
    by_cases hpre : (ac2 fuel b).1 = true
    · rw [if_pos hpre] at hs ⊢
      have hfr := ac2_frame fuel b
      obtain ⟨h1, h2, h3, h4, h5, h6⟩ := search_sound flags fuel (ac2 fuel b).2
        (WF_congr hfr.1 hfr.2.1 hfr.2.2 hWF)
        (GridOK_congr hfr.1 hfr.2.1 hfr.2.2 hG)
        (DomOK_subset_trans hfr.1 (fun c => ac2_domains_subset fuel b c) hD) hs
      refine ⟨h1, h2, h3, h4.trans hfr.1, h5.trans hfr.2.2, ?_⟩
      intro r hr c hc hne
      have hx := h6 r (by rw [hfr.1]; exact hr) c (by rw [hfr.1]; exact hc)
        (by rw [hfr.2.1]; exact hne)
      rw [hx, hfr.2.1]
    · rw [if_neg hpre] at hs
      cases hs
  · rw [solve, if_neg ha] at hs ⊢
    exact search_sound flags fuel b hWF hG hD hs

theorem foldl_enforce_sadm {size : Nat} {cs : List Cstr} {s : Cell → Nat}
    (hsol : IsSolution size cs s) (G : List (List Nat))
    (hg : ∀ cell : Cell, inB size cell → gridGet G cell ≠ 0 →
      gridGet G cell = s cell) :
    ∀ (l : List Cell) (d : Cell → Finset Nat),
      (∀ cell ∈ l, inB size cell) →
      (∀ cell : Cell, inB size cell → s cell ∈ d cell) →
      ∀ cell : Cell, inB size cell →
        s cell ∈ (l.foldl (fun d cell =>
          if gridGet G cell ≠ 0 then
            enforceAllDifferent size d cell (gridGet G cell)
          else d) d) cell := by
  intro l
  induction l with
  | nil => intro d _ hd cell hin; exact hd cell hin
  | cons x xs ih =>
    intro d hl hd cell hin
    rw [List.foldl_cons]
    refine ih _ (fun c hc => hl c (List.mem_cons_of_mem _ hc)) ?_ cell hin
    intro c hc
    by_cases hx : gridGet G x ≠ 0
    · rw [if_pos hx]
      simp only [enforceAllDifferent]
      by_cases hcond : (c.1 = x.1 ∧ c.2 ≠ x.2 ∧ c.2 < size) ∨
          (c.2 = x.2 ∧ c.1 ≠ x.1 ∧ c.1 < size)
      · rw [if_pos hcond, Finset.mem_erase]
        refine ⟨?_, hd c hc⟩
        have hxin : inB size x := hl x (List.mem_cons_self ..)
        rw [hg x hxin hx]
        have hne : c ≠ x := by
          rcases hcond with ⟨_, h2, _⟩ | ⟨_, h2, _⟩
          · exact fun he => h2 (congrArg Prod.snd he)
          · exact fun he => h2 (congrArg Prod.fst he)
        have hrc : sameRC c x = true := by
          rw [sameRC, Bool.or_eq_true, beq_iff_eq, beq_iff_eq]
          rcases hcond with ⟨h1, _, _⟩ | ⟨h1, _, _⟩
          · exact Or.inl h1
          · exact Or.inr h1
        exact solution_distinct hsol c x hc hxin hne hrc
      · rw [if_neg hcond]
        exact hd c hc
    · rw [if_neg hx]
      exact hd c hc

theorem foldl_enforce_shrink (size : Nat) (G : List (List Nat)) :
    ∀ (l : List Cell) (d : Cell → Finset Nat) (cell : Cell),
      (l.foldl (fun d cell =>
        if gridGet G cell ≠ 0 then
          enforceAllDifferent size d cell (gridGet G cell)
        else d) d) cell ⊆ d cell := by
  intro l
  induction l with
  | nil => intro d cell; exact fun v hv => hv
  | cons x xs ih =>
    intro d cell
    rw [List.foldl_cons]
    refine (ih _ cell).trans ?_
    by_cases hx : gridGet G x ≠ 0
    · rw [if_pos hx]
      simp only [enforceAllDifferent]
      split
      · exact Finset.erase_subset _ _
      · exact fun v hv => hv
    · rw [if_neg hx]

/-- The constructor's domain initialization and all-different pruning keep
every solution value available (given the clues agree with the solution). -/
theorem initBoard_sadm (size : Nat) (og : Option (List (List Nat)))
    (cs : List Cstr) (s : Cell → Nat) (hsol : IsSolution size cs s)
    (hGS : GridSub (initBoard size og cs) s) :
    SAdm (initBoard size og cs) s := by
  have hdom : (initBoard size og cs).domains =
      (allCells size).foldl (fun d cell =>
        if gridGet (initBoard size og cs).grid cell ≠ 0 then
          enforceAllDifferent size d cell (gridGet (initBoard size og cs).grid cell)
        else d) (initDomains size (initBoard size og cs).grid) := rfl
  have hg : ∀ cell : Cell, inB size cell →
      gridGet (initBoard size og cs).grid cell ≠ 0 →
      gridGet (initBoard size og cs).grid cell = s cell := by
    intro cell hin
    obtain ⟨r0, c0⟩ := cell
    exact hGS r0 hin.1 c0 hin.2
  intro r hr c hc
  rw [hdom]
  refine foldl_enforce_sadm hsol (initBoard size og cs).grid hg (allCells size) _
    (fun cell hc2 => (mem_allCells size cell).mp hc2) ?_ (r, c) ⟨hr, hc⟩
  intro cell hin
  simp only [initDomains]
  by_cases h0 : gridGet (initBoard size og cs).grid cell = 0
  · rw [if_pos h0]
    obtain ⟨r0, c0⟩ := cell
    exact hsol.1 r0 hin.1 c0 hin.2
  · rw [if_neg h0, hg cell hin h0]
    exact Finset.mem_singleton_self _

theorem initBoard_domok (size : Nat) (og : Option (List (List Nat)))
    (cs : List Cstr) (s : Cell → Nat) (hsol : IsSolution size cs s)
    (hGS : GridSub (initBoard size og cs) s) :
    DomOK (initBoard size og cs) := by
  have hdom : (initBoard size og cs).domains =
      (allCells size).foldl (fun d cell =>
        if gridGet (initBoard size og cs).grid cell ≠ 0 then
          enforceAllDifferent size d cell (gridGet (initBoard size og cs).grid cell)
        else d) (initDomains size (initBoard size og cs).grid) := rfl
  have hg : ∀ cell : Cell, inB size cell →
      gridGet (initBoard size og cs).grid cell ≠ 0 →
      gridGet (initBoard size og cs).grid cell = s cell := by
    intro cell hin
    obtain ⟨r0, c0⟩ := cell
    exact hGS r0 hin.1 c0 hin.2
  show ∀ r < size, ∀ c < size,
    (initBoard size og cs).domains (r, c) ⊆ Finset.Icc 1 size
  intro r hr c hc
  rw [hdom]
  refine (foldl_enforce_shrink size (initBoard size og cs).grid
    (allCells size) _ (r, c)).trans ?_
  simp only [initDomains]
  by_cases h0 : gridGet (initBoard size og cs).grid (r, c) = 0
  · rw [if_pos h0]
  · rw [if_neg h0]
    refine Finset.singleton_subset_iff.mpr ?_
    rw [hg (r, c) ⟨hr, hc⟩ h0]
    exact hsol.1 r hr c hc

theorem grid_eq_of_pointwise (g1 g2 : List (List Nat)) (n : Nat)
    (h1 : g1.length = n) (h2 : g2.length = n)
    (hr1 : ∀ row ∈ g1, row.length = n) (hr2 : ∀ row ∈ g2, row.length = n)
    (hp : ∀ r < n, ∀ c < n, gridGet g1 (r, c) = gridGet g2 (r, c)) :
    g1 = g2 := by
  refine List.ext_getElem (h1.trans h2.symm) ?_
  intro i hi1 hi2
  have hin : i < n := h1 ▸ hi1
  have hrow1 : g1[i].length = n := hr1 _ (List.getElem_mem hi1)
  have hrow2 : g2[i].length = n := hr2 _ (List.getElem_mem hi2)
  refine List.ext_getElem (hrow1.trans hrow2.symm) ?_
  intro j hj1 hj2
  have hjn : j < n := hrow1 ▸ hj1
  have hg := hp i hin j hjn
  simp only [gridGet] at hg
  rw [List.getD_eq_getElem g1 [] hi1, List.getD_eq_getElem g2 [] hi2] at hg
  rw [List.getD_eq_getElem _ 0 hj1, List.getD_eq_getElem _ 0 hj2] at hg
  exact hg

/-- On a board admitting a unique solution, `solve` succeeds (given enough
fuel) and its final grid is exactly the solution, pointwise and in shape. -/
theorem solve_unique_grid (flags : Flags) (fuel : Nat) (b : Board)
    (s : Cell → Nat) (hWF : WF b) (hD : DomOK b) (hS : SAdm b s)
    (hGS : GridSub b s) (hsol : IsSolution b.size b.constraints s)
    (huniq : ∀ t : Cell → Nat, IsSolution b.size b.constraints t →
      (∀ r < b.size, ∀ c < b.size, gridGet b.grid (r, c) ≠ 0 →
        gridGet b.grid (r, c) = t (r, c)) →
      ∀ r < b.size, ∀ c < b.size, t (r, c) = s (r, c))
    (hfuel : b.get_unassigned_variables.length + acBound b ≤ fuel) :
    (solve flags fuel b).1 = true ∧
    (∀ r < b.size, ∀ c < b.size,
      gridGet (solve flags fuel b).2.grid (r, c) = s (r, c)) ∧
    (solve flags fuel b).2.grid.length = b.size ∧
    (∀ row ∈ (solve flags fuel b).2.grid, row.length = b.size) := by
  have hsucc := solve_complete flags s fuel b hWF hD hS hGS hsol hfuel
  have hGOK := gridOK_of_solution b s hWF hsol hGS
  obtain ⟨hWFr, hGr, hCr, hszr, hcsr, hext⟩ := solve_sound flags fuel b hWF hGOK hD hsucc
  have hCrb : ∀ r < b.size, ∀ c < b.size,
      gridGet (solve flags fuel b).2.grid (r, c) ≠ 0 := by
    intro r hr c hc
    exact hCr r (by rw [hszr]; exact hr) c (by rw [hszr]; exact hc)
  have hISt : IsSolution b.size b.constraints
      (fun cell => gridGet (solve flags fuel b).2.grid cell) := by
    refine ⟨?_, ?_, ?_, ?_⟩
    · intro r hr c hc
      have hx := hGr.1 r (by rw [hszr]; exact hr) c (by rw [hszr]; exact hc)
        (hCrb r hr c hc)
      rw [hszr] at hx
      exact hx
    · intro r hr c1 hc1 c2 hc2 hne
      exact hGr.2.1 r (by rw [hszr]; exact hr) c1 (by rw [hszr]; exact hc1)
        c2 (by rw [hszr]; exact hc2) hne (hCrb r hr c1 hc1)
    · intro c hc r1 hr1 r2 hr2 hne
      exact hGr.2.2.1 c (by rw [hszr]; exact hc) r1 (by rw [hszr]; exact hr1)
        r2 (by rw [hszr]; exact hr2) hne (hCrb r1 hr1 c hc)
    · intro cst hcst
      have hcstr : cst ∈ (solve flags fuel b).2.constraints := by
        rw [hcsr]
        exact hcst
      have hend := hWF.2.2 cst hcst
      exact hGr.2.2.2 cst hcstr
        (hCrb cst.1.1 hend.1.1 cst.1.2 hend.1.2)
        (hCrb cst.2.1.1 hend.2.1 cst.2.1.2 hend.2.2)
  have hexts : ∀ r < b.size, ∀ c < b.size, gridGet b.grid (r, c) ≠ 0 →
      gridGet b.grid (r, c) =
        (fun cell => gridGet (solve flags fuel b).2.grid cell) (r, c) := by
    intro r hr c hc hne
    exact (hext r hr c hc hne).symm
  refine ⟨hsucc, huniq _ hISt hexts, ?_, ?_⟩
  · rw [hWFr.1, hszr]
  · intro row hrow
    rw [hWFr.2.1 row hrow, hszr]

instance (size : Nat) (cs : List Cstr) (s : Cell → Nat) :
    Decidable (IsSolution size cs s) := by
  rw [IsSolution]
  exact @instDecidableAnd _ _ (Nat.decidableBallLT _ _)
    (@instDecidableAnd _ _ (Nat.decidableBallLT _ _)
      (@instDecidableAnd _ _ (Nat.decidableBallLT _ _) (List.decidableBAll _ _)))

instance (b : Board) (s : Cell → Nat) : Decidable (GridSub b s) := by
  rw [GridSub]; infer_instance

/-- C2 (confirmed). Flag-combination agreement: for every puzzle (a
well-formed instance built by the constructor, whose clues agree with a
solution `s` that is the unique solution extending those clues), there is
a fuel threshold past which `solve` run under every combination of the
four option flags reports success, and any two flag combinations leave
the identical final grid. -/
theorem flag_agreement (size : Nat) (g : List (List Nat)) (cs : List Cstr)
    (s : Cell → Nat)
    (hWF : WF (initBoard size (some g) cs))
    (hsol : IsSolution size cs s)
    (hGS : GridSub (initBoard size (some g) cs) s)
    (huniq : ∀ t : Cell → Nat, IsSolution size cs t →
      (∀ r < size, ∀ c < size,
        gridGet (initBoard size (some g) cs).grid (r, c) ≠ 0 →
        gridGet (initBoard size (some g) cs).grid (r, c) = t (r, c)) →
      ∀ r < size, ∀ c < size, t (r, c) = s (r, c)) :
    ∃ N : Nat, ∀ fuel : Nat, N ≤ fuel → ∀ F1 F2 : Flags,
      (solve F1 fuel (initBoard size (some g) cs)).1 = true ∧
      (solve F1 fuel (initBoard size (some g) cs)).2.grid =
        (solve F2 fuel (initBoard size (some g) cs)).2.grid := by
  refine ⟨(initBoard size (some g) cs).get_unassigned_variables.length +
    acBound (initBoard size (some g) cs), ?_⟩
  intro fuel hfuel F1 F2
  have hS := initBoard_sadm size (some g) cs s hsol hGS
  have hD := initBoard_domok size (some g) cs s hsol hGS
  have h1 := solve_unique_grid F1 fuel (initBoard size (some g) cs) s hWF hD hS
    hGS hsol huniq hfuel
  have h2 := solve_unique_grid F2 fuel (initBoard size (some g) cs) s hWF hD hS
    hGS hsol huniq hfuel
  refine ⟨h1.1, ?_⟩
  refine grid_eq_of_pointwise _ _ size h1.2.2.1 h2.2.2.1 h1.2.2.2 h2.2.2.2 ?_
  intro r hr c hc
  rw [h1.2.1 r hr c hc, h2.2.1 r hr c hc]

theorem flag_agreement_witness :
    WF (initBoard 1 (some [[0]]) []) ∧
    IsSolution 1 [] (fun _ => 1) ∧
    GridSub (initBoard 1 (some [[0]]) []) (fun _ => 1) ∧
    ∃ N : Nat, ∀ fuel : Nat, N ≤ fuel → ∀ F1 F2 : Flags,
      (solve F1 fuel (initBoard 1 (some [[0]]) [])).1 = true ∧
      (solve F1 fuel (initBoard 1 (some [[0]]) [])).2.grid =
        (solve F2 fuel (initBoard 1 (some [[0]]) [])).2.grid :=
  ⟨by decide, by decide, by decide,
    flag_agreement 1 [[0]] [] (fun _ => 1) (by decide) (by decide) (by decide)
      (by
        intro t hIs hext r hr c hc
        show t (r, c) = 1
        have h2 := hIs.1 r hr c hc
        rw [Finset.mem_Icc] at h2
        omega)⟩
